import Mathlib

/-!
# Amhash sealing and verification core

A shallow embedding of the Go package `consensus/amhash` (files `consensus.go`,
`sealer.go`, `algorithm.go`), of the remote agent of package `miner`, of the work
package of `man/api.go`, of the state switches of `core/blockchain_state.go` and of
the legacy header of `core/types`, together with the facts proved about them.

Conventions of the embedding:

* a Go `[]byte` is a `List Byte`, a Go `string` (and the text a `MarshalText`
  produces) is a `List Char`, one character per byte;
* a `*big.Int` is an `Int`, `big.Int.Div` is Euclidean division, which is what
  `/` on `Int` computes;
* a `uint64` or `int` is a `Nat` or `Int` with the wrap-around written out;
* a Go `error` result is an `Except Err Unit`; a call that may never answer
  (the nonce search, the AI stage) takes a bound on the number of rounds and
  returns an `Option`.
-/

namespace Matrix

/-! ## Bytes and hexadecimal text -/

/-- One byte. -/
abbrev Byte := Fin 256

/-- The digit table of `encoding/hex`. -/
def hexDigit (n : Nat) : Char :=
  "0123456789abcdef".toList.getD n '0'

/-- The value of one hexadecimal digit, as `encoding/hex` reads it: both letter
cases are accepted. -/
def fromHexChar (c : Char) : Option Nat :=
  if '0' ≤ c ∧ c ≤ '9' then some (c.toNat - 48)
  else if 'a' ≤ c ∧ c ≤ 'f' then some (c.toNat - 97 + 10)
  else if 'A' ≤ c ∧ c ≤ 'F' then some (c.toNat - 65 + 10)
  else none

/-- Helper `common.Bytes2Hex`, that is `hex.EncodeToString`: two lower-case
digits per byte. -/
def Bytes2Hex (b : List Byte) : List Char :=
  b.flatMap (fun x => [hexDigit (x.val / 16), hexDigit (x.val % 16)])

/-- Helper `common.Hex2Bytes`, that is `hex.DecodeString` with the error dropped:
the digit pairs are decoded from the left up to the first malformed pair. -/
def Hex2Bytes : List Char → List Byte
  | a :: b :: rest =>
    match fromHexChar a, fromHexChar b with
    | some x, some y =>
      (⟨(16 * x + y) % 256, Nat.mod_lt _ (by decide)⟩ : Byte) :: Hex2Bytes rest
    | _, _ => []
  | _ => []

/-- Helper `common.ToHex`: `0x` followed by the digits, and `0x0` for no bytes. -/
def ToHex (b : List Byte) : List Char :=
  let hex := Bytes2Hex b
  '0' :: 'x' :: (if hex.length = 0 then ['0'] else hex)

/-- The first statement of `common.FromHex`: a leading `0x` or `0X` is dropped. -/
def drop0x : List Char → List Char
  | '0' :: 'x' :: r => r
  | '0' :: 'X' :: r => r
  | s => s

/-- Helper `common.FromHex`: an optional `0x` or `0X` is dropped, an odd number of
digits is padded with a leading `0`, then the digits are decoded. -/
def FromHex (s : List Char) : List Byte :=
  Hex2Bytes (if (drop0x s).length % 2 = 1 then '0' :: drop0x s else drop0x s)

/-- The call `strings.TrimPrefix(s, "0x")`. -/
def trimPrefix0x : List Char → List Char
  | '0' :: 'x' :: r => r
  | s => s

/-- The big-endian number a byte string stands for (`big.Int.SetBytes`,
`binary.BigEndian.Uint64`). -/
def beNat (b : List Byte) : Nat :=
  b.foldl (fun acc x => acc * 256 + x.val) 0

/-- The `w` bytes of the big-endian encoding of `v` (`binary.BigEndian.PutUint32`,
`PutUint64`, and `binary.Write` of an unsigned integer in big-endian order). -/
def putBE (w v : Nat) : List Byte :=
  (List.range w).map
    (fun i => (⟨(v / 256 ^ (w - 1 - i)) % 256, Nat.mod_lt _ (by decide)⟩ : Byte))

/-- The value of a non-empty string of hexadecimal digits, `none` for any other
string. -/
def parseHexDigits (d : List Char) : Option Nat :=
  if d = [] then none
  else d.foldl (fun acc c => acc.bind (fun a => (fromHexChar c).map (fun v => a * 16 + v)))
    (some 0)

/-- The number read by `big.Int.SetString(s, 16)`, or `none` when the call reports
failure: an optional sign followed by at least one hexadecimal digit. -/
def bigSetString16 (s : List Char) : Option Int :=
  match s with
  | '-' :: d => (parseHexDigits d).map (fun n => - (n : Int))
  | '+' :: d => (parseHexDigits d).map (fun n => (n : Int))
  | d => (parseHexDigits d).map (fun n => (n : Int))

/-- A 32-byte `common.Hash`. -/
structure Hash where
  bytes : List Byte
  size : bytes.length = 32
deriving DecidableEq

/-- A 20-byte `common.Address`. -/
structure Address where
  bytes : List Byte
  size : bytes.length = 20
deriving DecidableEq

/-- An 8-byte `types.BlockNonce`. -/
structure BlockNonce where
  bytes : List Byte
  size : bytes.length = 8
deriving DecidableEq

/-- The zero value `common.Hash{}`. -/
def Hash.zero : Hash := ⟨List.replicate 32 0, by simp⟩

/-- Method `Hash.Hex`: `0x` followed by the 64 digits. -/
def Hash.Hex (h : Hash) : List Char := '0' :: 'x' :: Bytes2Hex h.bytes

/-- Method `Hash.Big`. -/
def Hash.Big (h : Hash) : Int := (beNat h.bytes : Int)

/-- Method `Address.Big`. -/
def Address.Big (a : Address) : Int := (beNat a.bytes : Int)

/-- Helper `common.BytesToHash`: the bytes are right-aligned in 32 bytes, only the
last 32 being kept when there are more. -/
def BytesToHash (b : List Byte) : Hash :=
  ⟨List.replicate (32 - (b.drop (b.length - 32)).length) 0 ++ b.drop (b.length - 32), by
    simp only [List.length_append, List.length_replicate, List.length_drop]; omega⟩

/-- Helper `common.HexToHash`. -/
def HexToHash (s : List Char) : Hash := BytesToHash (FromHex s)

/-- Function `types.EncodeNonce`: the big-endian bytes of a `uint64`. -/
def EncodeNonce (i : Nat) : BlockNonce :=
  ⟨putBE 8 (i % 2 ^ 64), by simp [putBE]⟩

/-- Method `BlockNonce.Uint64`. -/
def BlockNonce.Uint64 (n : BlockNonce) : Nat := beNat n.bytes

/-- Function `uint32ToBytes` of `algorithm.go`; the argument is the `uint32`. -/
def uint32ToBytes (num : Nat) : List Byte := putBE 4 num

/-- The in-place effect of `Reverse` on its argument. -/
def Reverse {α : Type} (s : List α) : List α := s.reverse

/-- The string `Reverse` returns: the hex text of the reversed bytes. -/
def ReverseHex (s : List Byte) : List Char := ToHex (Reverse s)

/-- Function `reverseHashString`: after the `0x` is trimmed, the 8-character
groups are copied from the back of the string to the front. The loop indexes out
of range, and the call panics (`none`), unless the length is a multiple of 8. -/
def reverseHashString (str : List Char) : Option (List Char) :=
  let source := trimPrefix0x str
  let len := source.length
  if len % 8 = 0 then
    some ((List.range (len / 8)).flatMap (fun q => (source.drop (len - 8 * q - 8)).take 8))
  else none

/-- Function `hashString2LittleEndian`: the first 32 decoded bytes are taken in
4-byte groups, each group is reversed, and the result is printed without `0x`.
With fewer than 32 decoded bytes the slices `in[k:k+4]` reach past the decoded
bytes: the call panics or reads what the buffer of `hex.DecodeString` holds behind
them, which the sources at hand do not determine; the model gives `none` there. -/
def hashString2LittleEndian (hash : List Char) : Option (List Char) :=
  let input := FromHex (trimPrefix0x hash)
  if 32 ≤ input.length then
    some (trimPrefix0x (ToHex
      ((List.range 8).flatMap (fun q => Reverse ((input.drop (4 * q)).take 4)))))
  else none

/-! ## Headers, errors and the collaborators of the engine -/

/-- The header fields the engine reads. `other` stands for the remaining fields
(roots, sharding, election, topology, signatures), which only enter the hashes
and the super-header test. -/
structure Header where
  ParentHash : Hash
  UncleHash : Hash
  Leader : Address
  Coinbase : Address
  Difficulty : Int
  Number : Int
  GasLimit : Nat
  GasUsed : Nat
  Time : Int
  Extra : List Byte
  MixDigest : Hash
  Nonce : BlockNonce
  Version : List Byte
  VrfValue : List Byte
  AIHash : Hash
  other : List Byte
deriving DecidableEq

/-- A `types.Block` as `VerifyUncles` reads it. The type is not part of the sources
at hand; a block is given by the answers of its methods `Header`, `Uncles`,
`ParentHash`, `NumberU64` and `Hash`. -/
structure Block where
  Header : Matrix.Header
  Uncles : List Matrix.Header
  ParentHash : Matrix.Hash
  NumberU64 : Nat
  Hash : Matrix.Hash
deriving DecidableEq

/-- The errors of `consensus.go`, those of package `consensus` it returns, the
formatted errors (one constructor per format string, carrying the printed values)
and the errors handed over by collaborators. -/
inductive Err where
  | errLargeBlockTime
  | errZeroBlockTime
  | errTooManyUncles
  | errDuplicateUncle
  | errUncleIsAncestor
  | errDanglingUncle
  | errInvalidDifficulty
  | errInvalidMixDigest
  | errInvalidPoW
  | errCoinbase
  | errInvalidAIMine
  | ErrUnknownAncestor
  | ErrFutureBlock
  | ErrInvalidNumber
  | extraDataTooLong (len max : Nat)
  | calcDifficultyErr (cause : Err)
  | invalidDifficulty (got want : Int)
  | invalidGasLimitCap (got max : Nat)
  | invalidGasUsed (got gasLimit : Nat)
  | invalidGasLimit (got parent limit : Nat)
  | aiMineProcessErr (cause : Err)
  | external (code : Nat)
deriving DecidableEq

/-- The result of a Go function returning `error`. -/
abbrev Result := Except Err Unit

/-- The text methods of `types.BlockNonce`, which are not part of the sources at
hand: `MarshalText n` is the text of `n`, and `UnmarshalText n input` is the value
of the receiver `n` after the call `n.UnmarshalText(input)`. -/
structure NonceText where
  MarshalText : BlockNonce → List Char
  UnmarshalText : BlockNonce → List Char → BlockNonce

/-- The three statements `MarshalText`, `Reverse`, `UnmarshalText` applied to a
nonce in `mine`, `VerifySeal` and `combinationData`; the errors are ignored
there. -/
def NonceText.reversed (t : NonceText) (n : BlockNonce) : BlockNonce :=
  t.UnmarshalText n (Reverse (t.MarshalText n))

/-- The contract of the text methods in the `hexutil` package the repository
inherits: `MarshalText` prints `0x` and the 16 digits, and `UnmarshalText` leaves
the receiver as it is, reporting an error, when the text does not start with `0x`
or `0X`. -/
def NonceText.Hexutil (t : NonceText) : Prop :=
  (∀ n, t.MarshalText n = '0' :: 'x' :: Bytes2Hex n.bytes) ∧
  (∀ n c d r, ¬ (c = '0' ∧ (d = 'x' ∨ d = 'X')) → t.UnmarshalText n (c :: d :: r) = n)

/-- The text methods as `hexutil` implements them: a text is accepted when it is
`0x` or `0X` followed by exactly 16 hexadecimal digits. -/
def hexutilText : NonceText where
  MarshalText := fun n => '0' :: 'x' :: Bytes2Hex n.bytes
  UnmarshalText := fun n input =>
    match input with
    | c :: d :: raw =>
      if c = '0' ∧ (d = 'x' ∨ d = 'X') then
        if h : raw.length = 16 ∧ (Hex2Bytes raw).length = 8 then ⟨Hex2Bytes raw, h.2⟩ else n
      else n
    | _ => n

/-- The roles of an account in the topology graph; only the miner role is named
by the engine. -/
inductive RoleType where
  | RoleMiner
  | otherRole (n : Nat)
deriving DecidableEq

/-- The topology graph returned by the chain reader, with its method. -/
structure TopologyGraph where
  CheckAccountRole : Address → RoleType → Bool

/-- The chain configuration, with the two fork tests the engine calls. -/
structure ChainConfig where
  IsHomestead : Int → Bool
  IsByzantium : Int → Bool

/-- The methods of `consensus.ChainReader` the engine calls. -/
structure ChainReader where
  Config : ChainConfig
  GetHeader : Hash → Nat → Option Header
  GetBlock : Hash → Nat → Option Block
  GetMinDifficulty : Hash → Except Err Int
  GetGraphByHash : Hash → Except Err TopologyGraph
  GetInnerMinerAccounts : Hash → Except Err (List Address)

/-- The functions and constants the engine takes from other packages: the `x11`
hash, the nonce text methods, the header hashes, the super-header test, the VRF
decoder, the stream of `Intn` values of `math/rand` (seed, bound, index of the
call), the native AI digger (`none` when it never answers), `filepath.Join`,
the comparison of a version with `VersionGamma`, the two duration limits and the
hard-fork checks of package `misc` (`none` for no error, `some code` for one of
the errors of that package). -/
structure Env where
  x11 : List Byte → List Byte
  nonceText : NonceText
  HashNoNonce : Header → Hash
  HeaderHash : Header → Hash
  IsSuperHeader : Header → Bool
  EmptyUncleHash : Hash
  GetVrfInfoFromHeader : List Byte → List Byte
  Intn : Int → Int → Nat → Int
  AIDigging : Int → List String → Option (Except Err (List Byte))
  filepathJoin : String → String → String
  VersionCmpGamma : List Byte → Int
  DurationLimit : PNat
  VersionGammaDurationLimit : PNat
  VerifyDAOHeaderExtraData : ChainConfig → Header → Option Nat
  VerifyForkHashes : ChainConfig → Header → Bool → Option Nat

/-- Modelled from the spec: `params.MaximumExtraDataSize`, absent from the sources;
the spec bounds the extra data by 32 bytes. -/
def MaximumExtraDataSize : Nat := 32

/-- Modelled from the spec: `params.GasLimitBoundDivisor`, absent from the sources;
the spec divides the parent gas limit by 1024. -/
def GasLimitBoundDivisor : Nat := 1024

/-- Modelled from the spec: `params.MinGasLimit`, absent from the sources; the
spec asks for a gas limit of at least 5000. -/
def MinGasLimit : Nat := 5000

/-- Modelled from the spec: `params.DifficultyBoundDivisor`, absent from the
sources; the spec divides the parent difficulty by 2048. -/
def DifficultyBoundDivisor : Int := 2048

/-- Modelled from the spec: the package variable `maxUint256` of `amhash.go`, absent
from the sources; the spec computes the target as the quotient of `2^256` by the
difficulty. (For a broadcast node the spec writes the target `2^256 - 1`; a share
of 32 bytes exceeds neither.) -/
def maxUint256 : Int := 2 ^ 256

/-- Modelled from the spec: the constant `math.MaxBig256` of `common/math`, absent
from the sources; the spec speaks of a large block time only, and the bound taken
is the one the name of the constant states, `2^256 - 1`. -/
def MaxBig256 : Int := 2 ^ 256 - 1

/-- The modes of the engine. -/
inductive Mode where
  | ModeNormal
  | ModeShared
  | ModeTest
  | ModeFake
  | ModeFullFake
deriving DecidableEq

/-- The engine configuration. -/
structure Config where
  PowMode : Mode
  PictureStorePath : String

/-- The engine fields the verifier and the sealer read. The shared engine, when
there is one, is given by its own configuration and fake-fail number; it has no
shared engine of its own. -/
structure Amhash where
  config : Config
  fakeFail : Nat
  shared : Option (Config × Nat)

/-- Method `big.Int.Uint64`: the low 64 bits of the absolute value. -/
def bigUint64 (x : Int) : Nat := x.natAbs % 2 ^ 64

/-- Conversion of a `uint64` to `int64`, and the value `big.Int.Int64` returns for
a non-negative number: the low 64 bits read in two's complement. -/
def toInt64 (n : Nat) : Int :=
  if n % 2 ^ 64 < 2 ^ 63 then ((n % 2 ^ 64 : Nat) : Int) else ((n % 2 ^ 64 : Nat) : Int) - 2 ^ 64

/-- The value an `int64` variable holds after an operation whose exact result is
`z`. -/
def wrapInt64 (z : Int) : Int := toInt64 (z % 2 ^ 64).toNat

/-! ## The mining payload and the nonce search (`sealer.go`, `consensus.go`) -/

/-- Function `combinationData`: the 80-byte payload handed to `x11`. The header is
copied, so the caller keeps its nonce. `binary.Write` copies a hash (a byte array)
and a byte slice as they are, whatever the byte order asked for. -/
def combinationData (E : Env) (originalheader : Header) : Option (List Byte) :=
  let header := originalheader
  match (reverseHashString (E.HashNoNonce header).Hex).bind hashString2LittleEndian,
      (reverseHashString header.AIHash.Hex).bind hashString2LittleEndian with
  | some headerHash, some aiHash =>
    let nonce := E.nonceText.reversed header.Nonce
    let nonce32 := uint32ToBytes (nonce.Uint64 % 2 ^ 32)
    some ((HexToHash headerHash).bytes ++ (HexToHash aiHash).bytes
      ++ putBE 8 0 ++ putBE 4 0 ++ nonce32)
  | _, _ => none

/-- The share of a digest: `Reverse`, `TrimPrefix`, then `SetString(_, 16)`. -/
def shareOf (result : List Byte) : Option Int :=
  bigSetString16 (trimPrefix0x (ReverseHex result))

/-- The search loop of `mine`. `fuel` counts the rounds run before the abort
channel is seen closed; `some h` means that `h` is sent on the found channel. The
hash-rate meter is left out. -/
def mineLoop (E : Env) (target : Int) : Nat → Header → Nat → Option Header
  | 0, _, _ => none
  | fuel + 1, curHeader, nonce =>
    match combinationData E curHeader with
    | none => none
    | some payload =>
      let next := mineLoop E target fuel
        { curHeader with Nonce := E.nonceText.reversed (EncodeNonce ((nonce + 1) % 2 ^ 64)) }
        ((nonce + 1) % 2 ^ 64)
      match shareOf (E.x11 payload) with
      | some shareBig => if shareBig ≤ target then some curHeader else next
      | none => next

/-- Function `mine`: the worker started by `Seal`. The division that computes the
target panics for a zero difficulty (`none`). -/
def mine (E : Env) (header : Header) (seed : Nat) (isBroadcastNode : Bool) (fuel : Nat) :
    Option Header :=
  if header.Difficulty = 0 then none
  else
    let target := if isBroadcastNode then maxUint256 else maxUint256 / header.Difficulty
    mineLoop E target fuel header seed

/-! ## The AI stage -/

/-- Function `isExistNum`. -/
def isExistNum (num : Int) : List Int → Bool
  | [] => false
  | item :: list => if num = item then true else isExistNum num list

/-- The loop of `getRandNums`: `k` values have been drawn so far; `fuel` bounds the
number of further draws. -/
def getRandNumsLoop (draw : Nat → Int) (count : Int) : Nat → Nat → List Int → Option (List Int)
  | fuel, k, result =>
    if (result.length : Int) < count then
      match fuel with
      | 0 => none
      | f + 1 =>
        if isExistNum (draw k) result then getRandNumsLoop draw count f (k + 1) result
        else getRandNumsLoop draw count f (k + 1) (result ++ [draw k])
    else some result

/-- Function `getRandNums`. -/
def getRandNums (E : Env) (seed : Int) (max count : Int) (fuel : Nat) : Option (List Int) :=
  if count > max then some []
  else getRandNumsLoop (E.Intn seed max) count fuel 0 []

/-- The variable `aiPictureMaxCount`. -/
def aiPictureMaxCount : Int := 64000

/-- The variable `aiPictureSize`. -/
def aiPictureSize : Int := 16

/-- Method `packPictureListByIndex`: the loop variable, not the index list, names
the pictures. -/
def packPictureListByIndex (E : Env) (amhash : Amhash) (_indexList : List Int) : List String :=
  (List.range 16).map
    (fun i => E.filepathJoin amhash.config.PictureStorePath ("test_" ++ toString i ++ ".jpg"))

/-- The seed computed at the head of `startAIMining`. -/
def aiSeed (E : Env) (header : Header) : Int :=
  toInt64 ((BytesToHash (E.GetVrfInfoFromHeader header.VrfValue)).Big
    + header.Coinbase.Big).toNat

/-- Method `startAIMining`: what it sends on the found channel (`ok`) or on the
error channel (`error`), if anything. -/
def startAIMining (E : Env) (amhash : Amhash) (header : Header) (fuel : Nat) :
    Option (Except Err (List Byte)) :=
  let seed := aiSeed E header
  match getRandNums E seed aiPictureMaxCount aiPictureSize fuel with
  | none => none
  | some indexList => E.AIDigging seed (packPictureListByIndex E amhash indexList)

/-- Method `aiMineProcess` when the stop channel never fires: the AI hash or the
error it returns, if it returns. A firing of the update channel restarts the same
computation. -/
def aiMineProcess (E : Env) (amhash : Amhash) (header : Header) (isBroadcastNode : Bool)
    (fuel : Nat) : Option (Except Err Hash) :=
  if isBroadcastNode then some (.ok Hash.zero)
  else
    match startAIMining E amhash header fuel with
    | none => none
    | some (.error err) => some (.error err)
    | some (.ok result) => some (.ok (BytesToHash result))

/-- The header one worker of `Seal` sends on the found channel, if any: the AI
stage fills `AIHash` in a copy of the header, then `mine` searches from `seed`. -/
def sealWorker (E : Env) (amhash : Amhash) (header : Header) (seed : Nat)
    (isBroadcastNode : Bool) (aiFuel fuel : Nat) : Option Header :=
  match aiMineProcess E amhash header isBroadcastNode aiFuel with
  | some (.ok aiHash) => mine E { header with AIHash := aiHash } seed isBroadcastNode fuel
  | _ => none

/-! ## Seal verification -/

/-- Method `verifyCoinbaseRole`. -/
def verifyCoinbaseRole (chain : ChainReader) (header : Header) : Result :=
  match chain.GetGraphByHash header.ParentHash with
  | .error _ => .error .errCoinbase
  | .ok preTopology =>
    if preTopology.CheckAccountRole header.Coinbase .RoleMiner then .ok ()
    else
      match chain.GetInnerMinerAccounts header.ParentHash with
      | .error _ => .error .errCoinbase
      | .ok innerMiners => if header.Coinbase ∈ innerMiners then .ok () else .error .errCoinbase

/-- The part of `VerifySeal` after the mode and shared-engine tests: the AI hash
is recomputed, the difficulty must be positive, and the share of the payload must
not exceed the target. The rewrite of the nonce of the header passed in is not
returned. -/
def verifySealProof (E : Env) (amhash : Amhash) (header : Header) (fuel : Nat) :
    Option Result :=
  match aiMineProcess E amhash header false fuel with
  | none => none
  | some (.error err) => some (.error (.aiMineProcessErr err))
  | some (.ok aiHash) =>
    if aiHash ≠ header.AIHash then some (.error .errInvalidAIMine)
    else if header.Difficulty ≤ 0 then some (.error .errInvalidDifficulty)
    else
      let curHeader := { header with Nonce := E.nonceText.reversed header.Nonce }
      match combinationData E curHeader with
      | none => none
      | some payload =>
        let target := maxUint256 / header.Difficulty
        match shareOf (E.x11 payload) with
        | some shareBig =>
          if shareBig > target then some (.error .errInvalidPoW) else some (.ok ())
        | none => some (.error .errInvalidPoW)

/-- The head of `VerifySeal` for an engine with the given configuration and
fake-fail number: the coinbase role, then the fake modes; `none` when neither
decides. -/
def verifySealHead (config : Config) (fakeFail : Nat) (chain : ChainReader) (header : Header) :
    Option Result :=
  match verifyCoinbaseRole chain header with
  | .error err => some (.error err)
  | .ok _ =>
    if config.PowMode = .ModeFake ∨ config.PowMode = .ModeFullFake then
      if fakeFail = bigUint64 header.Number then some (.error .errInvalidPoW) else some (.ok ())
    else none

/-- Method `VerifySeal`; `none` when the AI stage gives no answer within `fuel`
draws. -/
def VerifySeal (E : Env) (amhash : Amhash) (chain : ChainReader) (header : Header)
    (fuel : Nat) : Option Result :=
  match verifySealHead amhash.config amhash.fakeFail chain header with
  | some r => some r
  | none =>
    match amhash.shared with
    | some sh =>
      match verifySealHead sh.1 sh.2 chain header with
      | some r => some r
      | none => verifySealProof E { config := sh.1, fakeFail := sh.2, shared := none } header fuel
    | none => verifySealProof E amhash header fuel

/-! ## The difficulty calculator

The package variable `big1` is passed in and out explicitly: it is a shared
`*big.Int` which `calcDifficultyByzantium` can overwrite (the statement `y = big1`
makes `y` point to it, and `y.Sub` and `y.Exp` then write through `y`). Its
initial value is 1. The other package constants are only read. -/

/-- The call `z.Exp(big2, y, nil)`: the result is 1 for an exponent that is not
positive. -/
def bigExp2 (y : Int) : Int := if y ≤ 0 then 1 else 2 ^ y.toNat

/-- The constant `expDiffPeriod`. -/
def expDiffPeriod : Int := 100000

/-- Function `calcDifficultyByzantium`: the difficulty, and the value of `big1`
after the call. -/
def calcDifficultyByzantium (E : Env) (big1 : Int) (curVersion : List Byte) (time : Nat)
    (parent : Header) (minimumDifficulty : Int) : Int × Int :=
  let bigTime : Int := (time : Int)
  let bigParentTime := parent.Time
  let x0 := bigTime - bigParentTime
  let durationLimit : Int :=
    if E.VersionCmpGamma curVersion ≥ 0 then ((E.VersionGammaDurationLimit : Nat) : Int)
    else ((E.DurationLimit : Nat) : Int)
  let x1 := x0 / durationLimit
  let x2 := if parent.UncleHash = E.EmptyUncleHash then big1 - x1 else 2 - x1
  let x3 := if x2 < -99 then -99 else x2
  let y0 := parent.Difficulty / DifficultyBoundDivisor
  let y := if y0 = 0 then big1 else y0
  let x4 := parent.Difficulty + y * x3
  let x5 := if x4 < minimumDifficulty then minimumDifficulty else x4
  let fakeBlockNumber := if parent.Number ≥ 2999999 then parent.Number - 2999999 else 0
  let periodCount := fakeBlockNumber / expDiffPeriod
  if periodCount > big1 then
    (x5 + bigExp2 (periodCount - 2), if y0 = 0 then bigExp2 (periodCount - 2) else big1)
  else (x5, big1)

/-- Function `calcDifficultyHomestead`. -/
def calcDifficultyHomestead (big1 : Int) (time : Nat) (parent : Header)
    (minimumDifficulty : Int) : Int :=
  let x0 := ((time : Int) - parent.Time) / 10
  let x1 := big1 - x0
  let x2 := if x1 < -99 then -99 else x1
  let y := parent.Difficulty / DifficultyBoundDivisor
  let x3 := parent.Difficulty + y * x2
  let x4 := if x3 < minimumDifficulty then minimumDifficulty else x3
  let periodCount := (parent.Number + big1) / expDiffPeriod
  if periodCount > big1 then x4 + bigExp2 (periodCount - 2) else x4

/-- Helper `math.BigMax`. -/
def BigMax (x y : Int) : Int := if x < y then y else x

/-- Function `calcDifficultyFrontier`. -/
def calcDifficultyFrontier (E : Env) (big1 : Int) (time : Nat) (parent : Header)
    (minimumDifficulty : Int) : Int :=
  let adjust := parent.Difficulty / DifficultyBoundDivisor
  let diff0 :=
    if (time : Int) - parent.Time < ((E.DurationLimit : Nat) : Int) then parent.Difficulty + adjust
    else parent.Difficulty - adjust
  let diff1 := if diff0 < minimumDifficulty then minimumDifficulty else diff0
  let periodCount := (parent.Number + big1) / expDiffPeriod
  if periodCount > big1 then BigMax (diff1 + bigExp2 (periodCount - 2)) minimumDifficulty
  else diff1

/-- Function `CalcDifficulty`: the difficulty, and `big1` after the call. -/
def CalcDifficulty (E : Env) (big1 : Int) (config : ChainConfig) (curVersion : List Byte)
    (time : Nat) (parent : Header) (minimumDifficulty : Int) : Int × Int :=
  let next := parent.Number + big1
  if config.IsByzantium next then
    calcDifficultyByzantium E big1 curVersion time parent minimumDifficulty
  else if config.IsHomestead next then
    (calcDifficultyHomestead big1 time parent minimumDifficulty, big1)
  else (calcDifficultyFrontier E big1 time parent minimumDifficulty, big1)

/-- Method `Amhash.CalcDifficulty`: the minimum difficulty is read from the chain
state at the parent. -/
def Amhash.CalcDifficulty (E : Env) (big1 : Int) (chain : ChainReader) (curVersion : List Byte)
    (time : Nat) (parent : Header) : Except Err Int × Int :=
  match chain.GetMinDifficulty (E.HeaderHash parent) with
  | .error err => (.error err, big1)
  | .ok minDifficulty =>
    let r := Matrix.CalcDifficulty E big1 chain.Config curVersion time parent minDifficulty
    (.ok r.1, r.2)

/-- Method `Prepare`: the header with its difficulty set, and `big1` after the
call. -/
def Prepare (E : Env) (big1 : Int) (chain : ChainReader) (header : Header) :
    Except Err Header × Int :=
  match chain.GetHeader header.ParentHash ((bigUint64 header.Number + 2 ^ 64 - 1) % 2 ^ 64) with
  | none => (.error .ErrUnknownAncestor, big1)
  | some parent =>
    match Amhash.CalcDifficulty E big1 chain header.Version (bigUint64 header.Time) parent with
    | (.error err, b) => (.error (.calcDifficultyErr err), b)
    | (.ok difficulty, b) => (.ok { header with Difficulty := difficulty }, b)

/-! ## Header verification -/

/-- The difficulty test of `verifyHeader` (the block guarded by
`header.IsSuperHeader() == false`), with `big1` after it. -/
def checkDifficulty (E : Env) (big1 : Int) (chain : ChainReader) (header parent : Header) :
    Result × Int :=
  if E.IsSuperHeader header = false then
    match Amhash.CalcDifficulty E big1 chain header.Version (bigUint64 header.Time) parent with
    | (.error err, b) => (.error (.calcDifficultyErr err), b)
    | (.ok expected, b) =>
      if expected ≠ header.Difficulty then (.error (.invalidDifficulty header.Difficulty expected), b)
      else (.ok (), b)
  else (.ok (), big1)

/-- The variable `diff` of `verifyHeader` as it is compared with the limit: the
difference of the two gas limits computed in `int64`, negated when negative, and
converted to `uint64`. -/
def gasLimitDiff (parentGasLimit headerGasLimit : Nat) : Nat :=
  let diff0 := wrapInt64 (toInt64 parentGasLimit - toInt64 headerGasLimit)
  let diff := if diff0 < 0 then wrapInt64 (diff0 * -1) else diff0
  (diff % 2 ^ 64).toNat

/-- The gas tests of `verifyHeader`: the cap, the gas used, and the distance to the
parent gas limit together with the minimum gas limit. -/
def checkGas (header parent : Header) : Result :=
  let cap : Nat := 0x7fffffffffffffff
  if header.GasLimit > cap then .error (.invalidGasLimitCap header.GasLimit cap)
  else if header.GasUsed > header.GasLimit then
    .error (.invalidGasUsed header.GasUsed header.GasLimit)
  else
    let limit := parent.GasLimit / GasLimitBoundDivisor
    if gasLimitDiff parent.GasLimit header.GasLimit ≥ limit ∨ header.GasLimit < MinGasLimit then
      .error (.invalidGasLimit header.GasLimit parent.GasLimit limit)
    else .ok ()

/-- The tests of `verifyHeader` that follow the gas tests: the block number, the
seal when asked for, and the hard-fork checks. -/
def checkNumberSealForks (E : Env) (amhash : Amhash) (chain : ChainReader)
    (header parent : Header) (uncle withSeal : Bool) (fuel : Nat) : Option Result :=
  if header.Number - parent.Number ≠ 1 then some (.error .ErrInvalidNumber)
  else
    match (if withSeal then VerifySeal E amhash chain header fuel else some (.ok ())) with
    | none => none
    | some (.error err) => some (.error err)
    | some (.ok _) =>
      match E.VerifyDAOHeaderExtraData chain.Config header with
      | some code => some (.error (.external code))
      | none =>
        match E.VerifyForkHashes chain.Config header uncle with
        | some code => some (.error (.external code))
        | none => some (.ok ())

/-- Method `verifyHeader`, at wall-clock time `now` (Unix seconds): the error it
returns, if it returns, and `big1` after the call. -/
def verifyHeader (E : Env) (amhash : Amhash) (big1 : Int) (now : Int) (chain : ChainReader)
    (header parent : Header) (uncle withSeal : Bool) (fuel : Nat) : Option Result × Int :=
  if header.Extra.length > MaximumExtraDataSize then
    (some (.error (.extraDataTooLong header.Extra.length MaximumExtraDataSize)), big1)
  else if uncle = true ∧ header.Time > MaxBig256 then (some (.error .errLargeBlockTime), big1)
  else if uncle = false ∧ header.Time > now + 15 then (some (.error .ErrFutureBlock), big1)
  else if header.Time ≤ parent.Time then (some (.error .errZeroBlockTime), big1)
  else
    match checkDifficulty E big1 chain header parent with
    | (.error err, b) => (some (.error err), b)
    | (.ok _, b) =>
      match checkGas header parent with
      | .error err => (some (.error err), b)
      | .ok _ => (checkNumberSealForks E amhash chain header parent uncle withSeal fuel, b)

/-! ## The remote agent (`miner/remote_agent.go`) and the work package of `man/api.go` -/

/-- The big-endian bytes of a magnitude without leading zeros, no bytes for zero;
`fuel` bounds the number of bytes. -/
def natBytes : Nat → Nat → List Byte
  | 0, _ => []
  | fuel + 1, n =>
    if n = 0 then []
    else natBytes fuel (n / 256) ++ [(⟨n % 256, Nat.mod_lt _ (by decide)⟩ : Byte)]

/-- Method `big.Int.Bytes`: the big-endian bytes of the absolute value. -/
def bigBytes (x : Int) : List Byte := natBytes x.natAbs x.natAbs

/-- The type `Work` of package `miner`; the agent reads only its field
`header`. -/
structure Work where
  header : Header
deriving DecidableEq

/-- Type `hashrate`: the time of the report in nanoseconds and the reported
rate, a `uint64`. -/
structure hashrate where
  ping : Int
  rate : Nat
deriving DecidableEq

/-- An engine of the map `engine`, as the agent calls it: `VerifySeal` gives the
error and the header after the call (the header is passed by pointer), `none` when
the call does not return. -/
structure Engine where
  VerifySeal : ChainReader → Header → Option (Result × Header)

/-- Type `RemoteAgent`. The return channel is `none` while it is nil and holds the
headers sent on it otherwise; the two maps are a lookup function and a list of
entries with one entry per key; the channels `quitCh` and `workCh` and the mutexes
are not represented. -/
structure RemoteAgent where
  returnCh : Option (List Header)
  chain : ChainReader
  engine : List Byte → Option Engine
  currentWork : Option Work
  work : Hash → Option Work
  hashrate : List (Hash × hashrate)
  running : Int

/-- The errors of `RemoteAgent.GetWork` and `PublicMinerAPI.GetWork`. -/
inductive WorkErr where
  | noWorkAvailable
  | notMiningNow
  | miningNotReady (cause : WorkErr)
deriving DecidableEq

/-- Function `NewRemoteAgent`. -/
def NewRemoteAgent (chain : ChainReader) (engine : List Byte → Option Engine) : RemoteAgent where
  returnCh := none
  chain := chain
  engine := engine
  currentWork := none
  work := fun _ => none
  hashrate := []
  running := 0

/-- The entry of a key in a map kept as a list of entries. -/
def mapGet {β : Type} (m : List (Hash × β)) (id : Hash) : Option β :=
  (m.find? (fun e => e.1 = id)).map Prod.snd

/-- Method `SubmitHashrate` called at time `now`. -/
def RemoteAgent.SubmitHashrate (a : RemoteAgent) (now : Int) (id : Hash) (rate : Nat) :
    RemoteAgent :=
  { a with hashrate := (id, { ping := now, rate := rate }) :: a.hashrate.filter (fun e => e.1 ≠ id) }

/-- Method `SetReturnCh`, with a fresh channel. -/
def RemoteAgent.SetReturnCh (a : RemoteAgent) : RemoteAgent :=
  { a with returnCh := some [] }

/-- Method `Start`: the flag goes from 0 to 1. -/
def RemoteAgent.Start (a : RemoteAgent) : RemoteAgent :=
  if a.running = 0 then { a with running := 1 } else a

/-- Method `Stop`: the flag goes from 1 to 0. -/
def RemoteAgent.Stop (a : RemoteAgent) : RemoteAgent :=
  if a.running = 1 then { a with running := 0 } else a

/-- Method `GetHashRate`: the rates are added up in an `int64`. -/
def RemoteAgent.GetHashRate (a : RemoteAgent) : Int :=
  a.hashrate.foldl (fun tot e => wrapInt64 (tot + toInt64 e.2.rate)) 0

/-- Method `RemoteAgent.GetWork`: the three strings or the error, and the agent
after the call. -/
def RemoteAgent.GetWork (E : Env) (a : RemoteAgent) :
    Except WorkErr (List Char × List Char × List Char) × RemoteAgent :=
  match a.currentWork with
  | some currentWork =>
    let block := currentWork.header
    let vrfValue := E.GetVrfInfoFromHeader block.VrfValue
    let seed := ToHex vrfValue
    let n := block.Difficulty
    (.ok ((E.HashNoNonce block).Hex, seed, (BytesToHash (bigBytes n)).Hex),
      { a with work := fun h => if h = E.HashNoNonce block then some currentWork else a.work h })
  | none => (.error .noWorkAvailable, a)

/-- Method `PublicMinerAPI.GetWork` of `man/api.go`; `isMining` is the answer of
`api.e.IsMining()`. -/
def PublicMinerAPI.GetWork (E : Env) (isMining : Bool) (agent : RemoteAgent) :
    Except WorkErr (List Char × List Char × List Char) × RemoteAgent :=
  if isMining = false then (.error .notMiningNow, agent)
  else
    match agent.GetWork E with
    | (.error err, a) => (.error (.miningNotReady err), a)
    | (.ok work, a) => (.ok work, a)

/-- Function `conversType`; `none` when `SetString` fails, where the call
`noncebig.Uint64()` on the nil result panics. -/
def conversType (str : List Char) : Option BlockNonce :=
  match bigSetString16 (trimPrefix0x str) with
  | some noncebig => some (EncodeNonce (bigUint64 noncebig))
  | none => none

/-- Method `SubmitWork`: the answer and the agent after the call, `none` when the
call does not return (a panic in `conversType`, an engine that gives no answer, a
send on a nil return channel). `Base58DecodeToAddress` is the function of package
`base58`, `none` standing for its error. -/
def RemoteAgent.SubmitWork (Base58DecodeToAddress : List Char → Option Address)
    (a : RemoteAgent) (strnonce strAIHah strhash strminerAddr : List Char) :
    Option (Bool × RemoteAgent) :=
  if strhash.length ≠ 66 ∨ strAIHah.length ≠ 66 then some (false, a)
  else if strnonce.length > 10 then some (false, a)
  else
    let hash := HexToHash strhash
    let AIHah := HexToHash strAIHah
    match conversType strnonce with
    | none => none
    | some nonce =>
      match a.work hash with
      | none => some (false, a)
      | some work =>
        match Base58DecodeToAddress strminerAddr with
        | none => some (false, a)
        | some addr =>
          let result := { work.header with Nonce := nonce, AIHash := AIHah, Coinbase := addr }
          match a.engine result.Version with
          | none => some (false, a)
          | some engine =>
            match engine.VerifySeal a.chain result with
            | none => none
            | some (.error _, _) => some (false, a)
            | some (.ok _, verified) =>
              match a.returnCh with
              | none => none
              | some sent =>
                some (true, { a with
                  returnCh := some (sent ++ [verified])
                  work := fun h => if h = hash then none else a.work h })

/-- The `workCh` case of `loop`: the work received becomes the current work. -/
def RemoteAgent.receiveWork (a : RemoteAgent) (work : Work) : RemoteAgent :=
  { a with currentWork := some work }

/-- The constant `time.Second`, in nanoseconds. -/
def Second : Int := 1000000000

/-- Function `time.Since` at time `now`: the difference, kept within the range of
a `Duration`. -/
def timeSince (now t : Int) : Int :=
  if now - t > 2 ^ 63 - 1 then 2 ^ 63 - 1
  else if now - t < -(2 ^ 63) then -(2 ^ 63)
  else now - t

/-- The ticker case of `loop` at time `now`: the reports older than ten seconds
are deleted. -/
def RemoteAgent.sweep (a : RemoteAgent) (now : Int) : RemoteAgent :=
  { a with hashrate := a.hashrate.filter (fun e => ¬ (timeSince now e.2.ping > 10 * Second)) }

/-- The header `VerifySeal` leaves behind in the proof part: the nonce is rewritten
once the AI hash and the difficulty have passed. -/
def verifySealProofHeader (E : Env) (amhash : Amhash) (header : Header) (fuel : Nat) : Header :=
  match aiMineProcess E amhash header false fuel with
  | some (.ok aiHash) =>
    if aiHash ≠ header.AIHash then header
    else if header.Difficulty ≤ 0 then header
    else { header with Nonce := E.nonceText.reversed header.Nonce }
  | _ => header

/-- The header `VerifySeal` leaves behind. -/
def VerifySealHeader (E : Env) (amhash : Amhash) (chain : ChainReader) (header : Header)
    (fuel : Nat) : Header :=
  match verifySealHead amhash.config amhash.fakeFail chain header with
  | some _ => header
  | none =>
    match amhash.shared with
    | some sh =>
      match verifySealHead sh.1 sh.2 chain header with
      | some _ => header
      | none =>
        verifySealProofHeader E { config := sh.1, fakeFail := sh.2, shared := none } header fuel
    | none => verifySealProofHeader E amhash header fuel

/-- The engine `amhash` as an entry of the engine map. -/
def Amhash.engine (E : Env) (amhash : Amhash) (fuel : Nat) : Engine where
  VerifySeal := fun chain header =>
    (VerifySeal E amhash chain header fuel).map
      (fun r => (r, VerifySealHeader E amhash chain header fuel))

/-! ## Batch verification and uncles (`consensus.go`) -/

/-- Method `verifyHeaderWorker` at wall-clock time `now`: the error it returns, if
it returns, and `big1` after the call; `none` also stands for the panic of an index
out of range. -/
def verifyHeaderWorker (E : Env) (amhash : Amhash) (big1 : Int) (now : Int)
    (chain : ChainReader) (headers : List Header) (seals : List Bool) (index : Nat)
    (fuel : Nat) : Option Result × Int :=
  match headers[index]? with
  | none => (none, big1)
  | some header =>
    let parent : Option Header :=
      if index = 0 then
        chain.GetHeader header.ParentHash ((bigUint64 header.Number + 2 ^ 64 - 1) % 2 ^ 64)
      else
        match headers[index - 1]? with
        | some previous =>
          if E.HeaderHash previous = header.ParentHash then some previous else none
        | none => none
    match parent with
    | none => (some (.error .ErrUnknownAncestor), big1)
    | some parent =>
      if (chain.GetHeader (E.HeaderHash header) (bigUint64 header.Number)).isSome then
        (some (.ok ()), big1)
      else
        match seals[index]? with
        | none => (none, big1)
        | some withSeal =>
          verifyHeader E amhash big1 now chain header parent false withSeal fuel

/-- The verifier goroutines of `VerifyHeaders`: the calls of `verifyHeaderWorker`
in the order `arrivals` in which they complete, the call for `index` running at
time `now index`. The result lists each index with the value stored in
`errors[index]` and gives `big1` after the last call; `none` when a call does not
return. -/
def runWorkers (E : Env) (amhash : Amhash) (now : Nat → Int) (chain : ChainReader)
    (headers : List Header) (seals : List Bool) (fuel : Nat) :
    List Nat → Int → Option (List (Nat × Result) × Int)
  | [], big1 => some ([], big1)
  | index :: rest, big1 =>
    match verifyHeaderWorker E amhash big1 (now index) chain headers seals index fuel with
    | (none, _) => none
    | (some err, b) =>
      (runWorkers E amhash now chain headers seals fuel rest b).map
        (fun p => ((index, err) :: p.1, p.2))

/-- The variables of the coordinating goroutine of `VerifyHeaders`: the slices
`errors` and `checked`, the counter `out`, the errors sent on `errorsOut`, and
whether the goroutine has returned. -/
structure Coordinator where
  errors : List Result
  checked : List Bool
  out : Nat
  errorsOut : List Result
  returned : Bool

/-- The coordinator before the first completion, for `len` headers. -/
def Coordinator.start (len : Nat) : Coordinator where
  errors := List.replicate len (.ok ())
  checked := List.replicate len false
  out := 0
  errorsOut := []
  returned := false

/-- The loop `for ...; checked[out]; out++` of the `done` case, bounded by `fuel`
rounds; `none` for an index out of range or when the bound is used up. -/
def Coordinator.drain (len : Nat) : Nat → Coordinator → Option Coordinator
  | 0, _ => none
  | fuel + 1, s =>
    match s.checked[s.out]? with
    | none => none
    | some false => some s
    | some true =>
      match s.errors[s.out]? with
      | none => none
      | some err =>
        if s.out = len - 1 then
          some { s with errorsOut := s.errorsOut ++ [err], returned := true }
        else
          Coordinator.drain len fuel { s with errorsOut := s.errorsOut ++ [err], out := s.out + 1 }

/-- One completion: a worker stores `err` in `errors[index]` and sends `index` on
`done`, and the coordinator runs its `done` case. After the coordinator has
returned nothing changes any more. -/
def Coordinator.done (len : Nat) (s : Coordinator) (index : Nat) (err : Result) :
    Option Coordinator :=
  if s.returned = true then some s
  else if index < len then
    Coordinator.drain len (len + 1)
      { s with errors := s.errors.set index err, checked := s.checked.set index true }
  else none

/-- The coordinator fed with the completions in their order of arrival. -/
def Coordinator.run (len : Nat) : List (Nat × Result) → Coordinator → Option Coordinator
  | [], s => some s
  | (index, err) :: rest, s =>
    match s.done len index err with
    | none => none
    | some s1 => Coordinator.run len rest s1

/-- The state of the coordinator with respect to the completions handled so far:
the marks of `checked` are those of the indices handled, `errors` holds their
errors, and the errors sent are the first `out` of them, `out` being the smallest
index not handled; once all are handled and sent the coordinator has returned. -/
def Coordinator.Inv (len : Nat) (handled : List (Nat × Result)) (s : Coordinator) : Prop :=
  s.errors.length = len ∧ s.checked.length = len ∧
  (∀ i, i < len → s.checked[i]? = some (decide (i ∈ handled.map Prod.fst))) ∧
  (∀ p ∈ handled, s.errors[p.1]? = some p.2) ∧
  (s.returned = false →
    s.out < len ∧ (∀ i, i < s.out → i ∈ handled.map Prod.fst) ∧
    s.out ∉ handled.map Prod.fst ∧ s.errorsOut = s.errors.take s.out) ∧
  (s.returned = true → (∀ i, i < len → i ∈ handled.map Prod.fst) ∧ s.errorsOut = s.errors)

/-- Method `VerifyHeaders`, the workers completing in the order `arrivals`: the
errors delivered on the results channel, in the order of delivery, and `big1`
after the run; `none` when a worker does not return or an index is out of
range. -/
def VerifyHeaders (E : Env) (amhash : Amhash) (big1 : Int) (now : Nat → Int)
    (chain : ChainReader) (headers : List Header) (seals : List Bool) (arrivals : List Nat)
    (fuel : Nat) : Option (List Result × Int) :=
  if amhash.config.PowMode = .ModeFullFake ∨ headers.length = 0 then
    some (List.replicate headers.length (.ok ()), big1)
  else
    match runWorkers E amhash now chain headers seals fuel arrivals big1 with
    | none => none
    | some (trace, b) =>
      (Coordinator.run headers.length trace (Coordinator.start headers.length)).map
        (fun s => (s.errorsOut, b))

/-- The constant `maxUncles`. -/
def maxUncles : Nat := 2

/-- The first loop of `VerifyUncles`, with `i` rounds left: the uncle hashes and the
ancestors gathered, the map `ancestors` being a list of entries with the newest
entry first. -/
def gatherAncestors (E : Env) (chain : ChainReader) :
    Nat → Nat → Hash → List Hash → List (Hash × Header) → List Hash × List (Hash × Header)
  | 0, _, _, uncles, ancestors => (uncles, ancestors)
  | i + 1, number, parent, uncles, ancestors =>
    match chain.GetBlock parent number with
    | none => (uncles, ancestors)
    | some ancestor =>
      gatherAncestors E chain i ((number + 2 ^ 64 - 1) % 2 ^ 64) ancestor.ParentHash
        (uncles ++ ancestor.Uncles.map E.HeaderHash)
        ((ancestor.Hash, ancestor.Header) :: ancestors)

/-- The second loop of `VerifyUncles` over the uncles still to be checked, with the
set `uncles` and `big1` as they stand. -/
def verifyUncleLoop (E : Env) (amhash : Amhash) (now : Int) (chain : ChainReader)
    (block : Block) (ancestors : List (Hash × Header)) (fuel : Nat) :
    List Header → List Hash → Int → Option Result × Int
  | [], _, big1 => (some (.ok ()), big1)
  | uncle :: rest, uncles, big1 =>
    let hash := E.HeaderHash uncle
    if hash ∈ uncles then (some (.error .errDuplicateUncle), big1)
    else if (mapGet ancestors hash).isSome then (some (.error .errUncleIsAncestor), big1)
    else
      match mapGet ancestors uncle.ParentHash with
      | none => (some (.error .errDanglingUncle), big1)
      | some parent =>
        if uncle.ParentHash = block.ParentHash then
          (some (.error .errDanglingUncle), big1)
        else
          match verifyHeader E amhash big1 now chain uncle parent true true fuel with
          | (some (.ok _), b) =>
            verifyUncleLoop E amhash now chain block ancestors fuel rest (uncles ++ [hash]) b
          | (other, b) => (other, b)

/-- Method `VerifyUncles`: the error it returns, if it returns, and `big1` after
the call. -/
def VerifyUncles (E : Env) (amhash : Amhash) (big1 : Int) (now : Int) (chain : ChainReader)
    (block : Block) (fuel : Nat) : Option Result × Int :=
  if amhash.config.PowMode = .ModeFullFake then (some (.ok ()), big1)
  else if block.Uncles.length > maxUncles then (some (.error .errTooManyUncles), big1)
  else
    let gathered := gatherAncestors E chain 7 ((block.NumberU64 + 2 ^ 64 - 1) % 2 ^ 64)
      block.ParentHash [] []
    let ancestors := (block.Hash, block.Header) :: gathered.2
    let uncles := gathered.1 ++ [block.Hash]
    verifyUncleLoop E amhash now chain block ancestors fuel block.Uncles uncles big1

/-! ## The state switches (`core/blockchain_state.go`) -/

/-- Type `mc.LeaderConfig`, with the four fields the switches write. -/
structure LeaderConfig where
  ParentMiningTime : Int
  PosOutTime : Int
  ReelectOutTime : Int
  ReelectHandleInterval : Int
deriving DecidableEq

/-- Type `mc.ElectConfigInfo`, with the fields named in the Gamma switch. -/
structure ElectConfigInfo where
  ValidatorNum : Nat
  BackValidator : Nat
  ElectPlug : String
deriving DecidableEq

/-- Type `mc.BlockProduceSlashCfg`, with the fields named in the Gamma switch. -/
structure BlockProduceSlashCfg where
  Switcher : Bool
  LowTHR : Nat
  ProhibitCycleNum : Nat
deriving DecidableEq

/-- Type `mc.RewardRateCfg`, with the fields named in the Gamma switch. -/
structure RewardRateCfg where
  MinerOutRate : Nat
  ElectedMinerRate : Nat
  FoundationMinerRate : Nat
  LeaderRate : Nat
  ElectedValidatorsRate : Nat
  FoundationValidatorRate : Nat
  OriginElectOfflineRate : Nat
  BackupRewardRate : Nat
deriving DecidableEq

/-- Type `mc.BlkRewardCfg`, with the fields named in the Gamma switch. -/
structure BlkRewardCfg where
  MinerMount : Nat
  MinerAttenuationRate : Nat
  MinerAttenuationNum : Nat
  ValidatorMount : Nat
  ValidatorAttenuationRate : Nat
  ValidatorAttenuationNum : Nat
  RewardRate : RewardRateCfg
deriving DecidableEq

/-- Type `mc.InterestCfg`, with the fields named in the Gamma switch. -/
structure InterestCfg where
  RewardMount : Nat
  AttenuationRate : Nat
  AttenuationPeriod : Nat
  PayInterval : Nat
deriving DecidableEq

/-- The functions of packages `matrixstate` and `depoistInfo` that the switches
call on a state of type `σ`; the packages are not part of the sources at hand. A
getter gives the value or the error; a setter gives the error, if any, and the
state after the call. `GetMinDifficulty` is the reader that belongs to
`SetMinDifficulty`; the switches do not call it. -/
structure MatrixState (σ : Type) where
  GetElectConfigInfo : σ → Except Err ElectConfigInfo
  SetElectConfigInfo : σ → ElectConfigInfo → Result × σ
  GetLeaderConfig : σ → Except Err LeaderConfig
  SetLeaderConfig : σ → LeaderConfig → Result × σ
  GetBlockProduceSlashCfg : σ → Except Err BlockProduceSlashCfg
  SetBlockProduceSlashCfg : σ → BlockProduceSlashCfg → Result × σ
  GetBlkRewardCfg : σ → Except Err BlkRewardCfg
  SetBlkRewardCfg : σ → BlkRewardCfg → Result × σ
  GetInterestCfg : σ → Except Err InterestCfg
  SetInterestCfg : σ → InterestCfg → Result × σ
  SetBlkCalc : σ → String → Result × σ
  SetInterestCalc : σ → String → Result × σ
  SetSlashCalc : σ → String → Result × σ
  SetVersion : σ → Nat → Result × σ
  GetMinDifficulty : σ → Except Err Int
  SetMinDifficulty : σ → Int → Result × σ

/-- The constants of packages `manversion`, `params`, `manparams` and `util` that
the switches use, which are not part of the sources at hand: the three activation
heights (`uint64`), the minimum difficulty, the name of the election plug-in and
the names of the two calculators. -/
structure SwitchParams where
  VersionNumGamma : Nat
  VersionNumDelta : Nat
  VersionNumAIMine : Nat
  MinimumDifficulty : Int
  ElectPlug_layerdBSS : String
  CalcGamma : String
  CalcDelta : String

/-- The statement `err = set(...); if nil != err { return err }` followed by the
rest of the function: the rest runs on the state the setter leaves when there is
no error. `log.Crit` is taken to return. -/
def thenDo {σ : Type} (r : Result × σ) (rest : σ → Result × σ) : Result × σ :=
  match r with
  | (.error err, st) => (.error err, st)
  | (.ok _, st) => rest st

/-- Method `processStateSwitchGamma`: the error, if any, and the state after the
call. -/
def processStateSwitchGamma {σ : Type} (M : MatrixState σ) (P : SwitchParams) (stateDB : σ) :
    Result × σ :=
  match M.GetElectConfigInfo stateDB with
  | .error err => (.error err, stateDB)
  | .ok electCfg =>
    thenDo (M.SetElectConfigInfo stateDB
      { ValidatorNum := electCfg.ValidatorNum, BackValidator := electCfg.BackValidator,
        ElectPlug := P.ElectPlug_layerdBSS }) fun st1 =>
    match M.GetLeaderConfig st1 with
    | .error err => (.error err, st1)
    | .ok leaderCfg =>
      thenDo (M.SetLeaderConfig st1
        { ParentMiningTime := 20, PosOutTime := 40, ReelectOutTime := 40,
          ReelectHandleInterval := leaderCfg.ReelectHandleInterval }) fun st2 =>
      match M.GetBlockProduceSlashCfg st2 with
      | .error err => (.error err, st2)
      | .ok blkSlash =>
        thenDo (M.SetBlockProduceSlashCfg st2
          { Switcher := blkSlash.Switcher, LowTHR := blkSlash.LowTHR,
            ProhibitCycleNum := 10 }) fun st3 =>
        match M.GetBlkRewardCfg st3 with
        | .error err => (.error err, st3)
        | .ok blkRewardCfg =>
          thenDo (M.SetBlkRewardCfg st3
            { MinerMount := 4800
              MinerAttenuationRate := blkRewardCfg.MinerAttenuationRate
              MinerAttenuationNum := 3000000
              ValidatorMount := 8000
              ValidatorAttenuationRate := blkRewardCfg.ValidatorAttenuationRate
              ValidatorAttenuationNum := 3000000
              RewardRate :=
                { MinerOutRate := 4000
                  ElectedMinerRate := 5000
                  FoundationMinerRate := 1000
                  LeaderRate := 2500
                  ElectedValidatorsRate := 6500
                  FoundationValidatorRate := 1000
                  OriginElectOfflineRate := blkRewardCfg.RewardRate.OriginElectOfflineRate
                  BackupRewardRate := blkRewardCfg.RewardRate.BackupRewardRate } }) fun st4 =>
          match M.GetInterestCfg st4 with
          | .error err => (.error err, st4)
          | .ok interestCfg =>
            thenDo (M.SetInterestCfg st4
              { RewardMount := 3200
                AttenuationRate := interestCfg.AttenuationRate
                AttenuationPeriod := 3000000
                PayInterval := interestCfg.PayInterval }) fun st5 =>
            thenDo (M.SetBlkCalc st5 P.CalcGamma) fun st6 =>
            thenDo (M.SetInterestCalc st6 P.CalcGamma) fun st7 => (.ok (), st7)

/-- Method `processStateSwitchDelta`. -/
def processStateSwitchDelta {σ : Type} (M : MatrixState σ) (P : SwitchParams) (stateDB : σ)
    (t : Nat) : Result × σ :=
  thenDo (M.SetInterestCalc stateDB P.CalcDelta) fun st1 =>
  thenDo (M.SetSlashCalc st1 P.CalcDelta) fun st2 =>
  thenDo (M.SetVersion st2 t) fun st3 => (.ok (), st3)

/-- Method `processStateSwitchAIMine`; the parameter `t` is not used. -/
def processStateSwitchAIMine {σ : Type} (M : MatrixState σ) (P : SwitchParams) (stateDB : σ)
    (_t : Nat) : Result × σ :=
  thenDo (M.SetMinDifficulty stateDB P.MinimumDifficulty) fun st1 =>
  match M.GetLeaderConfig st1 with
  | .error err => (.error err, st1)
  | .ok leaderCfg =>
    thenDo (M.SetLeaderConfig st1
      { ParentMiningTime := 50, PosOutTime := 40, ReelectOutTime := 40,
        ReelectHandleInterval := leaderCfg.ReelectHandleInterval }) fun st2 => (.ok (), st2)

/-- The `uint64` value `height - 1`. -/
def heightBefore (height : Nat) : Nat := (height + 2 ^ 64 - 1) % 2 ^ 64

/-- Method `ProcessStateVersionSwitch`: the cases of the `switch` are tried from
the top. -/
def ProcessStateVersionSwitch {σ : Type} (M : MatrixState σ) (P : SwitchParams) (num t : Nat)
    (stateDB : σ) : Result × σ :=
  if num = heightBefore P.VersionNumGamma then processStateSwitchGamma M P stateDB
  else if num = heightBefore P.VersionNumDelta then processStateSwitchDelta M P stateDB t
  else if num = heightBefore P.VersionNumAIMine then processStateSwitchAIMine M P stateDB t
  else (.ok (), stateDB)

/-- The behaviour of `SetMinDifficulty` and `SetLeaderConfig` as writes of one key
of a key-value state: after a write that reports no error the reader of the key
gives the value written, and the readers of the other keys give what they gave
before. -/
structure MatrixState.KeyValue {σ : Type} (M : MatrixState σ) : Prop where
  minDifficulty_read : ∀ st v st1, M.SetMinDifficulty st v = (.ok (), st1) →
    M.GetMinDifficulty st1 = .ok v
  minDifficulty_frame : ∀ st v st1, M.SetMinDifficulty st v = (.ok (), st1) →
    M.GetLeaderConfig st1 = M.GetLeaderConfig st ∧
    M.GetElectConfigInfo st1 = M.GetElectConfigInfo st ∧
    M.GetBlockProduceSlashCfg st1 = M.GetBlockProduceSlashCfg st ∧
    M.GetBlkRewardCfg st1 = M.GetBlkRewardCfg st ∧
    M.GetInterestCfg st1 = M.GetInterestCfg st
  leaderConfig_read : ∀ st cfg st1, M.SetLeaderConfig st cfg = (.ok (), st1) →
    M.GetLeaderConfig st1 = .ok cfg
  leaderConfig_frame : ∀ st cfg st1, M.SetLeaderConfig st cfg = (.ok (), st1) →
    M.GetMinDifficulty st1 = M.GetMinDifficulty st ∧
    M.GetElectConfigInfo st1 = M.GetElectConfigInfo st ∧
    M.GetBlockProduceSlashCfg st1 = M.GetBlockProduceSlashCfg st ∧
    M.GetBlkRewardCfg st1 = M.GetBlkRewardCfg st ∧
    M.GetInterestCfg st1 = M.GetInterestCfg st

/-! ## The legacy header (`core/types/header_old.go`, `core/types/block_old.go`) -/

/-- The types of packages `common` and `types` that the headers and blocks carry
and the sources at hand do not declare. -/
structure CommonTypes where
  CoinRoot : Type
  Coinbyte : Type
  Elect : Type
  NetTopology : Type
  Signature : Type
  CurrencyBlock : Type
  Cached : Type
  Received : Type

/-- Type `OldHeader`. -/
structure OldHeader (T : CommonTypes) where
  ParentHash : Hash
  UncleHash : Hash
  Leader : Address
  Coinbase : Address
  Roots : List T.CoinRoot
  Sharding : List T.Coinbyte
  Difficulty : Int
  Number : Int
  GasLimit : Nat
  GasUsed : Nat
  Time : Int
  Elect : List T.Elect
  NetTopology : T.NetTopology
  Signatures : List T.Signature
  Extra : List Byte
  MixDigest : Hash
  Nonce : BlockNonce
  Version : List Byte
  VersionSignatures : List T.Signature
  VrfValue : List Byte

/-- Type `Header` with all the fields `TransferHeader` assigns; the structure
`Header` above keeps the fields the engine reads. -/
structure FullHeader (T : CommonTypes) where
  ParentHash : Hash
  UncleHash : Hash
  Leader : Address
  Coinbase : Address
  Roots : List T.CoinRoot
  Sharding : List T.Coinbyte
  Difficulty : Int
  Number : Int
  GasLimit : Nat
  GasUsed : Nat
  Time : Int
  Elect : List T.Elect
  NetTopology : T.NetTopology
  Signatures : List T.Signature
  AIHash : Hash
  Extra : List Byte
  MixDigest : Hash
  Nonce : BlockNonce
  Version : List Byte
  VersionSignatures : List T.Signature
  VrfValue : List Byte

/-- Method `OldHeader.TransferHeader`, for a receiver that is not nil. -/
def OldHeader.TransferHeader {T : CommonTypes} (oh : OldHeader T) : FullHeader T where
  ParentHash := oh.ParentHash
  UncleHash := oh.UncleHash
  Leader := oh.Leader
  Coinbase := oh.Coinbase
  Roots := oh.Roots
  Sharding := oh.Sharding
  Difficulty := oh.Difficulty
  Number := oh.Number
  GasLimit := oh.GasLimit
  GasUsed := oh.GasUsed
  Time := oh.Time
  Elect := oh.Elect
  NetTopology := oh.NetTopology
  Signatures := oh.Signatures
  AIHash := Hash.zero
  Extra := oh.Extra
  MixDigest := oh.MixDigest
  Nonce := oh.Nonce
  Version := oh.Version
  VersionSignatures := oh.VersionSignatures
  VrfValue := oh.VrfValue

/-- Type `OldBlock`; the two caches are `none` while empty, and the total
difficulty is `none` while nil. -/
structure OldBlock (T : CommonTypes) where
  header : OldHeader T
  uncles : List (OldHeader T)
  currencies : List T.CurrencyBlock
  hash : Option T.Cached
  size : Option T.Cached
  td : Option Int
  ReceivedAt : T.Received
  ReceivedFrom : T.Received

/-- The fields of a `Block` as `TransferBlock` fills them. -/
structure FullBlock (T : CommonTypes) where
  header : FullHeader T
  uncles : List (FullHeader T)
  currencies : List T.CurrencyBlock
  hash : Option T.Cached
  size : Option T.Cached
  td : Option Int
  ReceivedAt : T.Received
  ReceivedFrom : T.Received

/-- Method `OldBlock.TransferBlock`, for a block whose header and uncles are not
nil; the cache `size` is not copied. -/
def OldBlock.TransferBlock {T : CommonTypes} (ob : OldBlock T) : FullBlock T where
  header := ob.header.TransferHeader
  uncles := ob.uncles.map OldHeader.TransferHeader
  currencies := ob.currencies
  hash := ob.hash
  size := none
  td := ob.td
  ReceivedAt := ob.ReceivedAt
  ReceivedFrom := ob.ReceivedFrom

/-! ## The record of the nonce search and the unclamped difficulty -/

/-- The search loop of `mine`, with the record of what is hashed: for each round
the value of the variable `nonce` and the header `curHeader` whose payload is
handed to `x11`, and the header sent on the found channel, if any. -/
def mineSearch (E : Env) (target : Int) : Nat → Header → Nat → List (Nat × Header) × Option Header
  | 0, _, _ => ([], none)
  | fuel + 1, curHeader, nonce =>
    match combinationData E curHeader with
    | none => ([], none)
    | some payload =>
      let next := mineSearch E target fuel
        { curHeader with Nonce := E.nonceText.reversed (EncodeNonce ((nonce + 1) % 2 ^ 64)) }
        ((nonce + 1) % 2 ^ 64)
      match shareOf (E.x11 payload) with
      | some shareBig =>
        if shareBig ≤ target then ([(nonce, curHeader)], some curHeader)
        else ((nonce, curHeader) :: next.1, next.2)
      | none => ((nonce, curHeader) :: next.1, next.2)

/-- The variable `x` of `calcDifficultyByzantium` after the statement
`x.Add(parent.Difficulty, x)`, before the minimum difficulty and the exponential
term are applied. -/
def byzantiumAdjust (E : Env) (big1 : Int) (curVersion : List Byte) (time : Nat)
    (parent : Header) : Int :=
  let bigTime : Int := (time : Int)
  let bigParentTime := parent.Time
  let x0 := bigTime - bigParentTime
  let durationLimit : Int :=
    if E.VersionCmpGamma curVersion ≥ 0 then ((E.VersionGammaDurationLimit : Nat) : Int)
    else ((E.DurationLimit : Nat) : Int)
  let x1 := x0 / durationLimit
  let x2 := if parent.UncleHash = E.EmptyUncleHash then big1 - x1 else 2 - x1
  let x3 := if x2 < -99 then -99 else x2
  let y0 := parent.Difficulty / DifficultyBoundDivisor
  let y := if y0 = 0 then big1 else y0
  parent.Difficulty + y * x3

/-! ## Definitions that follow the wording of the specification -/

/-- A text made of hexadecimal digits only, in either letter case. -/
def IsHexText (s : List Char) : Prop := ∀ c ∈ s, (fromHexChar c).isSome = true

/-- The digit `c` in lower case (any other character is left as it is). -/
def lowerHex (c : Char) : Char :=
  match fromHexChar c with
  | some v => hexDigit v
  | none => c

/-- A list cut into groups of four, the last group taking what is left. -/
def groupsOf4 {α : Type} : List α → List (List α)
  | a :: b :: c :: d :: rest => [a, b, c, d] :: groupsOf4 rest
  | [] => []
  | rest => [rest]

/-- The transformation the specification gives for `hashString2LittleEndian`: the
bytes are split into 4-byte groups, each group is reversed, and the groups are
concatenated in their original order. -/
def wordsByteReversed (b : List Byte) : List Byte :=
  ((groupsOf4 b).map List.reverse).flatten

/-- The payload as the specification lays it out: the header hash with each 4-byte
word byte-reversed, the AI hash likewise, twelve zero bytes, and the 32-bit nonce
in little-endian order. -/
def claimedPayload (headerHash aiHash : Hash) (nonce : BlockNonce) : List Byte :=
  wordsByteReversed headerHash.bytes ++ wordsByteReversed aiHash.bytes
    ++ List.replicate 12 0 ++ (putBE 4 (nonce.Uint64 % 2 ^ 32)).reverse

/-- The duration limit `L` of the Byzantium formula for a version. -/
def durationLimitOf (E : Env) (curVersion : List Byte) : Int :=
  if E.VersionCmpGamma curVersion ≥ 0 then ((E.VersionGammaDurationLimit : Nat) : Int)
  else ((E.DurationLimit : Nat) : Int)

/-- The number `U` of the Byzantium formula: 2 when the parent has uncles, 1
otherwise. -/
def uncleTerm (E : Env) (parent : Header) : Int :=
  if parent.UncleHash = E.EmptyUncleHash then 1 else 2

/-- The period count of the Byzantium formula. -/
def byzantiumPeriodCount (parent : Header) : Int :=
  max 0 (parent.Number - 2999999) / 100000

/-- The exponential term `2^(periodCount - 2)`, read as 0 when the exponent is
negative. -/
def bombTerm (periodCount : Int) : Int :=
  if 2 ≤ periodCount then 2 ^ (periodCount - 2).toNat else 0

/-- The Byzantium formula as the specification states it, with the quotient
`parent.d / 2048` as the factor. -/
def claimedByzantium (E : Env) (curVersion : List Byte) (time : Nat) (parent : Header)
    (minimumDifficulty : Int) : Int :=
  max (parent.Difficulty + (parent.Difficulty / 2048)
      * max (uncleTerm E parent - ((time : Int) - parent.Time) / durationLimitOf E curVersion) (-99))
    minimumDifficulty
  + bombTerm (byzantiumPeriodCount parent)

/-- The factor the code uses in the Byzantium branch: the quotient `parent.d / 2048`,
replaced by 1 when it is zero. -/
def byzantiumFactor (parent : Header) : Int :=
  if parent.Difficulty / 2048 = 0 then 1 else parent.Difficulty / 2048

/-- The Byzantium formula with the factor of the code. -/
def amendedByzantium (E : Env) (curVersion : List Byte) (time : Nat) (parent : Header)
    (minimumDifficulty : Int) : Int :=
  max (parent.Difficulty + byzantiumFactor parent
      * max (uncleTerm E parent - ((time : Int) - parent.Time) / durationLimitOf E curVersion) (-99))
    minimumDifficulty
  + bombTerm (byzantiumPeriodCount parent)

/-- The parent-and-time-driven value of each branch of `CalcDifficulty`, before
the clamp. -/
def adjustedDifficulty (E : Env) (config : ChainConfig) (curVersion : List Byte) (time : Nat)
    (parent : Header) : Int :=
  if config.IsByzantium (parent.Number + 1) then
    parent.Difficulty + byzantiumFactor parent
      * max (uncleTerm E parent - ((time : Int) - parent.Time) / durationLimitOf E curVersion) (-99)
  else if config.IsHomestead (parent.Number + 1) then
    parent.Difficulty + (parent.Difficulty / 2048) * max (1 - ((time : Int) - parent.Time) / 10) (-99)
  else if (time : Int) - parent.Time < ((E.DurationLimit : Nat) : Int) then
    parent.Difficulty + parent.Difficulty / 2048
  else parent.Difficulty - parent.Difficulty / 2048

/-- The ice-age term of each branch of `CalcDifficulty`. -/
def iceAgeTerm (config : ChainConfig) (parent : Header) : Int :=
  if config.IsByzantium (parent.Number + 1) then bombTerm (byzantiumPeriodCount parent)
  else bombTerm ((parent.Number + 1) / 100000)

/-- The values of a list in the order of their first occurrence. -/
def firstOccurrences : List Int → List Int
  | [] => []
  | x :: xs => x :: (firstOccurrences xs).filter (fun y => y ≠ x)

/-- The seed as the specification derives it: the sum of the two big-endian
numbers, reduced modulo `2^63`. -/
def claimedSeed (vrfValue : List Byte) (coinbase : Address) : Int :=
  ((beNat vrfValue + beNat coinbase.bytes) % 2 ^ 63 : Nat)

/-- The picture list as the specification maps it: the `k`-th path names the `k`-th
index of the list. -/
def claimedPictureList (E : Env) (amhash : Amhash) (indexList : List Int) : List String :=
  indexList.map
    (fun i => E.filepathJoin amhash.config.PictureStorePath ("test_" ++ toString i ++ ".jpg"))

/-- The third string as the specification gives it: `0x` and the 64 digits of the
32-byte big-endian encoding of the quotient of `2^256` by the difficulty. -/
def claimedTarget (d : Int) : List Char :=
  '0' :: 'x' :: Bytes2Hex (putBE 32 ((2 : Int) ^ 256 / d).toNat)

/-- The sum of the reported rates. -/
def rateSum (m : List (Hash × hashrate)) : Nat :=
  (m.map (fun e => e.2.rate)).sum

/-- The uncle hashes and the ancestors `VerifyUncles` collects from the chain for a
block, before the block itself is added. -/
def collectedAncestors (E : Env) (chain : ChainReader) (block : Block) :
    List Hash × List (Hash × Header) :=
  gatherAncestors E chain 7 ((block.NumberU64 + 2 ^ 64 - 1) % 2 ^ 64) block.ParentHash [] []

/-- The number a byte string stands for when it is read in big-endian order: the
last byte is the unit digit and every byte weighs 256 times the byte after it. -/
def bigEndianValue (b : List Byte) : Nat :=
  Nat.ofDigits 256 (b.reverse.map (fun x => x.val))

/-- The share as the specification words it: the digest, byte-reversed, read as a
big-endian integer. -/
def claimedShare (digest : List Byte) : Int :=
  (bigEndianValue digest.reverse : Nat)

/-- The floor of the exact quotient of two integers. -/
def floorQuotient (a b : Int) : Int :=
  ⌊(a : ℚ) / (b : ℚ)⌋

/-- The closed form with the factor `max(1, parent.d / 2048)`. -/
def closedFormByzantium (E : Env) (curVersion : List Byte) (time : Nat) (parent : Header)
    (minimumDifficulty : Int) : Int :=
  max (parent.Difficulty + max 1 (parent.Difficulty / 2048)
      * max (uncleTerm E parent - ((time : Int) - parent.Time) / durationLimitOf E curVersion)
          (-99))
      minimumDifficulty
    + bombTerm (byzantiumPeriodCount parent)

/-! ## Concrete objects used in the examples -/

/-- The hash `00 01 02 ... 1f`. -/
def sampleHash : Hash :=
  ⟨(List.range 32).map (fun i => (⟨i % 256, Nat.mod_lt _ (by decide)⟩ : Byte)), by simp⟩

/-- The address made of twenty zero bytes. -/
def sampleAddress : Address := ⟨List.replicate 20 0, by simp⟩

/-- An environment for the examples: every digest of `x11` is 32 zero bytes, the
nonce text methods are those of `hexutil`, every header has `sampleHash` as its
hash without nonce, the random stream counts 0, 1, 2, ..., and the AI digger
answers with 32 zero bytes. -/
def sampleEnv : Env where
  x11 := fun _ => List.replicate 32 0
  nonceText := hexutilText
  HashNoNonce := fun _ => sampleHash
  HeaderHash := fun _ => Hash.zero
  IsSuperHeader := fun _ => false
  EmptyUncleHash := Hash.zero
  GetVrfInfoFromHeader := fun v => v
  Intn := fun _ _ k => (k : Int)
  AIDigging := fun _ _ => some (.ok (List.replicate 32 0))
  filepathJoin := fun dir file => dir ++ "/" ++ file
  VersionCmpGamma := fun _ => -1
  DurationLimit := 9
  VersionGammaDurationLimit := 6
  VerifyDAOHeaderExtraData := fun _ _ => none
  VerifyForkHashes := fun _ _ _ => none

/-- A header for the examples: number 1, time 10, difficulty 1000, gas limit 5000,
nonce `00 00 00 00 00 00 00 aa`, all hashes zero. -/
def sampleHeader : Header where
  ParentHash := Hash.zero
  UncleHash := Hash.zero
  Leader := sampleAddress
  Coinbase := sampleAddress
  Difficulty := 1000
  Number := 1
  GasLimit := 5000
  GasUsed := 0
  Time := 10
  Extra := []
  MixDigest := Hash.zero
  Nonce := EncodeNonce 0xaa
  Version := []
  VrfValue := []
  AIHash := Hash.zero
  other := []

/-- An engine in normal mode without a shared engine. -/
def sampleAmhash : Amhash where
  config := { PowMode := .ModeNormal, PictureStorePath := "pictures" }
  fakeFail := 0
  shared := none

/-- The parent used in the examples: number 0, time 0, difficulty 1000, gas limit
5000. -/
def sampleParent : Header :=
  { sampleHeader with Number := 0, Time := 0 }

/-- A chain reader for the examples: every parent lookup gives `sampleParent`, no
block is stored, the
minimum difficulty is 1, every account is a miner, and every block is past the
Byzantium fork. -/
def sampleChain : ChainReader where
  Config := { IsHomestead := fun _ => true, IsByzantium := fun _ => true }
  GetHeader := fun _ _ => some sampleParent
  GetBlock := fun _ _ => none
  GetMinDifficulty := fun _ => .ok 1
  GetGraphByHash := fun _ => .ok { CheckAccountRole := fun _ _ => true }
  GetInnerMinerAccounts := fun _ => .ok []

/-- The same chain reader with no miner at all: no account has the miner role and
the inner-miner list is empty. -/
def noMinerChain : ChainReader :=
  { sampleChain with
    GetGraphByHash := fun _ => .ok { CheckAccountRole := fun _ _ => false } }

/-- The example header with the difficulty `-2^257`. -/
def negativeHeader : Header :=
  { sampleHeader with Difficulty := -(2 ^ 257) }

/-- A text of 64 hexadecimal digits that starts with the capital letters `AB`. -/
def upperText : List Char := 'A' :: 'B' :: List.replicate 62 '0'

/-- A parent of difficulty 100 at height 3199999, where the period count is 2. -/
def lowDifficultyParent : Header :=
  { sampleParent with Difficulty := 100, Number := 3199999 }

/-- A parent whose gas limit is the largest `uint64`. -/
def hugeGasParent : Header :=
  { sampleParent with GasLimit := 2 ^ 64 - 1 }

/-- A parent of difficulty 100 at height 3299999, where the period count is 3. -/
def lateParent : Header :=
  { sampleParent with Difficulty := 100, Number := 3299999 }

/-- The example chain reader with `lateParent` as the parent of every header. -/
def lateChain : ChainReader :=
  { sampleChain with GetHeader := fun _ _ => some lateParent }

/-- A header at height 3300000, ten seconds after `lateParent`. -/
def lateHeader : Header :=
  { sampleHeader with Number := 3300000 }

/-- The example header with the time of its parent, 0. -/
def zeroTimeHeader : Header :=
  { sampleHeader with Time := 0 }

/-- The example header with the gas limit 4997, three below the one of its
parent. -/
def lowGasHeader : Header :=
  { sampleHeader with GasLimit := 4997 }

/-- The example header with the VRF value `80 00 00 00 00 00 00 00`, the number
`2^63`. -/
def highVrfHeader : Header :=
  { sampleHeader with VrfValue := [128, 0, 0, 0, 0, 0, 0, 0] }

/-- An index list of sixteen entries, 100, 101, ..., 115. -/
def sampleDraw : List Int :=
  (List.range 16).map (fun i => (i : Int) + 100)

/-- An engine in fake mode with the fake-fail number 7. -/
def fakeAmhash : Amhash where
  config := { PowMode := .ModeFake, PictureStorePath := "pictures" }
  fakeFail := 7
  shared := none

/-- The example header at height 7. -/
def heightSevenHeader : Header :=
  { sampleHeader with Number := 7 }

/-- The example environment with the stream 0, 0, 1, 1, 2, 2, ... of `Intn` values,
reduced modulo the bound. -/
def pairedEnv : Env :=
  { sampleEnv with Intn := fun _ max k => ((k / 2 : Nat) : Int) % max }

/-- An agent with a return channel that was started and received `sampleHeader` as
work; its engine for every version is the fake engine `fakeAmhash`. -/
def pendingAgent : RemoteAgent :=
  (((NewRemoteAgent sampleChain (fun _ => some (Amhash.engine sampleEnv fakeAmhash 0))).SetReturnCh).Start).receiveWork
    { header := sampleHeader }

/-- The agent `pendingAgent` after a call of `GetWork`. -/
def servedAgent : RemoteAgent := (pendingAgent.GetWork sampleEnv).2

/-- The agent `servedAgent` after a call of `Stop`. -/
def stoppedAgent : RemoteAgent := servedAgent.Stop

/-- The header `sampleHeader` with the nonce 1, the AI hash `sampleHash` and the
zero coinbase. -/
def solvedHeader : Header :=
  { sampleHeader with Nonce := EncodeNonce 1, AIHash := sampleHash, Coinbase := sampleAddress }

/-- The agent `servedAgent` after the solution `solvedHeader` was accepted. -/
def acceptedAgent : RemoteAgent :=
  { servedAgent with
    returnCh := some [solvedHeader]
    work := fun h => if h = HexToHash sampleHash.Hex then none else servedAgent.work h }

/-- The agent `stoppedAgent` after the solution `solvedHeader` was accepted. -/
def stoppedAcceptedAgent : RemoteAgent :=
  { stoppedAgent with
    returnCh := some [solvedHeader]
    work := fun h => if h = HexToHash sampleHash.Hex then none else stoppedAgent.work h }

/-- A fresh agent to which the rate `2^63` was reported under the identifier
`sampleHash` at time 0. -/
def busyAgent : RemoteAgent :=
  (NewRemoteAgent sampleChain (fun _ => none)).SubmitHashrate 0 sampleHash (2 ^ 63)

/-- The decoder of addresses used in the examples: every text is the zero
address. -/
def sampleDecode : List Char → Option Address := fun _ => some sampleAddress

/-- The example header at height 2^64 + 7. -/
def wrappedHeightHeader : Header :=
  { sampleHeader with Number := 2 ^ 64 + 7 }

/-- The example environment in which the hash of a header is its mix digest. -/
def digestEnv : Env :=
  { sampleEnv with HeaderHash := fun h => h.MixDigest }

/-- A block at height 5 with the hash zero, the hash of its header in `digestEnv`,
whose parent hash is `sampleHash`, and whose one uncle is its own child: the uncle
has the parent hash zero, the height 6 and the hash `sampleHash`. -/
def childUncleBlock : Block where
  Header := { sampleHeader with Number := 5, Time := 0, ParentHash := sampleHash }
  Uncles := [{ sampleHeader with Number := 6, MixDigest := sampleHash }]
  ParentHash := sampleHash
  NumberU64 := 5
  Hash := Hash.zero

/-- Two headers for a batch: `zeroTimeHeader`, whose time is not after the one of
its parent, and a header at height 2. -/
def sampleBatch : List Header :=
  [zeroTimeHeader, { sampleHeader with Number := 2 }]

/-- The example chain reader that returns `sampleParent` at height 0 and knows no
header above. -/
def batchChain : ChainReader :=
  { sampleChain with GetHeader := fun _ number => if number = 0 then some sampleParent else none }

/-- The hash `00 ... 00 01`. -/
def parentHash : Hash := BytesToHash [1]

/-- The hash `00 ... 00 02`. -/
def uncleHash : Hash := BytesToHash [2]

/-- A header at height 3 and time 0 with the hash `sampleHash` in `digestEnv`. -/
def grandHeader : Header :=
  { sampleHeader with Number := 3, Time := 0, MixDigest := sampleHash }

/-- The child of `grandHeader` at height 4 with the hash `parentHash`. -/
def parentHeader : Header :=
  { sampleHeader with Number := 4, ParentHash := sampleHash, MixDigest := parentHash }

/-- The example chain reader storing the blocks of `parentHeader` and `grandHeader`,
both without uncles. -/
def familyChain : ChainReader :=
  { sampleChain with
    GetBlock := fun hash number =>
      if hash = parentHash ∧ number = 4 then
        some { Header := parentHeader, Uncles := [], ParentHash := sampleHash, NumberU64 := 4,
               Hash := parentHash }
      else if hash = sampleHash ∧ number = 3 then
        some { Header := grandHeader, Uncles := [], ParentHash := Hash.zero, NumberU64 := 3,
               Hash := sampleHash }
      else none }

/-- A block at height 5 on `parentHeader` with one uncle, a second child of
`grandHeader` with the hash `uncleHash`. -/
def nephewBlock : Block where
  Header := { sampleHeader with Number := 5, Time := 20, ParentHash := parentHash }
  Uncles := [{ sampleHeader with Number := 4, ParentHash := sampleHash, MixDigest := uncleHash }]
  ParentHash := parentHash
  NumberU64 := 5
  Hash := Hash.zero

/-- The example environment in which every digest of `x11` is 32 bytes `ff`, so
that no share is within a target. -/
def hardEnv : Env :=
  { sampleEnv with x11 := fun _ => List.replicate 32 255 }

/-- A parent of difficulty -4096 at height 0 and time 0. -/
def negativeParent : Header :=
  { sampleParent with Difficulty := -4096 }

/-- A parent of difficulty 4096 at height 0 and time 90. -/
def laterParent : Header :=
  { sampleParent with Difficulty := 4096, Time := 90 }

/-- A governance state for the examples: one optional entry per key. -/
structure GovState where
  electConfig : Option ElectConfigInfo
  leaderConfig : Option LeaderConfig
  slashCfg : Option BlockProduceSlashCfg
  blkRewardCfg : Option BlkRewardCfg
  interestCfg : Option InterestCfg
  blkCalc : Option String
  interestCalc : Option String
  slashCalc : Option String
  depositVersion : Option Nat
  minDifficulty : Option Int
deriving DecidableEq

/-- The reader of an optional entry: an error when the entry is missing. -/
def readEntry {α : Type} (entry : Option α) : Except Err α :=
  match entry with
  | some v => .ok v
  | none => .error (.external 0)

/-- The state functions on `GovState`: every setter writes its entry and reports no
error, every getter reads its entry. -/
def govStateOps : MatrixState GovState where
  GetElectConfigInfo := fun st => readEntry st.electConfig
  SetElectConfigInfo := fun st v => (.ok (), { st with electConfig := some v })
  GetLeaderConfig := fun st => readEntry st.leaderConfig
  SetLeaderConfig := fun st v => (.ok (), { st with leaderConfig := some v })
  GetBlockProduceSlashCfg := fun st => readEntry st.slashCfg
  SetBlockProduceSlashCfg := fun st v => (.ok (), { st with slashCfg := some v })
  GetBlkRewardCfg := fun st => readEntry st.blkRewardCfg
  SetBlkRewardCfg := fun st v => (.ok (), { st with blkRewardCfg := some v })
  GetInterestCfg := fun st => readEntry st.interestCfg
  SetInterestCfg := fun st v => (.ok (), { st with interestCfg := some v })
  SetBlkCalc := fun st v => (.ok (), { st with blkCalc := some v })
  SetInterestCalc := fun st v => (.ok (), { st with interestCalc := some v })
  SetSlashCalc := fun st v => (.ok (), { st with slashCalc := some v })
  SetVersion := fun st v => (.ok (), { st with depositVersion := some v })
  GetMinDifficulty := fun st => readEntry st.minDifficulty
  SetMinDifficulty := fun st v => (.ok (), { st with minDifficulty := some v })

/-- Constants for the examples: the activation heights 100, 200 and 300 and the
minimum difficulty 1000. -/
def sampleSwitchParams : SwitchParams where
  VersionNumGamma := 100
  VersionNumDelta := 200
  VersionNumAIMine := 300
  MinimumDifficulty := 1000
  ElectPlug_layerdBSS := "layerd_BSS"
  CalcGamma := "gamma"
  CalcDelta := "delta"

/-- A governance state with the leader configuration (20, 40, 40, 7), the minimum
difficulty 1 and the interest calculator `gamma`. -/
def sampleGovState : GovState where
  electConfig := none
  leaderConfig := some { ParentMiningTime := 20, PosOutTime := 40, ReelectOutTime := 40,
                         ReelectHandleInterval := 7 }
  slashCfg := none
  blkRewardCfg := none
  interestCfg := none
  blkCalc := none
  interestCalc := some "gamma"
  slashCalc := none
  depositVersion := none
  minDifficulty := some 1

/-- The types used in the examples of the legacy header: every foreign type is
`Nat`. -/
def sampleTypes : CommonTypes where
  CoinRoot := Nat
  Coinbyte := Nat
  Elect := Nat
  NetTopology := Nat
  Signature := Nat
  CurrencyBlock := Nat
  Cached := Nat
  Received := Nat

/-! ## Facts about the hexadecimal helpers -/

theorem list_of_length_32 {α : Type} (l : List α) (h : l.length = 32) :
    ∃ a0 a1 a2 a3 a4 a5 a6 a7 a8 a9 a10 a11 a12 a13 a14 a15 a16 a17 a18 a19 a20 a21 a22 a23 a24 a25 a26 a27 a28 a29 a30 a31 : α, l = [a0, a1, a2, a3, a4, a5, a6, a7, a8, a9, a10, a11, a12, a13, a14, a15, a16, a17, a18, a19, a20, a21, a22, a23, a24, a25, a26, a27, a28, a29, a30, a31] := by
  match l, h with
  | [a0, a1, a2, a3, a4, a5, a6, a7, a8, a9, a10, a11, a12, a13, a14, a15, a16, a17, a18, a19, a20, a21, a22, a23, a24, a25, a26, a27, a28, a29, a30, a31], _ => exact ⟨a0, a1, a2, a3, a4, a5, a6, a7, a8, a9, a10, a11, a12, a13, a14, a15, a16, a17, a18, a19, a20, a21, a22, a23, a24, a25, a26, a27, a28, a29, a30, a31, rfl⟩

theorem list_of_length_8 {α : Type} (l : List α) (h : l.length = 8) :
    ∃ a0 a1 a2 a3 a4 a5 a6 a7 : α, l = [a0, a1, a2, a3, a4, a5, a6, a7] := by
  match l, h with
  | [a0, a1, a2, a3, a4, a5, a6, a7], _ => exact ⟨a0, a1, a2, a3, a4, a5, a6, a7, rfl⟩

theorem hexDigit_of_ge (n : Nat) (h : 16 ≤ n) : hexDigit n = '0' := by
  unfold hexDigit
  rw [List.getD_eq_default]
  simpa using h

theorem fromHexChar_hexDigit (n : Nat) (h : n < 16) : fromHexChar (hexDigit n) = some n := by
  have key : ∀ k : Fin 16, fromHexChar (hexDigit k.val) = some k.val := by decide
  exact key ⟨n, h⟩

theorem hexDigit_ne (n : Nat) :
    hexDigit n ≠ 'x' ∧ hexDigit n ≠ 'X' ∧ hexDigit n ≠ '-' ∧ hexDigit n ≠ '+' := by
  by_cases h : n < 16
  · have key : ∀ k : Fin 16, hexDigit k.val ≠ 'x' ∧ hexDigit k.val ≠ 'X' ∧
        hexDigit k.val ≠ '-' ∧ hexDigit k.val ≠ '+' := by decide
    exact key ⟨n, h⟩
  · rw [hexDigit_of_ge n (by omega)]
    decide

theorem fromHexChar_lt (c : Char) (v : Nat) (h : fromHexChar c = some v) : v < 16 := by
  unfold fromHexChar at h
  split_ifs at h with h1 h2 h3
  · have := h1.2
    simp only [Option.some.injEq] at h
    have h9 : c.toNat ≤ 57 := by exact_mod_cast this
    omega
  · have := h2.2
    simp only [Option.some.injEq] at h
    have h9 : c.toNat ≤ 102 := by exact_mod_cast this
    omega
  · have := h3.2
    simp only [Option.some.injEq] at h
    have h9 : c.toNat ≤ 70 := by exact_mod_cast this
    omega

theorem length_Bytes2Hex (b : List Byte) : (Bytes2Hex b).length = 2 * b.length := by
  induction b with
  | nil => rfl
  | cons x xs ih =>
    simp only [Bytes2Hex, List.flatMap_cons, List.length_append, List.length_cons,
      List.length_nil] at ih ⊢
    omega

theorem Bytes2Hex_cons (x : Byte) (xs : List Byte) :
    Bytes2Hex (x :: xs) = hexDigit (x.val / 16) :: hexDigit (x.val % 16) :: Bytes2Hex xs := by
  simp [Bytes2Hex]

theorem Hex2Bytes_Bytes2Hex (b : List Byte) : Hex2Bytes (Bytes2Hex b) = b := by
  induction b with
  | nil => rfl
  | cons x xs ih =>
    rw [Bytes2Hex_cons, Hex2Bytes, fromHexChar_hexDigit _ (by omega),
      fromHexChar_hexDigit _ (Nat.mod_lt _ (by decide))]
    simp only [ih, List.cons.injEq, and_true]
    apply Fin.ext
    simp only
    omega

theorem trimPrefix0x_of_ne (c d : Char) (r : List Char) (h : d ≠ 'x') :
    trimPrefix0x (c :: d :: r) = c :: d :: r := by
  unfold trimPrefix0x
  split
  · rename_i heq
    simp only [List.cons.injEq] at heq
    exact absurd heq.2.1 h
  · rfl

theorem trimPrefix0x_Bytes2Hex (b : List Byte) : trimPrefix0x (Bytes2Hex b) = Bytes2Hex b := by
  cases b with
  | nil => rfl
  | cons x xs =>
    rw [Bytes2Hex_cons]
    exact trimPrefix0x_of_ne _ _ _ (hexDigit_ne _).1

theorem drop0x_of_ne (c d : Char) (r : List Char) (hx : d ≠ 'x') (hX : d ≠ 'X') :
    drop0x (c :: d :: r) = c :: d :: r := by
  unfold drop0x
  split
  · rename_i heq
    simp only [List.cons.injEq] at heq
    exact absurd heq.2.1 hx
  · rename_i heq
    simp only [List.cons.injEq] at heq
    exact absurd heq.2.1 hX
  · rfl

theorem FromHex_of_ne (c d : Char) (r : List Char) (hx : d ≠ 'x') (hX : d ≠ 'X')
    (hlen : (c :: d :: r).length % 2 = 0) : FromHex (c :: d :: r) = Hex2Bytes (c :: d :: r) := by
  unfold FromHex
  rw [drop0x_of_ne c d r hx hX, if_neg (by omega)]

theorem FromHex_Bytes2Hex (b : List Byte) : FromHex (Bytes2Hex b) = b := by
  cases b with
  | nil => rfl
  | cons x xs =>
    have hlen := length_Bytes2Hex (x :: xs)
    rw [Bytes2Hex_cons] at hlen ⊢
    rw [FromHex_of_ne _ _ _ (hexDigit_ne _).1 (hexDigit_ne _).2.1 (by omega), ← Bytes2Hex_cons,
      Hex2Bytes_Bytes2Hex]


theorem hex_pairs : ∀ (s : List Char), s.length % 2 = 0 → IsHexText s →
    Bytes2Hex (Hex2Bytes s) = s.map lowerHex ∧ (Hex2Bytes s).length * 2 = s.length
  | [], _, _ => ⟨rfl, rfl⟩
  | [_], h, _ => by simp at h
  | a :: b :: rest, h, hs => by
    have hrest : rest.length % 2 = 0 := by
      simp only [List.length_cons] at h
      omega
    have hsr : IsHexText rest := fun c hc => hs c (by simp [hc])
    obtain ⟨ih1, ih2⟩ := hex_pairs rest hrest hsr
    obtain ⟨x, hx⟩ := Option.isSome_iff_exists.mp (hs a (by simp))
    obtain ⟨y, hy⟩ := Option.isSome_iff_exists.mp (hs b (by simp))
    have hx16 := fromHexChar_lt a x hx
    have hy16 := fromHexChar_lt b y hy
    have e1 : (16 * x + y) % 256 / 16 = x := by omega
    have e2 : (16 * x + y) % 256 % 16 = y := by omega
    constructor
    · rw [Hex2Bytes, hx, hy]
      simp only [Bytes2Hex_cons, ih1, List.map_cons, e1, e2, lowerHex, hx, hy]
    · rw [Hex2Bytes, hx, hy]
      simp only [List.length_cons]
      omega

theorem hexText_second_ne (c d : Char) (r : List Char) (hs : IsHexText (c :: d :: r)) :
    d ≠ 'x' ∧ d ≠ 'X' := by
  have hd := hs d (by simp)
  constructor
  · intro h
    rw [h] at hd
    exact absurd hd (by decide)
  · intro h
    rw [h] at hd
    exact absurd hd (by decide)

theorem trimPrefix0x_ToHex (b : List Byte) (hb : b ≠ []) :
    trimPrefix0x (ToHex b) = Bytes2Hex b := by
  cases b with
  | nil => exact absurd rfl hb
  | cons x xs => simp [ToHex, Bytes2Hex_cons, trimPrefix0x]

theorem wordSwap_of_length_32 (input : List Byte) (h : input.length = 32) :
    (if 32 ≤ input.length then
      some (trimPrefix0x (ToHex
        ((List.range 8).flatMap (fun q => Reverse ((input.drop (4 * q)).take 4)))))
    else none) = some (Bytes2Hex (wordsByteReversed input)) := by
  obtain ⟨a0, a1, a2, a3, a4, a5, a6, a7, a8, a9, a10, a11, a12, a13, a14, a15, a16, a17, a18, a19, a20, a21, a22, a23, a24, a25, a26, a27, a28, a29, a30, a31, rfl⟩ := list_of_length_32 input h
  have e : (List.range 8).flatMap (fun q => Reverse
      (([a0, a1, a2, a3, a4, a5, a6, a7, a8, a9, a10, a11, a12, a13, a14, a15, a16, a17, a18, a19, a20, a21, a22, a23, a24, a25, a26, a27, a28, a29, a30, a31].drop (4 * q)).take 4))
      = wordsByteReversed [a0, a1, a2, a3, a4, a5, a6, a7, a8, a9, a10, a11, a12, a13, a14, a15, a16, a17, a18, a19, a20, a21, a22, a23, a24, a25, a26, a27, a28, a29, a30, a31] := by
    simp [wordsByteReversed, Reverse, List.range, List.range.loop, groupsOf4]
  rw [e, if_pos (by simp), trimPrefix0x_ToHex]
  simp [wordsByteReversed, groupsOf4]

theorem wordsByteReversed_twice (b : List Byte) (h : b.length = 32) :
    wordsByteReversed (wordsByteReversed b) = b ∧ (wordsByteReversed b).length = 32 := by
  obtain ⟨a0, a1, a2, a3, a4, a5, a6, a7, a8, a9, a10, a11, a12, a13, a14, a15, a16, a17, a18, a19, a20, a21, a22, a23, a24, a25, a26, a27, a28, a29, a30, a31, rfl⟩ := list_of_length_32 b h
  simp [wordsByteReversed, groupsOf4]

theorem hashString2LittleEndian_Bytes2Hex (b : List Byte) (h : b.length = 32) :
    hashString2LittleEndian (Bytes2Hex b) = some (Bytes2Hex (wordsByteReversed b)) := by
  unfold hashString2LittleEndian
  simp only [trimPrefix0x_Bytes2Hex, FromHex_Bytes2Hex]
  exact wordSwap_of_length_32 b h

theorem reverseHashString_Hex (h : Hash) :
    (reverseHashString h.Hex).bind hashString2LittleEndian = some (Bytes2Hex h.bytes.reverse) := by
  obtain ⟨b, hb⟩ := h
  obtain ⟨a0, a1, a2, a3, a4, a5, a6, a7, a8, a9, a10, a11, a12, a13, a14, a15, a16, a17, a18, a19, a20, a21, a22, a23, a24, a25, a26, a27, a28, a29, a30, a31, rfl⟩ := list_of_length_32 b hb
  have step : reverseHashString (Hash.Hex ⟨[a0, a1, a2, a3, a4, a5, a6, a7, a8, a9, a10, a11, a12, a13, a14, a15, a16, a17, a18, a19, a20, a21, a22, a23, a24, a25, a26, a27, a28, a29, a30, a31], hb⟩)
      = some (Bytes2Hex [a28, a29, a30, a31, a24, a25, a26, a27, a20, a21, a22, a23, a16, a17,
          a18, a19, a12, a13, a14, a15, a8, a9, a10, a11, a4, a5, a6, a7, a0, a1, a2, a3]) := by
    simp [reverseHashString, Hash.Hex, trimPrefix0x, Bytes2Hex, List.range, List.range.loop]
  rw [step, Option.some_bind, hashString2LittleEndian_Bytes2Hex _ (by rfl)]
  simp [wordsByteReversed, groupsOf4]

theorem HexToHash_Bytes2Hex (b : List Byte) (hb : b.length = 32) :
    (HexToHash (Bytes2Hex b)).bytes = b := by
  simp [HexToHash, FromHex_Bytes2Hex, BytesToHash, hb]

theorem combinationData_eq (E : Env) (header : Header) :
    combinationData E header = some ((E.HashNoNonce header).bytes.reverse
      ++ header.AIHash.bytes.reverse ++ List.replicate 12 0
      ++ putBE 4 ((E.nonceText.reversed header.Nonce).Uint64 % 2 ^ 32)) := by
  unfold combinationData
  simp only [reverseHashString_Hex]
  rw [HexToHash_Bytes2Hex _ (by simp [Hash.size]), HexToHash_Bytes2Hex _ (by simp [Hash.size])]
  simp [uint32ToBytes, putBE, List.range, List.range.loop, List.replicate]

theorem hexutilText_contract : hexutilText.Hexutil := by
  refine ⟨fun _ => rfl, ?_⟩
  intro n c d r h
  simp only [hexutilText]
  rw [if_neg h]

theorem reversed_of_contract (t : NonceText) (ht : t.Hexutil) (n : BlockNonce) :
    t.reversed n = n := by
  obtain ⟨b, hb⟩ := n
  obtain ⟨a0, a1, a2, a3, a4, a5, a6, a7, rfl⟩ := list_of_length_8 b hb
  unfold NonceText.reversed
  rw [ht.1]
  have e : Reverse ('0' :: 'x' :: Bytes2Hex [a0, a1, a2, a3, a4, a5, a6, a7])
      = hexDigit (a7.val % 16) :: hexDigit (a7.val / 16) :: (Reverse
          ('0' :: 'x' :: Bytes2Hex [a0, a1, a2, a3, a4, a5, a6])) := by
    simp [Reverse, Bytes2Hex]
  rw [e]
  apply ht.2
  intro hc
  rcases hc.2 with h | h
  · exact (hexDigit_ne _).1 h
  · exact (hexDigit_ne _).2.1 h

theorem low32_of_nonce (n : BlockNonce) : putBE 4 (n.Uint64 % 2 ^ 32) = n.bytes.drop 4 := by
  obtain ⟨b, hb⟩ := n
  obtain ⟨a0, a1, a2, a3, a4, a5, a6, a7, rfl⟩ := list_of_length_8 b hb
  simp only [BlockNonce.Uint64, beNat, putBE, List.range, List.range.loop, List.foldl_cons,
    List.foldl_nil, List.map_cons, List.map_nil, List.drop_succ_cons, List.drop_zero,
    List.cons.injEq, and_true]
  have h0 := a0.isLt
  have h1 := a1.isLt
  have h2 := a2.isLt
  have h3 := a3.isLt
  have h4 := a4.isLt
  have h5 := a5.isLt
  have h6 := a6.isLt
  have h7 := a7.isLt
  refine ⟨?_, ?_, ?_, ?_⟩ <;> (apply Fin.ext; simp only [Nat.reducePow, Nat.reduceSub]; omega)

/-! ## Facts about the nonce search and the seal verification -/

theorem parseHexDigits_foldl (b : List Byte) (acc : Nat) :
    (Bytes2Hex b).foldl
        (fun acc c => acc.bind (fun a => (fromHexChar c).map (fun v => a * 16 + v))) (some acc)
      = some (b.foldl (fun acc x => acc * 256 + x.val) acc) := by
  induction b generalizing acc with
  | nil => rfl
  | cons x xs ih =>
    rw [Bytes2Hex_cons]
    simp only [List.foldl_cons, Option.some_bind, fromHexChar_hexDigit _ (show x.val / 16 < 16 by omega),
      fromHexChar_hexDigit _ (Nat.mod_lt x.val (show 0 < 16 by decide)), Option.map_some']
    rw [ih]
    congr 2
    omega

theorem bigSetString16_Bytes2Hex (x : Byte) (xs : List Byte) :
    bigSetString16 (Bytes2Hex (x :: xs)) = some ((beNat (x :: xs) : Nat) : Int) := by
  have hp : parseHexDigits (Bytes2Hex (x :: xs)) = some (beNat (x :: xs)) := by
    unfold parseHexDigits
    rw [if_neg (by simp [Bytes2Hex_cons])]
    exact parseHexDigits_foldl _ 0
  rw [Bytes2Hex_cons] at hp ⊢
  unfold bigSetString16
  split
  · rename_i heq
    simp only [List.cons.injEq] at heq
    exact absurd heq.1 (hexDigit_ne _).2.2.1
  · rename_i heq
    simp only [List.cons.injEq] at heq
    exact absurd heq.1 (hexDigit_ne _).2.2.2
  · rw [hp]
    rfl

theorem shareOf_eq (result : List Byte) :
    shareOf result = some ((beNat result.reverse : Nat) : Int) := by
  unfold shareOf ReverseHex Reverse
  cases h : result.reverse with
  | nil => rfl
  | cons x xs =>
    rw [trimPrefix0x_ToHex _ (by simp)]
    exact bigSetString16_Bytes2Hex x xs

theorem mineLoop_found (E : Env) (target : Int) :
    ∀ (fuel : Nat) (cur : Header) (nonce : Nat) (h : Header),
      mineLoop E target fuel cur nonce = some h →
      h = { cur with Nonce := h.Nonce } ∧
      ∃ payload, combinationData E h = some payload ∧
        ((beNat (E.x11 payload).reverse : Nat) : Int) ≤ target := by
  intro fuel
  induction fuel with
  | zero =>
    intro cur nonce h hm
    simp [mineLoop] at hm
  | succ f ih =>
    intro cur nonce h hm
    unfold mineLoop at hm
    rw [combinationData_eq] at hm
    simp only [shareOf_eq] at hm
    split_ifs at hm with hle
    · simp only [Option.some.injEq] at hm
      subst hm
      refine ⟨rfl, _, combinationData_eq E cur, hle⟩
    · obtain ⟨h1, h2⟩ := ih _ _ _ hm
      refine ⟨?_, h2⟩
      rw [h1]

theorem mine_found (E : Env) (header : Header) (seed fuel : Nat) (h : Header)
    (hm : mine E header seed false fuel = some h) :
    h = { header with Nonce := h.Nonce } ∧ header.Difficulty ≠ 0 ∧
    ∃ payload, combinationData E h = some payload ∧
      ((beNat (E.x11 payload).reverse : Nat) : Int) ≤ maxUint256 / header.Difficulty := by
  unfold mine at hm
  by_cases h0 : header.Difficulty = 0
  · rw [if_pos h0] at hm
    exact absurd hm (by simp)
  · rw [if_neg h0] at hm
    obtain ⟨h1, h2⟩ := mineLoop_found E _ fuel header seed h hm
    exact ⟨h1, h0, h2⟩

theorem aiMineProcess_of_fields (E : Env) (amhash : Amhash) (h h2 : Header) (b : Bool)
    (fuel : Nat) (hv : h.VrfValue = h2.VrfValue) (hc : h.Coinbase = h2.Coinbase) :
    aiMineProcess E amhash h b fuel = aiMineProcess E amhash h2 b fuel := by
  unfold aiMineProcess startAIMining aiSeed
  rw [hv, hc]

theorem verifySealProof_of_share (E : Env) (hE : E.nonceText.Hexutil) (amhash : Amhash)
    (h : Header) (fuel : Nat) (payload : List Byte)
    (hai : aiMineProcess E amhash h false fuel = some (.ok h.AIHash))
    (hd : 0 < h.Difficulty) (hp : combinationData E h = some payload)
    (hle : ((beNat (E.x11 payload).reverse : Nat) : Int) ≤ maxUint256 / h.Difficulty) :
    verifySealProof E amhash h fuel = some (.ok ()) := by
  have hrev : ({ h with Nonce := E.nonceText.reversed h.Nonce } : Header) = h := by
    rw [reversed_of_contract _ hE]
  unfold verifySealProof
  rw [hai]
  simp only [ne_eq, not_true_eq_false, if_false]
  rw [if_neg (by omega), hrev, hp]
  simp only [shareOf_eq]
  rw [if_neg (by omega)]

theorem VerifySeal_of_proof (E : Env) (amhash : Amhash)
    (hmode : amhash.config.PowMode = .ModeNormal) (hshared : amhash.shared = none)
    (chain : ChainReader) (h : Header) (fuel : Nat)
    (hrole : verifyCoinbaseRole chain h = .ok ()) :
    VerifySeal E amhash chain h fuel = verifySealProof E amhash h fuel := by
  unfold VerifySeal verifySealHead
  rw [hrole, hmode, hshared]
  simp

/-! ## Facts about the difficulty calculator -/

theorem bigExp2_eq_bombTerm (periodCount : Int) (h : periodCount > 1) :
    bigExp2 (periodCount - 2) = bombTerm periodCount := by
  have h2 : 2 ≤ periodCount := by omega
  unfold bigExp2 bombTerm
  rw [if_pos h2]
  split_ifs with h0
  · have e : periodCount - 2 = 0 := by omega
    rw [e]
    rfl
  · rfl

theorem bombTerm_nonneg (periodCount : Int) : 0 ≤ bombTerm periodCount := by
  unfold bombTerm
  split_ifs
  · positivity
  · exact le_refl 0

theorem bombTerm_of_le (periodCount : Int) (h : ¬ periodCount > 1) : bombTerm periodCount = 0 := by
  unfold bombTerm
  rw [if_neg (by omega)]

theorem bigExp2_pos (y : Int) : 0 < bigExp2 y := by
  unfold bigExp2
  split_ifs
  · decide
  · positivity

theorem ite_lt_eq_max (a b : Int) : (if a < b then b else a) = max a b := by
  rw [max_def]
  split_ifs <;> omega

theorem fakeBlockNumber_eq (n : Int) :
    (if n ≥ 2999999 then n - 2999999 else 0) = max 0 (n - 2999999) := by
  rw [max_def]
  split_ifs <;> omega

theorem uncle_branch_eq (E : Env) (parent : Header) (big1 q : Int) :
    (if parent.UncleHash = E.EmptyUncleHash then big1 - q else 2 - q)
      = (if parent.UncleHash = E.EmptyUncleHash then big1 else 2) - q := by
  split_ifs <;> rfl

theorem calcDifficultyByzantium_eq (E : Env) (curVersion : List Byte) (time : Nat)
    (parent : Header) (minimumDifficulty : Int) :
    (calcDifficultyByzantium E 1 curVersion time parent minimumDifficulty).1
      = amendedByzantium E curVersion time parent minimumDifficulty := by
  unfold calcDifficultyByzantium amendedByzantium
  simp only [ite_lt_eq_max, fakeBlockNumber_eq, uncle_branch_eq, DifficultyBoundDivisor,
    expDiffPeriod]
  by_cases hpc : byzantiumPeriodCount parent > 1
  · have hpc2 := hpc
    unfold byzantiumPeriodCount at hpc2
    rw [if_pos hpc2]
    simp only
    rw [← byzantiumPeriodCount, bigExp2_eq_bombTerm _ hpc]
    rfl
  · have hpc2 := hpc
    unfold byzantiumPeriodCount at hpc2
    rw [if_neg hpc2, bombTerm_of_le _ hpc]
    simp only [add_zero]
    rfl


theorem calcDifficultyHomestead_eq (time : Nat) (parent : Header) (minimumDifficulty : Int) :
    calcDifficultyHomestead 1 time parent minimumDifficulty
      = max (parent.Difficulty + (parent.Difficulty / 2048)
          * max (1 - ((time : Int) - parent.Time) / 10) (-99)) minimumDifficulty
        + bombTerm ((parent.Number + 1) / 100000) := by
  unfold calcDifficultyHomestead
  simp only [ite_lt_eq_max, DifficultyBoundDivisor, expDiffPeriod]
  by_cases hpc : (parent.Number + 1) / 100000 > 1
  · rw [if_pos hpc, bigExp2_eq_bombTerm _ hpc]
  · rw [if_neg hpc, bombTerm_of_le _ hpc, add_zero]

theorem calcDifficultyFrontier_eq (E : Env) (time : Nat) (parent : Header)
    (minimumDifficulty : Int) :
    calcDifficultyFrontier E 1 time parent minimumDifficulty
      = max (if (time : Int) - parent.Time < ((E.DurationLimit : Nat) : Int)
          then parent.Difficulty + parent.Difficulty / 2048
          else parent.Difficulty - parent.Difficulty / 2048) minimumDifficulty
        + bombTerm ((parent.Number + 1) / 100000) := by
  unfold calcDifficultyFrontier
  simp only [ite_lt_eq_max, DifficultyBoundDivisor, expDiffPeriod]
  by_cases hpc : (parent.Number + 1) / 100000 > 1
  · rw [if_pos hpc, bigExp2_eq_bombTerm _ hpc]
    have hb := bombTerm_nonneg ((parent.Number + 1) / 100000)
    unfold BigMax
    rw [if_neg]
    have := le_max_right (if (time : Int) - parent.Time < ((E.DurationLimit : Nat) : Int)
          then parent.Difficulty + parent.Difficulty / 2048
          else parent.Difficulty - parent.Difficulty / 2048) minimumDifficulty
    omega
  · rw [if_neg hpc, bombTerm_of_le _ hpc, add_zero]

theorem CalcDifficulty_eq (E : Env) (config : ChainConfig) (curVersion : List Byte)
    (time : Nat) (parent : Header) (minimumDifficulty : Int) :
    (CalcDifficulty E 1 config curVersion time parent minimumDifficulty).1
      = max (adjustedDifficulty E config curVersion time parent) minimumDifficulty
        + iceAgeTerm config parent := by
  unfold CalcDifficulty adjustedDifficulty iceAgeTerm
  simp only
  by_cases hb : config.IsByzantium (parent.Number + 1) = true
  · rw [if_pos hb, if_pos hb, if_pos hb, calcDifficultyByzantium_eq]
    rfl
  · rw [if_neg hb, if_neg hb, if_neg hb]
    by_cases hh : config.IsHomestead (parent.Number + 1) = true
    · rw [if_pos hh, if_pos hh, calcDifficultyHomestead_eq]
    · rw [if_neg hh, if_neg hh, calcDifficultyFrontier_eq]

theorem clamp_add_ge (x minimum e b1 b2 : Int) (c : Prop) [Decidable c] (he : 0 ≤ e) :
    minimum ≤ (if c then ((if x < minimum then minimum else x) + e, b1)
      else ((if x < minimum then minimum else x), b2)).1 := by
  split_ifs <;> simp only <;> omega

theorem calcDifficultyByzantium_ge (E : Env) (big1 : Int) (curVersion : List Byte) (time : Nat)
    (parent : Header) (minimumDifficulty : Int) :
    minimumDifficulty
      ≤ (calcDifficultyByzantium E big1 curVersion time parent minimumDifficulty).1 := by
  unfold calcDifficultyByzantium
  exact clamp_add_ge _ _ _ _ _ _ (le_of_lt (bigExp2_pos _))

theorem calcDifficultyHomestead_ge (big1 : Int) (time : Nat) (parent : Header)
    (minimumDifficulty : Int) :
    minimumDifficulty ≤ calcDifficultyHomestead big1 time parent minimumDifficulty := by
  unfold calcDifficultyHomestead
  have h := bigExp2_pos ((parent.Number + big1) / expDiffPeriod - 2)
  simp only
  split_ifs <;> omega

theorem calcDifficultyFrontier_ge (E : Env) (big1 : Int) (time : Nat) (parent : Header)
    (minimumDifficulty : Int) :
    minimumDifficulty ≤ calcDifficultyFrontier E big1 time parent minimumDifficulty := by
  unfold calcDifficultyFrontier BigMax
  have h := bigExp2_pos ((parent.Number + big1) / expDiffPeriod - 2)
  simp only
  split_ifs <;> omega

theorem CalcDifficulty_ge (E : Env) (big1 : Int) (config : ChainConfig)
    (curVersion : List Byte) (time : Nat) (parent : Header) (minimumDifficulty : Int) :
    minimumDifficulty
      ≤ (CalcDifficulty E big1 config curVersion time parent minimumDifficulty).1 := by
  unfold CalcDifficulty
  simp only
  split_ifs
  · exact calcDifficultyByzantium_ge _ _ _ _ _ _
  · exact calcDifficultyHomestead_ge _ _ _ _
  · exact calcDifficultyFrontier_ge _ _ _ _ _

/-! ## Facts about header verification -/

theorem gasLimitDiff_eq (p h : Nat) (hp : p < 2 ^ 64) (hh : h < 2 ^ 64)
    (hd : |(p : Int) - (h : Int)| < 2 ^ 63) :
    ((gasLimitDiff p h : Nat) : Int) = |(p : Int) - (h : Int)| := by
  unfold gasLimitDiff wrapInt64 toInt64
  simp only [Nat.reducePow] at hp hh hd ⊢
  rcases abs_cases ((p : Int) - (h : Int)) with ⟨h1, h2⟩ | ⟨h1, h2⟩
  · rw [h1] at hd ⊢
    split_ifs <;> omega
  · rw [h1] at hd ⊢
    split_ifs <;> omega

theorem checkGas_ok (header parent : Header) :
    checkGas header parent = .ok () ↔
      header.GasLimit ≤ 2 ^ 63 - 1 ∧ header.GasUsed ≤ header.GasLimit ∧
      gasLimitDiff parent.GasLimit header.GasLimit < parent.GasLimit / 1024 ∧
      5000 ≤ header.GasLimit := by
  unfold checkGas GasLimitBoundDivisor MinGasLimit
  simp only [Nat.reducePow, Nat.reduceSub]
  split_ifs with h1 h2 h3
  · simp only [reduceCtorEq, false_iff]
    omega
  · simp only [reduceCtorEq, false_iff]
    omega
  · simp only [reduceCtorEq, false_iff]
    omega
  · simp only [true_iff]
    omega

theorem verifyHeader_stages (E : Env) (amhash : Amhash) (big1 now : Int) (chain : ChainReader)
    (header parent : Header) (uncle withSeal : Bool) (fuel : Nat)
    (hextra : header.Extra.length ≤ MaximumExtraDataSize)
    (hlarge : uncle = true → header.Time ≤ MaxBig256)
    (hfuture : uncle = false → header.Time ≤ now + 15)
    (htime : parent.Time < header.Time) :
    (verifyHeader E amhash big1 now chain header parent uncle withSeal fuel).1 =
      match (checkDifficulty E big1 chain header parent).1 with
      | .error err => some (.error err)
      | .ok _ =>
        match checkGas header parent with
        | .error err => some (.error err)
        | .ok _ => checkNumberSealForks E amhash chain header parent uncle withSeal fuel := by
  unfold verifyHeader
  rw [if_neg (by omega), if_neg (by intro h; have := hlarge h.1; omega),
    if_neg (by intro h; have := hfuture h.1; omega), if_neg (by omega)]
  rcases hcd : checkDifficulty E big1 chain header parent with ⟨r, b2⟩
  cases r with
  | error e => rfl
  | ok u =>
    simp only
    cases hg : checkGas header parent with
    | error e => rfl
    | ok u2 => rfl

theorem verifyHeader_ok (E : Env) (amhash : Amhash) (big1 now : Int) (chain : ChainReader)
    (header parent : Header) (uncle withSeal : Bool) (fuel : Nat)
    (hok : (verifyHeader E amhash big1 now chain header parent uncle withSeal fuel).1
      = some (.ok ())) :
    header.Extra.length ≤ MaximumExtraDataSize ∧
    (uncle = true → header.Time ≤ MaxBig256) ∧
    (uncle = false → header.Time ≤ now + 15) ∧
    parent.Time < header.Time ∧
    (checkDifficulty E big1 chain header parent).1 = .ok () ∧
    checkGas header parent = .ok () ∧
    checkNumberSealForks E amhash chain header parent uncle withSeal fuel = some (.ok ()) := by
  unfold verifyHeader at hok
  split_ifs at hok with h1 h2 h3 h4
  · simp at hok
  · simp at hok
  · simp at hok
  · simp at hok
  · have hextra : header.Extra.length ≤ MaximumExtraDataSize := by omega
    have hlarge : uncle = true → header.Time ≤ MaxBig256 := by
      intro hu
      by_contra hc
      exact h2 ⟨hu, by omega⟩
    have hfuture : uncle = false → header.Time ≤ now + 15 := by
      intro hu
      by_contra hc
      exact h3 ⟨hu, by omega⟩
    have htime : parent.Time < header.Time := by omega
    refine ⟨hextra, hlarge, hfuture, htime, ?_⟩
    rcases hcd : checkDifficulty E big1 chain header parent with ⟨r, b2⟩
    rw [hcd] at hok
    cases r with
    | error e => simp at hok
    | ok u =>
      simp only at hok
      cases hg : checkGas header parent with
      | error e =>
        rw [hg] at hok
        simp at hok
      | ok u2 =>
        rw [hg] at hok
        exact ⟨rfl, rfl, hok⟩

theorem checkNumberSealForks_ok (E : Env) (amhash : Amhash) (chain : ChainReader)
    (header parent : Header) (uncle withSeal : Bool) (fuel : Nat)
    (hok : checkNumberSealForks E amhash chain header parent uncle withSeal fuel
      = some (.ok ())) :
    header.Number = parent.Number + 1 := by
  unfold checkNumberSealForks at hok
  by_cases h1 : header.Number - parent.Number ≠ 1
  · rw [if_pos h1] at hok
    simp at hok
  · omega

theorem verifyCoinbaseRole_err (chain : ChainReader) (header : Header) (e : Err)
    (h : verifyCoinbaseRole chain header = .error e) : e = .errCoinbase := by
  unfold verifyCoinbaseRole at h
  split at h
  · simp only [Except.error.injEq] at h
    exact h.symm
  · split_ifs at h
    split at h
    · simp only [Except.error.injEq] at h
      exact h.symm
    · split_ifs at h
      simp only [Except.error.injEq] at h
      exact h.symm

theorem verifySealHead_ne (config : Config) (fakeFail : Nat) (chain : ChainReader)
    (header : Header) :
    verifySealHead config fakeFail chain header ≠ some (.error .errZeroBlockTime) := by
  unfold verifySealHead
  intro h
  split at h
  · rename_i err hrole
    have := verifyCoinbaseRole_err chain header err hrole
    subst this
    simp at h
  · split_ifs at h <;> simp at h

theorem verifySealProof_ne (E : Env) (amhash : Amhash) (header : Header) (fuel : Nat) :
    verifySealProof E amhash header fuel ≠ some (.error .errZeroBlockTime) := by
  unfold verifySealProof
  intro h
  split at h
  · simp at h
  · simp at h
  · split_ifs at h
    · simp at h
    · simp at h
    · simp only at h
      split at h
      · simp at h
      · split at h
        · split_ifs at h <;> simp at h
        · simp at h

theorem VerifySeal_ne (E : Env) (amhash : Amhash) (chain : ChainReader) (header : Header)
    (fuel : Nat) :
    VerifySeal E amhash chain header fuel ≠ some (.error .errZeroBlockTime) := by
  unfold VerifySeal
  intro h
  split at h
  · rename_i r hr
    rw [h] at hr
    exact verifySealHead_ne _ _ _ _ hr
  · split at h
    · split at h
      · rename_i r hr
        rw [h] at hr
        exact verifySealHead_ne _ _ _ _ hr
      · exact verifySealProof_ne _ _ _ _ h
    · exact verifySealProof_ne _ _ _ _ h

theorem checkNumberSealForks_ne (E : Env) (amhash : Amhash) (chain : ChainReader)
    (header parent : Header) (uncle withSeal : Bool) (fuel : Nat) :
    checkNumberSealForks E amhash chain header parent uncle withSeal fuel
      ≠ some (.error .errZeroBlockTime) := by
  unfold checkNumberSealForks
  intro h
  by_cases h1 : header.Number - parent.Number ≠ 1
  · rw [if_pos h1] at h
    simp at h
  · rw [if_neg h1] at h
    split at h
    · simp at h
    · rename_i err hs
      simp only [Option.some.injEq, Except.error.injEq] at h
      subst h
      cases withSeal
      · simp at hs
      · simp only [if_true] at hs
        exact VerifySeal_ne _ _ _ _ _ hs
    · split at h
      · simp at h
      · split at h <;> simp at h

theorem checkDifficulty_ne (E : Env) (big1 : Int) (chain : ChainReader) (header parent : Header) :
    (checkDifficulty E big1 chain header parent).1 ≠ .error .errZeroBlockTime := by
  unfold checkDifficulty
  intro h
  by_cases hs : E.IsSuperHeader header = false
  · rw [if_pos hs] at h
    split at h
    · simp at h
    · split_ifs at h
      simp at h
  · rw [if_neg hs] at h
    simp at h

theorem checkGas_ne (header parent : Header) :
    checkGas header parent ≠ .error .errZeroBlockTime := by
  unfold checkGas
  intro h
  simp only at h
  split_ifs at h <;> simp at h

theorem Prepare_ok (E : Env) (big1 : Int) (chain : ChainReader) (header prepared : Header)
    (b2 : Int) (h : Prepare E big1 chain header = (.ok prepared, b2)) :
    ∃ parent d,
      chain.GetHeader header.ParentHash ((bigUint64 header.Number + 2 ^ 64 - 1) % 2 ^ 64)
        = some parent ∧
      Amhash.CalcDifficulty E big1 chain header.Version (bigUint64 header.Time) parent
        = (.ok d, b2) ∧
      prepared = { header with Difficulty := d } := by
  unfold Prepare at h
  split at h
  · simp at h
  · rename_i parent hparent
    split at h
    · simp at h
    · rename_i d b hcd
      simp only [Prod.mk.injEq, Except.ok.injEq] at h
      refine ⟨parent, d, hparent, ?_, h.1.symm⟩
      rw [hcd, h.2]

theorem checkDifficulty_of_calc (E : Env) (big1 : Int) (chain : ChainReader)
    (header parent : Header) (d b2 : Int)
    (hs : E.IsSuperHeader header = false)
    (hcd : Amhash.CalcDifficulty E big1 chain header.Version (bigUint64 header.Time) parent
      = (.ok d, b2)) :
    (checkDifficulty E big1 chain header parent).1
      = if d ≠ header.Difficulty then .error (.invalidDifficulty header.Difficulty d)
        else .ok () := by
  unfold checkDifficulty
  rw [if_pos hs, hcd]
  simp only
  split_ifs <;> rfl


theorem verifyHeader_error_of_gas (E : Env) (amhash : Amhash) (big1 now : Int)
    (chain : ChainReader) (header parent : Header) (uncle withSeal : Bool) (fuel : Nat)
    (hgas : checkGas header parent ≠ .ok ()) :
    ∃ e, (verifyHeader E amhash big1 now chain header parent uncle withSeal fuel).1
      = some (.error e) := by
  unfold verifyHeader
  split_ifs with h1 h2 h3 h4
  · exact ⟨_, rfl⟩
  · exact ⟨_, rfl⟩
  · exact ⟨_, rfl⟩
  · exact ⟨_, rfl⟩
  · rcases hcd : checkDifficulty E big1 chain header parent with ⟨r, b2⟩
    cases r with
    | error e => exact ⟨e, rfl⟩
    | ok u =>
      simp only
      cases hg : checkGas header parent with
      | error e => exact ⟨e, rfl⟩
      | ok u2 => exact absurd hg hgas

/-! ## Facts about the AI stage -/

theorem mem_firstOccurrences (l : List Int) (y : Int) : y ∈ firstOccurrences l ↔ y ∈ l := by
  induction l with
  | nil => simp [firstOccurrences]
  | cons x xs ih =>
    simp only [firstOccurrences, List.mem_cons, List.mem_filter, ih, ne_eq, decide_not,
      Bool.not_eq_eq_eq_not, Bool.not_true, decide_eq_false_iff_not]
    by_cases h : y = x
    · simp [h]
    · simp [h]

theorem nodup_firstOccurrences (l : List Int) : (firstOccurrences l).Nodup := by
  induction l with
  | nil => simp [firstOccurrences]
  | cons x xs ih =>
    rw [firstOccurrences, List.nodup_cons]
    exact ⟨by simp [List.mem_filter], ih.filter _⟩

theorem firstOccurrences_snoc (l : List Int) (x : Int) :
    firstOccurrences (l ++ [x])
      = if x ∈ l then firstOccurrences l else firstOccurrences l ++ [x] := by
  induction l with
  | nil => simp [firstOccurrences]
  | cons a as ih =>
    show firstOccurrences (a :: (as ++ [x])) = _
    rw [firstOccurrences, ih]
    by_cases hxa : x = a
    · subst hxa
      rw [if_pos (List.mem_cons_self _ _)]
      by_cases hx : x ∈ as
      · rw [if_pos hx, firstOccurrences]
      · rw [if_neg hx, firstOccurrences, List.filter_append]
        simp
    · by_cases hx : x ∈ as
      · rw [if_pos hx, if_pos (List.mem_cons_of_mem _ hx), firstOccurrences]
      · rw [if_neg hx, if_neg (by simp [hxa, hx]), firstOccurrences, List.filter_append]
        simp [hxa]

theorem isExistNum_eq (num : Int) (list : List Int) :
    isExistNum num list = decide (num ∈ list) := by
  induction list with
  | nil => simp [isExistNum]
  | cons a as ih =>
    unfold isExistNum
    by_cases h : num = a
    · simp [h]
    · simp [h, ih]

theorem getRandNumsLoop_spec (draw : Nat → Int) (count : Int) :
    ∀ (fuel k : Nat) (result out : List Int),
      result = firstOccurrences ((List.range k).map draw) →
      (result.length : Int) ≤ count →
      getRandNumsLoop draw count fuel k result = some out →
      (out.length : Int) = count ∧
        ∃ k2, k ≤ k2 ∧ k2 ≤ k + fuel ∧ out = firstOccurrences ((List.range k2).map draw) := by
  intro fuel
  induction fuel with
  | zero =>
    intro k result out hres hlen h
    by_cases hlt : (result.length : Int) < count
    · rw [getRandNumsLoop, if_pos hlt] at h
      simp at h
    · rw [getRandNumsLoop, if_neg hlt] at h
      simp only [Option.some.injEq] at h
      subst h
      exact ⟨by omega, k, le_refl _, by omega, hres⟩
  | succ f ih =>
    intro k result out hres hlen h
    by_cases hlt : (result.length : Int) < count
    · rw [getRandNumsLoop, if_pos hlt] at h
      by_cases hex : draw k ∈ result
      · rw [isExistNum_eq, if_pos (by simpa using hex)] at h
        have hstep : result = firstOccurrences ((List.range (k + 1)).map draw) := by
          have hm : draw k ∈ (List.range k).map draw := by
            rw [← mem_firstOccurrences, ← hres]
            exact hex
          rw [List.range_succ, List.map_append, List.map_singleton, firstOccurrences_snoc,
            if_pos hm, ← hres]
        obtain ⟨h1, k2, h2, h3, h4⟩ := ih (k + 1) result out hstep hlen h
        exact ⟨h1, k2, by omega, by omega, h4⟩
      · rw [isExistNum_eq, if_neg (by simpa using hex)] at h
        have hstep : result ++ [draw k] = firstOccurrences ((List.range (k + 1)).map draw) := by
          have hm : draw k ∉ (List.range k).map draw := by
            rw [← mem_firstOccurrences, ← hres]
            exact hex
          rw [List.range_succ, List.map_append, List.map_singleton, firstOccurrences_snoc,
            if_neg hm, ← hres]
        have hlen2 : ((result ++ [draw k]).length : Int) ≤ count := by
          simp only [List.length_append, List.length_singleton]
          push_cast
          omega
        obtain ⟨h1, k2, h2, h3, h4⟩ := ih (k + 1) (result ++ [draw k]) out hstep hlen2 h
        exact ⟨h1, k2, by omega, by omega, h4⟩
    · rw [getRandNumsLoop, if_neg hlt] at h
      simp only [Option.some.injEq] at h
      subst h
      exact ⟨by omega, k, le_refl _, by omega, hres⟩

theorem getRandNums_spec (E : Env) (seed max count : Int) (fuel : Nat) (result : List Int)
    (hcount : 0 ≤ count) (hmax : count ≤ max)
    (hstream : ∀ k, 0 ≤ E.Intn seed max k ∧ E.Intn seed max k < max)
    (hret : getRandNums E seed max count fuel = some result) :
    (result.length : Int) = count ∧ result.Nodup ∧ (∀ x ∈ result, 0 ≤ x ∧ x < max) ∧
    ∃ k, k ≤ fuel ∧ result = firstOccurrences ((List.range k).map (E.Intn seed max)) := by
  unfold getRandNums at hret
  rw [if_neg (by omega)] at hret
  obtain ⟨h1, k, -, hk, h2⟩ := getRandNumsLoop_spec (E.Intn seed max) count fuel 0 [] result
    (by simp [firstOccurrences]) (by simpa using hcount) hret
  refine ⟨h1, ?_, ?_, k, by omega, h2⟩
  · rw [h2]
    exact nodup_firstOccurrences _
  · intro x hx
    rw [h2, mem_firstOccurrences, List.mem_map] at hx
    obtain ⟨i, -, rfl⟩ := hx
    exact hstream i

theorem beNat_zeros_append (k : Nat) (b : List Byte) :
    beNat (List.replicate k 0 ++ b) = beNat b := by
  unfold beNat
  rw [List.foldl_append]
  congr 1
  induction k with
  | zero => rfl
  | succ n ih => simp [List.replicate_succ, ih]

theorem BytesToHash_Big (b : List Byte) (h : b.length ≤ 32) :
    (BytesToHash b).Big = (beNat b : Int) := by
  unfold Hash.Big BytesToHash
  simp only
  rw [show b.length - 32 = 0 by omega, List.drop_zero, beNat_zeros_append]

theorem toInt64_range (n : Nat) :
    -(2 : Int) ^ 63 ≤ toInt64 n ∧ toInt64 n < 2 ^ 63 ∧ (toInt64 n - (n : Int)) % 2 ^ 64 = 0 ∧
    (n % 2 ^ 64 < 2 ^ 63 → toInt64 n = ((n % 2 ^ 64 : Nat) : Int)) ∧
    toInt64 n = (((n + 2 ^ 63) % 2 ^ 64 : Nat) : Int) - 2 ^ 63 := by
  unfold toInt64
  simp only [Nat.reducePow]
  rw [show (2 : Int) ^ 63 = 9223372036854775808 by norm_num,
    show (2 : Int) ^ 64 = 18446744073709551616 by norm_num]
  split_ifs with h <;> refine ⟨?_, ?_, ?_, ?_, ?_⟩ <;> omega

theorem aiSeed_eq (E : Env) (header : Header)
    (hv : (E.GetVrfInfoFromHeader header.VrfValue).length ≤ 32) :
    aiSeed E header = toInt64
      (beNat (E.GetVrfInfoFromHeader header.VrfValue) + beNat header.Coinbase.bytes) := by
  unfold aiSeed
  rw [BytesToHash_Big _ hv]
  unfold Address.Big
  congr 1

/-! ## Facts about the remote agent -/

theorem beNat_append_single (l : List Byte) (x : Byte) : beNat (l ++ [x]) = beNat l * 256 + x.val := by
  simp [beNat, List.foldl_append]

theorem beNat_natBytes : ∀ (fuel n : Nat), n ≤ fuel → beNat (natBytes fuel n) = n := by
  intro fuel
  induction fuel with
  | zero =>
    intro n h
    have : n = 0 := by omega
    subst this
    rfl
  | succ f ih =>
    intro n h
    rw [natBytes]
    by_cases h0 : n = 0
    · rw [if_pos h0, h0]
      rfl
    · rw [if_neg h0, beNat_append_single, ih (n / 256) (by omega)]
      show n / 256 * 256 + n % 256 = n
      omega

theorem beNat_bigBytes (x : Int) : beNat (bigBytes x) = x.natAbs :=
  beNat_natBytes _ _ (Nat.le_refl _)

theorem mapGet_cons_same {β : Type} (m : List (Hash × β)) (id : Hash) (v : β) :
    mapGet ((id, v) :: m) id = some v := by
  simp [mapGet]

theorem mapGet_cons_other {β : Type} (m : List (Hash × β)) (id id2 : Hash) (v : β)
    (h : id ≠ id2) : mapGet ((id, v) :: m) id2 = mapGet m id2 := by
  simp [mapGet, List.find?, h]

theorem mapGet_filter_ne {β : Type} (m : List (Hash × β)) (id id2 : Hash) (h : id2 ≠ id) :
    mapGet (m.filter (fun e => e.1 ≠ id)) id2 = mapGet m id2 := by
  unfold mapGet
  induction m with
  | nil => rfl
  | cons e m ih =>
    rw [List.filter_cons]
    by_cases he : e.1 = id
    · have hne : e.1 ≠ id2 := fun h2 => h (h2.symm.trans he)
      rw [if_neg (by simpa using he), List.find?_cons_of_neg _ (by simpa using hne)]
      exact ih
    · rw [if_pos (by simpa using he)]
      by_cases h2 : e.1 = id2
      · rw [List.find?_cons_of_pos _ (by simpa using h2),
          List.find?_cons_of_pos _ (by simpa using h2)]
      · rw [List.find?_cons_of_neg _ (by simpa using h2),
          List.find?_cons_of_neg _ (by simpa using h2)]
        exact ih

theorem mapGet_filter_eq {β : Type} (m : List (Hash × β)) (id : Hash) (p : Hash × β → Bool)
    (h : ∀ e ∈ m, e.1 = id → p e = false) :
    mapGet (m.filter p) id = none := by
  unfold mapGet
  induction m with
  | nil => rfl
  | cons e m ih =>
    have ih2 := ih (fun x hx => h x (List.mem_cons_of_mem _ hx))
    rw [List.filter_cons]
    by_cases hp : p e = true
    · have hne : e.1 ≠ id := fun h2 => by
        have := h e (List.mem_cons_self _ _) h2
        rw [this] at hp
        exact Bool.noConfusion hp
      rw [if_pos hp, List.find?_cons_of_neg _ (by simpa using hne)]
      exact ih2
    · rw [if_neg hp]
      exact ih2

theorem timeSince_gt (now t : Int) :
    timeSince now t > 10 * Second ↔ now - t > 10000000000 := by
  unfold timeSince Second
  rw [show (2 : Int) ^ 63 = 9223372036854775808 by norm_num]
  split_ifs <;> omega

theorem toInt64_emod (n : Nat) : toInt64 n % 2 ^ 64 = (n : Int) % 2 ^ 64 := by
  have h := (toInt64_range n).2.2.1
  exact Int.emod_eq_emod_iff_emod_sub_eq_zero.mpr h

theorem wrapInt64_emod (z : Int) : wrapInt64 z % 2 ^ 64 = z % 2 ^ 64 := by
  unfold wrapInt64
  rw [toInt64_emod, Int.toNat_of_nonneg (Int.emod_nonneg _ (by norm_num)), Int.emod_emod_of_dvd _ (dvd_refl _)]

theorem wrapInt64_congr (a b : Int) (h : a % 2 ^ 64 = b % 2 ^ 64) : wrapInt64 a = wrapInt64 b := by
  unfold wrapInt64
  rw [h]

theorem wrapInt64_of_range (z : Int) (h0 : 0 ≤ z) (h1 : z < 2 ^ 63) : wrapInt64 z = z := by
  unfold wrapInt64
  have hz : z % 2 ^ 64 = z := Int.emod_eq_of_lt h0 (by
    rw [show (2 : Int) ^ 63 = 9223372036854775808 by norm_num] at h1
    rw [show (2 : Int) ^ 64 = 18446744073709551616 by norm_num]
    omega)
  rw [hz]
  obtain ⟨n, rfl⟩ := Int.eq_ofNat_of_zero_le h0
  rw [Int.toNat_ofNat]
  have hn : n < 2 ^ 63 := by exact_mod_cast h1
  have hlt : n % 2 ^ 64 < 2 ^ 63 := by
    rw [Nat.mod_eq_of_lt (by omega)]
    exact hn
  rw [(toInt64_range n).2.2.2.1 hlt, Nat.mod_eq_of_lt (by omega)]

theorem foldl_rates (m : List (Hash × hashrate)) (x : Int) :
    m.foldl (fun tot e => wrapInt64 (tot + toInt64 e.2.rate)) (wrapInt64 x)
      = wrapInt64 (x + (rateSum m : Int)) := by
  induction m generalizing x with
  | nil => simp [rateSum]
  | cons e m ih =>
    rw [List.foldl_cons]
    have h : wrapInt64 (wrapInt64 x + toInt64 e.2.rate) = wrapInt64 (x + (e.2.rate : Int)) := by
      apply wrapInt64_congr
      rw [Int.add_emod, wrapInt64_emod, toInt64_emod, ← Int.add_emod]
    rw [h, ih]
    congr 1
    simp [rateSum]
    ring

theorem GetHashRate_eq (a : RemoteAgent) :
    a.GetHashRate = wrapInt64 (rateSum a.hashrate : Int) := by
  unfold RemoteAgent.GetHashRate
  have h := foldl_rates a.hashrate 0
  rw [show wrapInt64 0 = 0 by decide, zero_add] at h
  exact h

theorem SubmitWork_accept (decode : List Char → Option Address) (a : RemoteAgent)
    (strnonce strAIHah strhash strminerAddr : List Char) (nonce : BlockNonce) (work : Work)
    (addr : Address) (engine : Engine) (verified : Header) (sent : List Header)
    (hlen : strhash.length = 66) (hai : strAIHah.length = 66) (hn : strnonce.length ≤ 10)
    (hnonce : conversType strnonce = some nonce)
    (hwork : a.work (HexToHash strhash) = some work)
    (haddr : decode strminerAddr = some addr)
    (hengine : a.engine work.header.Version = some engine)
    (hseal : engine.VerifySeal a.chain
      { work.header with Nonce := nonce, AIHash := HexToHash strAIHah, Coinbase := addr }
      = some (.ok (), verified))
    (hch : a.returnCh = some sent) :
    a.SubmitWork decode strnonce strAIHah strhash strminerAddr
      = some (true, { a with
          returnCh := some (sent ++ [verified])
          work := fun h => if h = HexToHash strhash then none else a.work h }) := by
  unfold RemoteAgent.SubmitWork
  rw [if_neg (by simp [hlen, hai]), if_neg (by omega)]
  simp only [hnonce, hwork, haddr, hengine, hseal, hch]

theorem SubmitWork_true (decode : List Char → Option Address) (a a2 : RemoteAgent)
    (strnonce strAIHah strhash strminerAddr : List Char)
    (h : a.SubmitWork decode strnonce strAIHah strhash strminerAddr = some (true, a2)) :
    strhash.length = 66 ∧ strAIHah.length = 66 ∧ strnonce.length ≤ 10 ∧
    ∃ nonce work addr engine verified sent,
      conversType strnonce = some nonce ∧
      a.work (HexToHash strhash) = some work ∧
      decode strminerAddr = some addr ∧
      a.engine work.header.Version = some engine ∧
      engine.VerifySeal a.chain
        { work.header with Nonce := nonce, AIHash := HexToHash strAIHah, Coinbase := addr }
        = some (.ok (), verified) ∧
      a.returnCh = some sent ∧
      a2 = { a with
        returnCh := some (sent ++ [verified])
        work := fun h => if h = HexToHash strhash then none else a.work h } := by
  unfold RemoteAgent.SubmitWork at h
  by_cases h1 : strhash.length ≠ 66 ∨ strAIHah.length ≠ 66
  · rw [if_pos h1] at h
    simp at h
  rw [if_neg h1] at h
  by_cases h2 : strnonce.length > 10
  · rw [if_pos h2] at h
    simp at h
  rw [if_neg h2] at h
  simp only at h
  cases hc : conversType strnonce with
  | none => simp [hc] at h
  | some nonce =>
    cases hw : a.work (HexToHash strhash) with
    | none => simp [hc, hw] at h
    | some work =>
      cases hd : decode strminerAddr with
      | none => simp [hc, hw, hd] at h
      | some addr =>
        cases he : a.engine work.header.Version with
        | none => simp [hc, hw, hd, he] at h
        | some engine =>
          cases hs : engine.VerifySeal a.chain
              { work.header with Nonce := nonce, AIHash := HexToHash strAIHah, Coinbase := addr } with
          | none => simp [hc, hw, hd, he, hs] at h
          | some p =>
            obtain ⟨r, verified⟩ := p
            cases r with
            | error e => simp [hc, hw, hd, he, hs] at h
            | ok u =>
              cases hr : a.returnCh with
              | none => simp [hc, hw, hd, he, hs, hr] at h
              | some sent =>
                simp only [hc, hw, hd, he, hs, hr, Option.some.injEq, Prod.mk.injEq, true_and] at h
                refine ⟨by omega, by omega, by omega, nonce, work, addr, engine, verified, sent,
                  rfl, rfl, rfl, he, hs, rfl, h.symm⟩

theorem SubmitWork_false (decode : List Char → Option Address) (a a2 : RemoteAgent)
    (strnonce strAIHah strhash strminerAddr : List Char)
    (h : a.SubmitWork decode strnonce strAIHah strhash strminerAddr = some (false, a2)) :
    a2 = a := by
  unfold RemoteAgent.SubmitWork at h
  by_cases h1 : strhash.length ≠ 66 ∨ strAIHah.length ≠ 66
  · rw [if_pos h1] at h
    simp at h
    exact h.symm
  rw [if_neg h1] at h
  by_cases h2 : strnonce.length > 10
  · rw [if_pos h2] at h
    simp at h
    exact h.symm
  rw [if_neg h2] at h
  simp only at h
  cases hc : conversType strnonce with
  | none => simp [hc] at h
  | some nonce =>
    cases hw : a.work (HexToHash strhash) with
    | none =>
      simp [hc, hw] at h
      exact h.symm
    | some work =>
      cases hd : decode strminerAddr with
      | none =>
        simp [hc, hw, hd] at h
        exact h.symm
      | some addr =>
        cases he : a.engine work.header.Version with
        | none =>
          simp [hc, hw, hd, he] at h
          exact h.symm
        | some engine =>
          cases hs : engine.VerifySeal a.chain
              { work.header with Nonce := nonce, AIHash := HexToHash strAIHah, Coinbase := addr } with
          | none => simp [hc, hw, hd, he, hs] at h
          | some p =>
            obtain ⟨r, verified⟩ := p
            cases r with
            | error e =>
              simp [hc, hw, hd, he, hs] at h
              exact h.symm
            | ok u =>
              cases hr : a.returnCh with
              | none => simp [hc, hw, hd, he, hs, hr] at h
              | some sent => simp [hc, hw, hd, he, hs, hr] at h

theorem SubmitWork_no_work (decode : List Char → Option Address) (a : RemoteAgent)
    (strnonce strAIHah strhash strminerAddr : List Char) (nonce : BlockNonce)
    (hnonce : conversType strnonce = some nonce)
    (hwork : a.work (HexToHash strhash) = none) :
    a.SubmitWork decode strnonce strAIHah strhash strminerAddr = some (false, a) := by
  unfold RemoteAgent.SubmitWork
  split_ifs
  · rfl
  · rfl
  · simp only [hnonce, hwork]

theorem SubmitWork_running (decode : List Char → Option Address) (a : RemoteAgent) (r : Int)
    (strnonce strAIHah strhash strminerAddr : List Char) :
    RemoteAgent.SubmitWork decode { a with running := r } strnonce strAIHah strhash strminerAddr
      = (a.SubmitWork decode strnonce strAIHah strhash strminerAddr).map
          (fun p => (p.1, { p.2 with running := r })) := by
  unfold RemoteAgent.SubmitWork
  simp only
  split_ifs
  · rfl
  · rfl
  · cases conversType strnonce with
    | none => rfl
    | some nonce =>
      simp only
      cases a.work (HexToHash strhash) with
      | none => rfl
      | some work =>
        simp only
        cases decode strminerAddr with
        | none => rfl
        | some addr =>
          simp only
          cases a.engine work.header.Version with
          | none => rfl
          | some engine =>
            simp only
            cases engine.VerifySeal a.chain
              { work.header with Nonce := nonce, AIHash := HexToHash strAIHah, Coinbase := addr } with
            | none => rfl
            | some p =>
              obtain ⟨res, verified⟩ := p
              cases res with
              | error e => rfl
              | ok u =>
                simp only
                cases a.returnCh with
                | none => rfl
                | some sent => rfl


/-! ## Facts about the batch verifier -/

theorem take_set_of_le {α : Type} (a : α) (n m : Nat) (l : List α) (h : m ≤ n) :
    (l.set n a).take m = l.take m :=
  List.ext_getElem? fun i => by
    rw [List.getElem?_take, List.getElem?_take]
    split
    · rw [List.getElem?_set_ne (by omega)]
    · rfl

theorem Coordinator.drain_inv (len : Nat) (handled : List (Nat × Result)) :
    ∀ (fuel : Nat) (s : Coordinator),
      s.errors.length = len → s.checked.length = len →
      (∀ i, i < len → s.checked[i]? = some (decide (i ∈ handled.map Prod.fst))) →
      (∀ p ∈ handled, s.errors[p.1]? = some p.2) →
      s.returned = false → s.out < len →
      (∀ i, i < s.out → i ∈ handled.map Prod.fst) →
      s.errorsOut = s.errors.take s.out →
      len - s.out + 1 ≤ fuel →
      ∃ s2, Coordinator.drain len fuel s = some s2 ∧ Coordinator.Inv len handled s2 := by
  intro fuel
  induction fuel with
  | zero =>
    intro s _ _ _ _ _ _ _ _ hf
    omega
  | succ f ih =>
    intro s he hc hchk herr hret hout hlow hsent hf
    rw [Coordinator.drain, hchk s.out hout]
    by_cases hin : s.out ∈ handled.map Prod.fst
    · rw [decide_eq_true hin]
      simp only
      have hlt : s.out < s.errors.length := by omega
      rw [List.getElem?_eq_getElem hlt]
      simp only
      have htake : s.errorsOut ++ [s.errors[s.out]] = s.errors.take (s.out + 1) := by
        rw [hsent, List.take_succ, List.getElem?_eq_getElem hlt]
        rfl
      by_cases hlast : s.out = len - 1
      · rw [if_pos hlast]
        refine ⟨_, rfl, he, hc, hchk, herr, ?_, ?_⟩
        · intro h
          exact absurd h (by simp)
        · intro _
          refine ⟨?_, ?_⟩
          · intro i hi
            by_cases hio : i < s.out
            · exact hlow i hio
            · have : i = s.out := by omega
              rw [this]
              exact hin
          · show s.errorsOut ++ [s.errors[s.out]] = s.errors
            rw [htake, List.take_of_length_le (by omega)]
      · rw [if_neg hlast]
        apply ih
        · exact he
        · exact hc
        · exact hchk
        · exact herr
        · exact hret
        · show s.out + 1 < len
          omega
        · intro i hi
          have hi2 : i < s.out + 1 := hi
          by_cases hio : i < s.out
          · exact hlow i hio
          · have : i = s.out := by omega
            rw [this]
            exact hin
        · exact htake
        · show len - (s.out + 1) + 1 ≤ f
          omega
    · rw [decide_eq_false hin]
      simp only
      refine ⟨s, rfl, he, hc, hchk, herr, ?_, ?_⟩
      · intro _
        exact ⟨hout, hlow, hin, hsent⟩
      · intro h
        rw [hret] at h
        exact absurd h (by simp)

theorem Coordinator.done_inv (len : Nat) (handled : List (Nat × Result)) (s : Coordinator)
    (index : Nat) (err : Result) (hinv : Coordinator.Inv len handled s)
    (hnew : index ∉ handled.map Prod.fst) (hlt : index < len) :
    ∃ s2, s.done len index err = some s2 ∧
      Coordinator.Inv len (handled ++ [(index, err)]) s2 := by
  obtain ⟨he, hc, hchk, herr, hopen, hclosed⟩ := hinv
  unfold Coordinator.done
  by_cases hret : s.returned = true
  · exact absurd ((hclosed hret).1 index hlt) hnew
  · rw [if_neg hret, if_pos hlt]
    have hret2 : s.returned = false := by simpa using hret
    obtain ⟨hout, hlow, hfresh, hsent⟩ := hopen hret2
    have hge : s.out ≤ index := by
      by_contra hcon
      exact hnew (hlow index (by omega))
    apply Coordinator.drain_inv
    · simp [he]
    · simp [hc]
    · intro i hi
      show (s.checked.set index true)[i]? = _
      rw [List.getElem?_set]
      by_cases hii : index = i
      · rw [if_pos hii, if_pos (by omega)]
        simp [hii]
      · rw [if_neg hii, hchk i hi]
        have : (i ∈ (handled ++ [(index, err)]).map Prod.fst) ↔ (i ∈ handled.map Prod.fst) := by
          simp only [List.map_append, List.mem_append, List.map_cons, List.map_nil,
            List.mem_singleton]
          constructor
          · rintro (h | h)
            · exact h
            · exact absurd h.symm hii
          · intro h
            exact Or.inl h
        simp only [this]
    · intro p hp
      show (s.errors.set index err)[p.1]? = some p.2
      rcases List.mem_append.mp hp with h | h
      · have hne : index ≠ p.1 := by
          intro heq
          apply hnew
          rw [heq]
          exact List.mem_map_of_mem _ h
        rw [List.getElem?_set_ne hne]
        exact herr p h
      · have : p = (index, err) := by simpa using h
        rw [this]
        show (s.errors.set index err)[index]? = some err
        rw [List.getElem?_set_self (by omega)]
    · exact hret2
    · exact hout
    · intro i hi
      have := hlow i hi
      simp only [List.map_append, List.mem_append]
      exact Or.inl this
    · show s.errorsOut = (s.errors.set index err).take s.out
      rw [take_set_of_le _ _ _ _ hge]
      exact hsent
    · show len - s.out + 1 ≤ len + 1
      omega

theorem Coordinator.run_inv (len : Nat) :
    ∀ (rest handled : List (Nat × Result)) (s : Coordinator),
      Coordinator.Inv len handled s →
      ((handled ++ rest).map Prod.fst).Nodup →
      (∀ i ∈ rest.map Prod.fst, i < len) →
      ∃ s2, Coordinator.run len rest s = some s2 ∧ Coordinator.Inv len (handled ++ rest) s2 := by
  intro rest
  induction rest with
  | nil =>
    intro handled s hinv _ _
    exact ⟨s, rfl, by simpa using hinv⟩
  | cons p rest ih =>
    intro handled s hinv hnd hlt
    obtain ⟨index, err⟩ := p
    have hnew : index ∉ handled.map Prod.fst := by
      intro hmem
      rw [List.map_append, List.map_cons] at hnd
      have := (List.nodup_append.mp hnd).2.2
      exact this hmem (List.mem_cons_self _ _)
    obtain ⟨s1, h1, hinv1⟩ := Coordinator.done_inv len handled s index err hinv hnew
      (hlt index (by simp))
    have hnd2 : (((handled ++ [(index, err)]) ++ rest).map Prod.fst).Nodup := by
      simpa using hnd
    obtain ⟨s2, h2, hinv2⟩ := ih (handled ++ [(index, err)]) s1 hinv1 hnd2
      (fun i hi => hlt i (by
        rw [List.map_cons]
        exact List.mem_cons_of_mem _ hi))
    refine ⟨s2, ?_, by simpa using hinv2⟩
    rw [Coordinator.run, h1]
    exact h2

theorem Coordinator.start_inv (len : Nat) (h : 0 < len) :
    Coordinator.Inv len [] (Coordinator.start len) := by
  refine ⟨by simp [Coordinator.start], by simp [Coordinator.start], ?_, ?_, ?_, ?_⟩
  · intro i hi
    simp [Coordinator.start, hi]
  · intro p hp
    exact absurd hp (List.not_mem_nil _)
  · intro _
    refine ⟨h, ?_, ?_, ?_⟩
    · intro i hi
      exact absurd hi (Nat.not_lt_zero _)
    · simp
    · simp [Coordinator.start]
  · intro hr
    exact absurd hr (by simp [Coordinator.start])

theorem Coordinator.run_complete (len : Nat) (h : 0 < len) (trace : List (Nat × Result))
    (hperm : (trace.map Prod.fst).Perm (List.range len)) :
    ∃ s, Coordinator.run len trace (Coordinator.start len) = some s ∧
      s.returned = true ∧ s.errorsOut.length = len ∧
      ∀ p ∈ trace, s.errorsOut[p.1]? = some p.2 := by
  have hnd : (([] ++ trace).map Prod.fst).Nodup := by
    rw [List.nil_append]
    exact hperm.nodup_iff.mpr (List.nodup_range len)
  have hlt : ∀ i ∈ trace.map Prod.fst, i < len := by
    intro i hi
    exact List.mem_range.mp (hperm.mem_iff.mp hi)
  obtain ⟨s, hrun, hinv⟩ := Coordinator.run_inv len trace [] (Coordinator.start len)
    (Coordinator.start_inv len h) hnd hlt
  rw [List.nil_append] at hinv
  obtain ⟨he, -, -, herr, hopen, hclosed⟩ := hinv
  have hret : s.returned = true := by
    by_contra hcon
    have hf : s.returned = false := by simpa using hcon
    obtain ⟨hout, -, hfresh, -⟩ := hopen hf
    exact hfresh (hperm.mem_iff.mpr (List.mem_range.mpr hout))
  refine ⟨s, hrun, hret, ?_, ?_⟩
  · rw [(hclosed hret).2]
    exact he
  · intro p hp
    rw [(hclosed hret).2]
    exact herr p hp

theorem runWorkers_trace (E : Env) (amhash : Amhash) (now : Nat → Int) (chain : ChainReader)
    (headers : List Header) (seals : List Bool) (fuel : Nat) :
    ∀ (arrivals : List Nat) (big1 : Int) (trace : List (Nat × Result)) (b : Int),
      runWorkers E amhash now chain headers seals fuel arrivals big1 = some (trace, b) →
      trace.map Prod.fst = arrivals ∧
      ∀ p ∈ trace, ∃ b1,
        (verifyHeaderWorker E amhash b1 (now p.1) chain headers seals p.1 fuel).1 = some p.2 := by
  intro arrivals
  induction arrivals with
  | nil =>
    intro big1 trace b h
    rw [runWorkers] at h
    simp only [Option.some.injEq, Prod.mk.injEq] at h
    rw [← h.1]
    exact ⟨rfl, fun p hp => absurd hp (List.not_mem_nil _)⟩
  | cons index rest ih =>
    intro big1 trace b h
    rw [runWorkers] at h
    cases hw : verifyHeaderWorker E amhash big1 (now index) chain headers seals index fuel with
    | mk r b2 =>
      rw [hw] at h
      cases r with
      | none => simp at h
      | some err =>
        simp only at h
        cases hr : runWorkers E amhash now chain headers seals fuel rest b2 with
        | none =>
          rw [hr] at h
          simp at h
        | some q =>
          obtain ⟨tr, b3⟩ := q
          rw [hr] at h
          simp only [Option.map_some', Option.some.injEq, Prod.mk.injEq] at h
          obtain ⟨ih1, ih2⟩ := ih b2 tr b3 hr
          rw [← h.1]
          refine ⟨by simp [ih1], ?_⟩
          intro p hp
          rcases List.mem_cons.mp hp with h1 | h1
          · refine ⟨big1, ?_⟩
            rw [h1]
            show (verifyHeaderWorker E amhash big1 (now index) chain headers seals index fuel).1
              = some err
            rw [hw]
          · exact ih2 p h1

theorem VerifyHeaders_of_trace (E : Env) (amhash : Amhash) (big1 : Int) (now : Nat → Int)
    (chain : ChainReader) (headers : List Header) (seals : List Bool) (arrivals : List Nat)
    (fuel : Nat) (trace : List (Nat × Result)) (b : Int) (s : Coordinator)
    (hmode : amhash.config.PowMode ≠ .ModeFullFake) (hne : headers ≠ [])
    (hrun : runWorkers E amhash now chain headers seals fuel arrivals big1 = some (trace, b))
    (hco : Coordinator.run headers.length trace (Coordinator.start headers.length) = some s) :
    VerifyHeaders E amhash big1 now chain headers seals arrivals fuel = some (s.errorsOut, b) := by
  unfold VerifyHeaders
  have hlen : headers.length ≠ 0 := by
    intro h
    exact hne (List.length_eq_zero.mp h)
  rw [if_neg (by simp [hmode, hlen]), hrun]
  simp only
  rw [hco]
  rfl


/-! ## Facts about the uncle rules -/

theorem verifyUncleLoop_ok (E : Env) (amhash : Amhash) (now : Int) (chain : ChainReader)
    (block : Block) (ancestors : List (Hash × Header)) (fuel : Nat) :
    ∀ (rest : List Header) (uncles : List Hash) (big1 b : Int),
      verifyUncleLoop E amhash now chain block ancestors fuel rest uncles big1
        = (some (.ok ()), b) →
      (rest.map E.HeaderHash).Nodup ∧
      ∀ u ∈ rest, E.HeaderHash u ∉ uncles ∧ mapGet ancestors (E.HeaderHash u) = none ∧
        (∃ p, mapGet ancestors u.ParentHash = some p) ∧
        u.ParentHash ≠ block.ParentHash := by
  intro rest
  induction rest with
  | nil =>
    intro uncles big1 b _
    exact ⟨List.nodup_nil, fun u hu => absurd hu (List.not_mem_nil _)⟩
  | cons uncle rest ih =>
    intro uncles big1 b h
    rw [verifyUncleLoop] at h
    by_cases h1 : E.HeaderHash uncle ∈ uncles
    · rw [if_pos h1] at h
      simp at h
    rw [if_neg h1] at h
    by_cases h2 : (mapGet ancestors (E.HeaderHash uncle)).isSome = true
    · rw [if_pos h2] at h
      simp at h
    rw [if_neg h2] at h
    cases h3 : mapGet ancestors uncle.ParentHash with
    | none =>
      rw [h3] at h
      simp at h
    | some parent =>
      rw [h3] at h
      simp only at h
      by_cases h4 : uncle.ParentHash = block.ParentHash
      · rw [if_pos h4] at h
        simp at h
      rw [if_neg h4] at h
      cases h5 : verifyHeader E amhash big1 now chain uncle parent true true fuel with
      | mk r b2 =>
        rw [h5] at h
        cases r with
        | none => simp at h
        | some res =>
          cases res with
          | error e => simp at h
          | ok u0 =>
            simp only at h
            obtain ⟨ihnd, ihall⟩ := ih (uncles ++ [E.HeaderHash uncle]) b2 b h
            have hnone : mapGet ancestors (E.HeaderHash uncle) = none := by
              cases hm : mapGet ancestors (E.HeaderHash uncle) with
              | none => rfl
              | some v =>
                rw [hm] at h2
                exact absurd rfl h2
            constructor
            · rw [List.map_cons, List.nodup_cons]
              refine ⟨?_, ihnd⟩
              intro hmem
              obtain ⟨u, hu, hue⟩ := List.mem_map.mp hmem
              have := (ihall u hu).1
              apply this
              rw [hue]
              exact List.mem_append_right _ (List.mem_singleton_self _)
            · intro u hu
              rcases List.mem_cons.mp hu with hu1 | hu1
              · rw [hu1]
                exact ⟨h1, hnone, ⟨parent, h3⟩, h4⟩
              · obtain ⟨q1, q2, q3, q4⟩ := ihall u hu1
                exact ⟨fun hm => q1 (List.mem_append_left _ hm), q2, q3, q4⟩

theorem gatherAncestors_length (E : Env) (chain : ChainReader) :
    ∀ (i number : Nat) (parent : Hash) (uncles : List Hash) (ancestors : List (Hash × Header)),
      (gatherAncestors E chain i number parent uncles ancestors).2.length
        ≤ ancestors.length + i := by
  intro i
  induction i with
  | zero =>
    intro number parent uncles ancestors
    simp [gatherAncestors]
  | succ i ih =>
    intro number parent uncles ancestors
    rw [gatherAncestors]
    cases chain.GetBlock parent number with
    | none =>
      simp
    | some ancestor =>
      simp only
      have := ih ((number + 2 ^ 64 - 1) % 2 ^ 64) ancestor.ParentHash
        (uncles ++ ancestor.Uncles.map E.HeaderHash)
        ((ancestor.Hash, ancestor.Header) :: ancestors)
      simp only [List.length_cons] at this
      omega

theorem VerifyUncles_ok (E : Env) (amhash : Amhash) (big1 b : Int) (now : Int)
    (chain : ChainReader) (block : Block) (fuel : Nat)
    (hmode : amhash.config.PowMode ≠ .ModeFullFake)
    (h : VerifyUncles E amhash big1 now chain block fuel = (some (.ok ()), b)) :
    block.Uncles.length ≤ 2 ∧ (block.Uncles.map E.HeaderHash).Nodup ∧
    ∀ u ∈ block.Uncles,
      E.HeaderHash u ∉ (collectedAncestors E chain block).1 ∧
      mapGet (collectedAncestors E chain block).2 (E.HeaderHash u) = none ∧
      E.HeaderHash u ≠ block.Hash ∧
      ((∃ p, mapGet (collectedAncestors E chain block).2 u.ParentHash = some p) ∨
        u.ParentHash = block.Hash) ∧
      u.ParentHash ≠ block.ParentHash := by
  unfold VerifyUncles at h
  rw [if_neg hmode] at h
  by_cases hlen : block.Uncles.length > maxUncles
  · rw [if_pos hlen] at h
    simp at h
  rw [if_neg hlen] at h
  obtain ⟨hnd, hall⟩ := verifyUncleLoop_ok E amhash now chain block _ fuel _ _ _ _ h
  refine ⟨by unfold maxUncles at hlen; omega, hnd, ?_⟩
  intro u hu
  obtain ⟨q1, q2, ⟨p, q3⟩, q4⟩ := hall u hu
  have hne : E.HeaderHash u ≠ block.Hash := by
    intro heq
    apply q1
    rw [heq]
    exact List.mem_append_right _ (List.mem_singleton_self _)
  refine ⟨fun hm => q1 (List.mem_append_left _ hm), ?_, hne, ?_, q4⟩
  · rw [mapGet_cons_other _ _ _ _ (fun e => hne e.symm)] at q2
    exact q2
  · by_cases hp : block.Hash = u.ParentHash
    · exact Or.inr hp.symm
    · rw [mapGet_cons_other _ _ _ _ hp] at q3
      exact Or.inl ⟨p, q3⟩

theorem VerifyUncles_too_many (E : Env) (amhash : Amhash) (big1 : Int) (now : Int)
    (chain : ChainReader) (block : Block) (fuel : Nat)
    (hmode : amhash.config.PowMode ≠ .ModeFullFake) (h : 3 ≤ block.Uncles.length) :
    VerifyUncles E amhash big1 now chain block fuel = (some (.error .errTooManyUncles), big1) := by
  unfold VerifyUncles
  rw [if_neg hmode, if_pos (by unfold maxUncles; omega)]

theorem verifyHeader_returns (E : Env) (amhash : Amhash) (big1 now : Int) (chain : ChainReader)
    (header parent : Header) (uncle withSeal : Bool) (fuel : Nat)
    (hseal : (VerifySeal E amhash chain header fuel).isSome = true) :
    (verifyHeader E amhash big1 now chain header parent uncle withSeal fuel).1.isSome = true := by
  unfold verifyHeader
  split_ifs
  · rfl
  · rfl
  · rfl
  · rfl
  · cases hd : checkDifficulty E big1 chain header parent with
    | mk r b =>
      cases r with
      | error e => rfl
      | ok u =>
        simp only
        cases hg : checkGas header parent with
        | error e => rfl
        | ok u2 =>
          simp only
          unfold checkNumberSealForks
          split_ifs
          · rfl
          · cases hv : VerifySeal E amhash chain header fuel with
            | none =>
              rw [hv] at hseal
              exact absurd hseal (by simp)
            | some r =>
              cases r with
              | error e => rfl
              | ok u3 =>
                simp only
                cases E.VerifyDAOHeaderExtraData chain.Config header with
                | some c => rfl
                | none =>
                  simp only
                  cases E.VerifyForkHashes chain.Config header uncle with
                  | some c => rfl
                  | none => rfl
          · simp only
            cases E.VerifyDAOHeaderExtraData chain.Config header with
            | some c => rfl
            | none =>
              simp only
              cases E.VerifyForkHashes chain.Config header uncle with
              | some c => rfl
              | none => rfl

theorem verifyHeaderWorker_returns (E : Env) (amhash : Amhash) (big1 now : Int)
    (chain : ChainReader) (headers : List Header) (seals : List Bool) (index : Nat) (fuel : Nat)
    (hlen : seals.length = headers.length) (hi : index < headers.length)
    (hseal : ∀ h ∈ headers, (VerifySeal E amhash chain h fuel).isSome = true) :
    (verifyHeaderWorker E amhash big1 now chain headers seals index fuel).1.isSome = true := by
  unfold verifyHeaderWorker
  rw [List.getElem?_eq_getElem hi]
  simp only
  split
  · rfl
  · split_ifs
    · rfl
    · rw [List.getElem?_eq_getElem (by omega)]
      simp only
      exact verifyHeader_returns E amhash big1 now chain _ _ false _ fuel
        (hseal _ (List.getElem_mem _))

theorem runWorkers_returns (E : Env) (amhash : Amhash) (now : Nat → Int) (chain : ChainReader)
    (headers : List Header) (seals : List Bool) (fuel : Nat)
    (hlen : seals.length = headers.length)
    (hseal : ∀ h ∈ headers, (VerifySeal E amhash chain h fuel).isSome = true) :
    ∀ (arrivals : List Nat) (big1 : Int), (∀ i ∈ arrivals, i < headers.length) →
      ∃ trace b, runWorkers E amhash now chain headers seals fuel arrivals big1
        = some (trace, b) := by
  intro arrivals
  induction arrivals with
  | nil =>
    intro big1 _
    exact ⟨[], big1, rfl⟩
  | cons index rest ih =>
    intro big1 hall
    rw [runWorkers]
    have hw := verifyHeaderWorker_returns E amhash big1 (now index) chain headers seals index
      fuel hlen (hall index (List.mem_cons_self _ _)) hseal
    cases hv : verifyHeaderWorker E amhash big1 (now index) chain headers seals index fuel with
    | mk r b2 =>
      rw [hv] at hw
      cases r with
      | none => exact absurd hw (by simp)
      | some err =>
        simp only
        obtain ⟨tr, b3, h3⟩ := ih b2 (fun i hi => hall i (List.mem_cons_of_mem _ hi))
        rw [h3]
        exact ⟨(index, err) :: tr, b3, rfl⟩

/-! ## Facts used by the later claims -/

theorem mineSearch_result (E : Env) (target : Int) :
    ∀ (fuel : Nat) (curHeader : Header) (nonce : Nat),
      (mineSearch E target fuel curHeader nonce).2 = mineLoop E target fuel curHeader nonce := by
  intro fuel
  induction fuel with
  | zero =>
    intro curHeader nonce
    rfl
  | succ f ih =>
    intro curHeader nonce
    rw [mineSearch, mineLoop]
    cases combinationData E curHeader with
    | none => rfl
    | some payload =>
      simp only
      cases shareOf (E.x11 payload) with
      | none =>
        simp only
        exact ih _ _
      | some shareBig =>
        simp only
        split_ifs
        · rfl
        · exact ih _ _

theorem mineSearch_head (E : Env) (target : Int) (fuel : Nat) (header : Header) (seed : Nat) :
    (mineSearch E target (fuel + 1) header seed).1.head? = some (seed, header) := by
  rw [mineSearch, combinationData_eq]
  simp only
  cases shareOf (E.x11 _) with
  | none => rfl
  | some shareBig =>
    simp only
    split_ifs <;> rfl

theorem byzantiumAdjust_eq (E : Env) (curVersion : List Byte) (time : Nat) (parent : Header) :
    byzantiumAdjust E 1 curVersion time parent
      = parent.Difficulty + byzantiumFactor parent
          * max (uncleTerm E parent - ((time : Int) - parent.Time) / durationLimitOf E curVersion)
              (-99) := by
  unfold byzantiumAdjust byzantiumFactor uncleTerm durationLimitOf
  simp only [ite_lt_eq_max, uncle_branch_eq, DifficultyBoundDivisor]

theorem calcDifficultyByzantium_adjust (E : Env) (curVersion : List Byte) (time : Nat)
    (parent : Header) (minimumDifficulty : Int) :
    (calcDifficultyByzantium E 1 curVersion time parent minimumDifficulty).1
      = max (byzantiumAdjust E 1 curVersion time parent) minimumDifficulty
        + bombTerm (byzantiumPeriodCount parent) := by
  rw [calcDifficultyByzantium_eq, byzantiumAdjust_eq]
  rfl

theorem byzantiumFactor_of_nonneg (parent : Header) (h : 0 ≤ parent.Difficulty) :
    byzantiumFactor parent = max 1 (parent.Difficulty / 2048) ∧ 1 ≤ byzantiumFactor parent := by
  unfold byzantiumFactor
  have hq : 0 ≤ parent.Difficulty / 2048 := Int.ediv_nonneg h (by decide)
  by_cases h0 : parent.Difficulty / 2048 = 0
  · rw [if_pos h0, h0]
    exact ⟨by decide, le_refl 1⟩
  · rw [if_neg h0]
    have h1 : 1 ≤ parent.Difficulty / 2048 := by omega
    exact ⟨(max_eq_right h1).symm, h1⟩

theorem durationLimitOf_pos (E : Env) (curVersion : List Byte) : 0 < durationLimitOf E curVersion := by
  unfold durationLimitOf
  split_ifs
  · exact_mod_cast E.VersionGammaDurationLimit.pos
  · exact_mod_cast E.DurationLimit.pos

theorem uncleTerm_le (E : Env) (parent : Header) : uncleTerm E parent ≤ 2 := by
  unfold uncleTerm
  split_ifs <;> decide

theorem byzantiumAdjust_mono (E : Env) (curVersion : List Byte) (t1 t2 : Nat) (parent : Header)
    (hd : 0 ≤ parent.Difficulty) (ht : t1 ≤ t2) :
    byzantiumAdjust E 1 curVersion t2 parent ≤ byzantiumAdjust E 1 curVersion t1 parent := by
  rw [byzantiumAdjust_eq, byzantiumAdjust_eq]
  have hf := (byzantiumFactor_of_nonneg parent hd).2
  have hL := durationLimitOf_pos E curVersion
  have hq : ((t1 : Int) - parent.Time) / durationLimitOf E curVersion
      ≤ ((t2 : Int) - parent.Time) / durationLimitOf E curVersion := by
    apply Int.ediv_le_ediv hL
    have : (t1 : Int) ≤ (t2 : Int) := by exact_mod_cast ht
    omega
  have hm : max (uncleTerm E parent - ((t2 : Int) - parent.Time) / durationLimitOf E curVersion)
        (-99)
      ≤ max (uncleTerm E parent - ((t1 : Int) - parent.Time) / durationLimitOf E curVersion)
        (-99) := by
    apply max_le_max _ (le_refl _)
    omega
  have := mul_le_mul_of_nonneg_left hm (show 0 ≤ byzantiumFactor parent by omega)
  omega

theorem byzantiumAdjust_bounds (E : Env) (curVersion : List Byte) (time : Nat) (parent : Header)
    (hd : 0 ≤ parent.Difficulty) :
    parent.Difficulty - 99 * max 1 (parent.Difficulty / 2048)
      ≤ byzantiumAdjust E 1 curVersion time parent ∧
    (parent.Time ≤ (time : Int) →
      byzantiumAdjust E 1 curVersion time parent
        ≤ parent.Difficulty + 2 * max 1 (parent.Difficulty / 2048)) := by
  rw [byzantiumAdjust_eq]
  obtain ⟨hf, hf1⟩ := byzantiumFactor_of_nonneg parent hd
  rw [← hf]
  have hL := durationLimitOf_pos E curVersion
  constructor
  · have hm : (-99 : Int) ≤ max (uncleTerm E parent
        - ((time : Int) - parent.Time) / durationLimitOf E curVersion) (-99) := le_max_right _ _
    have := mul_le_mul_of_nonneg_left hm (show 0 ≤ byzantiumFactor parent by omega)
    linarith
  · intro ht
    have hq : 0 ≤ ((time : Int) - parent.Time) / durationLimitOf E curVersion :=
      Int.ediv_nonneg (by omega) (le_of_lt hL)
    have hu := uncleTerm_le E parent
    have hm : max (uncleTerm E parent
        - ((time : Int) - parent.Time) / durationLimitOf E curVersion) (-99) ≤ 2 := by
      apply max_le
      · omega
      · decide
    have := mul_le_mul_of_nonneg_left hm (show 0 ≤ byzantiumFactor parent by omega)
    linarith

theorem verifyCoinbaseRole_ok_iff (chain : ChainReader) (header : Header) :
    verifyCoinbaseRole chain header = .ok () ↔
      ∃ g, chain.GetGraphByHash header.ParentHash = .ok g ∧
        (g.CheckAccountRole header.Coinbase .RoleMiner = true ∨
          ∃ l, chain.GetInnerMinerAccounts header.ParentHash = .ok l ∧ header.Coinbase ∈ l) := by
  unfold verifyCoinbaseRole
  cases hg : chain.GetGraphByHash header.ParentHash with
  | error e => simp
  | ok g =>
    simp only
    by_cases hr : g.CheckAccountRole header.Coinbase .RoleMiner = true
    · rw [if_pos hr]
      simp [hr]
    · rw [if_neg hr]
      cases hi : chain.GetInnerMinerAccounts header.ParentHash with
      | error e => simp [hr]
      | ok l =>
        simp only
        by_cases hm : header.Coinbase ∈ l
        · rw [if_pos hm]
          simp [hm]
        · rw [if_neg hm]
          simp [hr, hm]

theorem verifyCoinbaseRole_cases (chain : ChainReader) (header : Header) :
    verifyCoinbaseRole chain header = .ok () ∨
      verifyCoinbaseRole chain header = .error .errCoinbase := by
  cases h : verifyCoinbaseRole chain header with
  | ok u => exact Or.inl rfl
  | error e =>
    rw [verifyCoinbaseRole_err chain header e h]
    exact Or.inr rfl

theorem verifySealProofHeader_of_contract (E : Env) (amhash : Amhash) (header : Header)
    (fuel : Nat) (ht : E.nonceText.Hexutil) :
    verifySealProofHeader E amhash header fuel = header := by
  unfold verifySealProofHeader
  rw [reversed_of_contract _ ht]
  split
  · split_ifs <;> rfl
  · rfl

theorem VerifySealHeader_of_contract (E : Env) (amhash : Amhash) (chain : ChainReader)
    (header : Header) (fuel : Nat) (ht : E.nonceText.Hexutil) :
    VerifySealHeader E amhash chain header fuel = header := by
  unfold VerifySealHeader
  split
  · rfl
  · split
    · split
      · rfl
      · exact verifySealProofHeader_of_contract E _ header fuel ht
    · exact verifySealProofHeader_of_contract E _ header fuel ht

theorem verifySealProofHeader_fields (E : Env) (amhash : Amhash) (header : Header) (fuel : Nat) :
    verifySealProofHeader E amhash header fuel = header ∨
      verifySealProofHeader E amhash header fuel
        = { header with Nonce := E.nonceText.reversed header.Nonce } := by
  unfold verifySealProofHeader
  split
  · split_ifs
    · exact Or.inl rfl
    · exact Or.inl rfl
    · exact Or.inr rfl
  · exact Or.inl rfl

theorem VerifySealHeader_fields (E : Env) (amhash : Amhash) (chain : ChainReader)
    (header : Header) (fuel : Nat) :
    VerifySealHeader E amhash chain header fuel = header ∨
      VerifySealHeader E amhash chain header fuel
        = { header with Nonce := E.nonceText.reversed header.Nonce } := by
  unfold VerifySealHeader
  split
  · exact Or.inl rfl
  · split
    · split
      · exact Or.inl rfl
      · exact verifySealProofHeader_fields E _ header fuel
    · exact verifySealProofHeader_fields E _ header fuel

theorem hexFold_none (d : List Char) :
    d.foldl (fun acc c => acc.bind (fun a => (fromHexChar c).map (fun v => a * 16 + v)))
      (none : Option Nat) = none := by
  induction d with
  | nil => rfl
  | cons c r ih =>
    rw [List.foldl_cons]
    exact ih

theorem hexFold_lt : ∀ (d : List Char) (acc v : Nat),
    d.foldl (fun acc c => acc.bind (fun a => (fromHexChar c).map (fun v => a * 16 + v)))
      (some acc) = some v →
    v < (acc + 1) * 16 ^ d.length ∧ ∀ c ∈ d, (fromHexChar c).isSome = true := by
  intro d
  induction d with
  | nil =>
    intro acc v h
    simp only [List.foldl_nil, Option.some.injEq] at h
    subst h
    simp
  | cons c r ih =>
    intro acc v h
    rw [List.foldl_cons, Option.some_bind] at h
    cases hc : fromHexChar c with
    | none =>
      rw [hc] at h
      simp only [Option.map_none'] at h
      rw [hexFold_none] at h
      exact absurd h (by simp)
    | some x =>
      rw [hc] at h
      simp only [Option.map_some'] at h
      obtain ⟨h1, h2⟩ := ih (acc * 16 + x) v h
      have hx := fromHexChar_lt c x hc
      constructor
      · rw [List.length_cons, pow_succ]
        calc v < (acc * 16 + x + 1) * 16 ^ r.length := h1
          _ ≤ ((acc + 1) * 16) * 16 ^ r.length := Nat.mul_le_mul_right _ (by omega)
          _ = (acc + 1) * (16 ^ r.length * 16) := by ring
      · intro c2 hc2
        rcases List.mem_cons.mp hc2 with e | e
        · rw [e, hc]
          rfl
        · exact h2 c2 e

theorem conversType_of_digits (s : List Char) (v : Nat) (hlen : s.length ≤ 10)
    (hv : parseHexDigits (trimPrefix0x s) = some v) :
    conversType s = some (EncodeNonce v) ∧ (EncodeNonce v).bytes = putBE 8 v := by
  have hne : trimPrefix0x s ≠ [] := by
    intro h
    rw [h] at hv
    simp [parseHexDigits] at hv
  have hfold := hv
  unfold parseHexDigits at hfold
  rw [if_neg hne] at hfold
  obtain ⟨hlt, hall⟩ := hexFold_lt _ 0 v hfold
  have htl : (trimPrefix0x s).length ≤ 10 := by
    unfold trimPrefix0x
    split
    · simp only [List.length_cons] at hlen
      omega
    · exact hlen
  have hv64 : v < 2 ^ 64 := by
    have h1 : 16 ^ (trimPrefix0x s).length ≤ 16 ^ 10 := Nat.pow_le_pow_right (by decide) htl
    have h2 : (16 : Nat) ^ 10 < 2 ^ 64 := by norm_num
    omega
  have hbig : bigSetString16 (trimPrefix0x s) = some (v : Int) := by
    unfold bigSetString16
    split
    · rename_i d heq
      have := hall '-' (by rw [heq]; exact List.mem_cons_self _ _)
      exact absurd this (by decide)
    · rename_i d heq
      have := hall '+' (by rw [heq]; exact List.mem_cons_self _ _)
      exact absurd this (by decide)
    · rw [hv]
      rfl
  constructor
  · unfold conversType
    rw [hbig]
    simp only
    unfold bigUint64
    rw [Int.natAbs_ofNat, Nat.mod_eq_of_lt hv64]
  · unfold EncodeNonce
    simp only
    rw [Nat.mod_eq_of_lt hv64]

/-! ## Facts about the state switches -/

theorem govStateOps_keyValue : govStateOps.KeyValue where
  minDifficulty_read := by
    intro st v st1 h
    simp only [govStateOps, Prod.mk.injEq, true_and] at h
    subst h
    rfl
  minDifficulty_frame := by
    intro st v st1 h
    simp only [govStateOps, Prod.mk.injEq, true_and] at h
    subst h
    exact ⟨rfl, rfl, rfl, rfl, rfl⟩
  leaderConfig_read := by
    intro st cfg st1 h
    simp only [govStateOps, Prod.mk.injEq, true_and] at h
    subst h
    rfl
  leaderConfig_frame := by
    intro st cfg st1 h
    simp only [govStateOps, Prod.mk.injEq, true_and] at h
    subst h
    exact ⟨rfl, rfl, rfl, rfl, rfl⟩

theorem processStateSwitchAIMine_ok {σ : Type} (M : MatrixState σ) (P : SwitchParams) (t : Nat)
    (st st1 st2 : σ) (cfg : LeaderConfig)
    (h1 : M.SetMinDifficulty st P.MinimumDifficulty = (.ok (), st1))
    (h2 : M.GetLeaderConfig st1 = .ok cfg)
    (h3 : M.SetLeaderConfig st1
      { ParentMiningTime := 50, PosOutTime := 40, ReelectOutTime := 40,
        ReelectHandleInterval := cfg.ReelectHandleInterval } = (.ok (), st2)) :
    processStateSwitchAIMine M P st t = (.ok (), st2) := by
  unfold processStateSwitchAIMine
  rw [h1]
  simp only [thenDo]
  rw [h2]
  simp only
  rw [h3]

theorem ProcessStateVersionSwitch_default {σ : Type} (M : MatrixState σ) (P : SwitchParams)
    (num t : Nat) (st : σ) (hg : num ≠ heightBefore P.VersionNumGamma)
    (hd : num ≠ heightBefore P.VersionNumDelta) (ha : num ≠ heightBefore P.VersionNumAIMine) :
    ProcessStateVersionSwitch M P num t st = (.ok (), st) := by
  unfold ProcessStateVersionSwitch
  rw [if_neg hg, if_neg hd, if_neg ha]

theorem ProcessStateVersionSwitch_AIMine {σ : Type} (M : MatrixState σ) (P : SwitchParams)
    (num t : Nat) (st : σ) (hg : num ≠ heightBefore P.VersionNumGamma)
    (hd : num ≠ heightBefore P.VersionNumDelta) (ha : num = heightBefore P.VersionNumAIMine) :
    ProcessStateVersionSwitch M P num t st = processStateSwitchAIMine M P st t := by
  unfold ProcessStateVersionSwitch
  rw [if_neg hg, if_neg hd, if_pos ha]

theorem bigEndianValue_eq : ∀ b : List Byte, bigEndianValue b = beNat b := by
  intro b
  induction b using List.reverseRecOn with
  | nil => rfl
  | append_singleton l x ih =>
    rw [beNat_append_single, ← ih]
    unfold bigEndianValue
    rw [List.reverse_append, List.reverse_singleton, List.singleton_append, List.map_cons,
      Nat.ofDigits_cons]
    ring

theorem shareOf_claimed (digest : List Byte) :
    shareOf digest = some (claimedShare digest) := by
  rw [shareOf_eq]
  unfold claimedShare
  rw [bigEndianValue_eq]

theorem floorQuotient_of_pos (a b : Int) (hb : 0 < b) : floorQuotient a b = a / b := by
  unfold floorQuotient
  obtain ⟨n, rfl⟩ := Int.eq_ofNat_of_zero_le (le_of_lt hb)
  exact Rat.floor_intCast_div_natCast a n


/-! ## The claims -/

set_option maxRecDepth 100000 in
/-- C1, counterexample. A worker of `Seal` publishes `sampleHeader`, yet `VerifySeal`
answers `errCoinbase` on a chain where the coinbase is no miner; and a worker
publishes `negativeHeader` (difficulty `-2^257`, target 0, share 0), yet
`VerifySeal` answers `errInvalidDifficulty`. -/
theorem seal_roundtrip_counterexample :
    (sealWorker sampleEnv sampleAmhash sampleHeader 0 false 16 1 = some sampleHeader ∧
      VerifySeal sampleEnv sampleAmhash noMinerChain sampleHeader 16
        = some (.error .errCoinbase)) ∧
    (sealWorker sampleEnv sampleAmhash negativeHeader 0 false 16 1 = some negativeHeader ∧
      VerifySeal sampleEnv sampleAmhash sampleChain negativeHeader 16
        = some (.error .errInvalidDifficulty)) := by
  refine ⟨⟨by decide, by rfl⟩, ⟨by decide, by rfl⟩⟩

/-- C1, as amended. Let the nonce text methods behave as in `hexutil`, the engine be
in normal mode without a shared engine, and `h` be a header of positive difficulty
that a non-broadcast worker of `Seal` publishes. Then the payload `VerifySeal`
hashes for `h` is the payload the worker hashed, its share is within the target,
the AI-hash, difficulty and proof-of-work checks of `VerifySeal` pass, and
`VerifySeal` returns success whenever its coinbase-role check passes. -/
theorem seal_verify_roundtrip (E : Env) (hE : E.nonceText.Hexutil) (amhash : Amhash)
    (hmode : amhash.config.PowMode = .ModeNormal) (hshared : amhash.shared = none)
    (chain : ChainReader) (header : Header) (seed aiFuel fuel : Nat) (h : Header)
    (hpub : sealWorker E amhash header seed false aiFuel fuel = some h)
    (hd : 0 < h.Difficulty) :
    (∃ payload, combinationData E h = some payload ∧
      combinationData E { h with Nonce := E.nonceText.reversed h.Nonce } = some payload ∧
      ((beNat (Reverse (E.x11 payload)) : Nat) : Int) ≤ maxUint256 / h.Difficulty) ∧
    verifySealProof E amhash h aiFuel = some (.ok ()) ∧
    (verifyCoinbaseRole chain h = .ok () →
      VerifySeal E amhash chain h aiFuel = some (.ok ())) := by
  unfold sealWorker at hpub
  cases hai : aiMineProcess E amhash header false aiFuel with
  | none => simp [hai] at hpub
  | some r =>
    cases r with
    | error e => simp [hai] at hpub
    | ok aiHash =>
      rw [hai] at hpub
      simp only at hpub
      obtain ⟨h1, -, payload, hp, hle⟩ := mine_found E _ seed fuel h hpub
      have hAI : h.AIHash = aiHash := by
        have e := congrArg Header.AIHash h1
        exact e
      have hD : h.Difficulty = header.Difficulty := by
        have e := congrArg Header.Difficulty h1
        exact e
      have hV : h.VrfValue = header.VrfValue := by
        have e := congrArg Header.VrfValue h1
        exact e
      have hC : h.Coinbase = header.Coinbase := by
        have e := congrArg Header.Coinbase h1
        exact e
      have hai2 : aiMineProcess E amhash h false aiFuel = some (.ok h.AIHash) := by
        rw [aiMineProcess_of_fields E amhash h header false aiFuel hV hC, hai, hAI]
      have hle2 : ((beNat (E.x11 payload).reverse : Nat) : Int) ≤ maxUint256 / h.Difficulty := by
        rw [hD]
        exact hle
      have hproof := verifySealProof_of_share E hE amhash h aiFuel payload hai2 hd hp hle2
      refine ⟨⟨payload, hp, ?_, hle2⟩, hproof, ?_⟩
      · rw [reversed_of_contract _ hE]
        exact hp
      · intro hrole
        rw [VerifySeal_of_proof E amhash hmode hshared chain h aiFuel hrole]
        exact hproof

set_option maxRecDepth 100000 in
/-- C1, witness: the amended statement at the example environment, engine and
header. -/
theorem seal_verify_roundtrip_witness :
    sampleEnv.nonceText.Hexutil ∧ sampleAmhash.config.PowMode = .ModeNormal ∧
    sampleAmhash.shared = none ∧
    sealWorker sampleEnv sampleAmhash sampleHeader 0 false 16 1 = some sampleHeader ∧
    0 < sampleHeader.Difficulty ∧
    verifySealProof sampleEnv sampleAmhash sampleHeader 16 = some (.ok ()) :=
  ⟨hexutilText_contract, rfl, rfl, by decide, by decide,
    (seal_verify_roundtrip sampleEnv hexutilText_contract sampleAmhash rfl rfl sampleChain
      sampleHeader 0 16 1 sampleHeader (by decide) (by decide)).2.1⟩

set_option maxRecDepth 100000 in
/-- C2, counterexample. A non-broadcast `mine` worker publishes `negativeHeader`, of
difficulty `-2^257`: the quotient `big.Int.Div` computes for the target is 0 and
the digest, byte-reversed and read as a big-endian integer, is 0; yet the floor of
`maxUint256 / header.Difficulty` is -1, which the share exceeds. -/
theorem mine_share_floor_counterexample :
    mine sampleEnv negativeHeader 0 false 1 = some negativeHeader ∧
    maxUint256 / negativeHeader.Difficulty = 0 ∧
    floorQuotient maxUint256 negativeHeader.Difficulty = -1 ∧
    ∃ payload, combinationData sampleEnv negativeHeader = some payload ∧
      claimedShare (sampleEnv.x11 payload) = 0 ∧
      ¬ claimedShare (sampleEnv.x11 payload)
          ≤ floorQuotient maxUint256 negativeHeader.Difficulty := by
  have hfloor : floorQuotient maxUint256 negativeHeader.Difficulty = -1 := by
    unfold floorQuotient
    rw [Int.floor_eq_iff]
    simp only [maxUint256, negativeHeader]
    norm_num
  have hshare : claimedShare (List.replicate 32 (0 : Byte)) = 0 := by
    simp only [claimedShare, bigEndianValue_eq]
    decide
  refine ⟨by decide, by decide, hfloor, _, combinationData_eq sampleEnv negativeHeader,
    hshare, ?_⟩
  show ¬ claimedShare (List.replicate 32 (0 : Byte))
      ≤ floorQuotient maxUint256 negativeHeader.Difficulty
  rw [hshare, hfloor]
  decide

/-- C2, as amended. Every header `h` that a non-broadcast `mine` worker publishes
has a payload; the share the code compares with the target is the `x11` digest of
that payload, byte-reversed and read as a big-endian integer; that share is at
most the quotient `big.Int.Div` computes from `maxUint256` and `h.Difficulty`
(Euclidean division), and for a positive difficulty it is at most the floor of
`maxUint256 / h.Difficulty`. -/
theorem mine_share_within_target (E : Env) (header : Header) (seed fuel : Nat) (h : Header)
    (hm : mine E header seed false fuel = some h) :
    ∃ payload, combinationData E h = some payload ∧
      shareOf (E.x11 payload) = some (claimedShare (E.x11 payload)) ∧
      claimedShare (E.x11 payload) ≤ maxUint256 / h.Difficulty ∧
      (0 < h.Difficulty →
        claimedShare (E.x11 payload) ≤ floorQuotient maxUint256 h.Difficulty) := by
  obtain ⟨h1, -, payload, hp, hle⟩ := mine_found E header seed fuel h hm
  have hD : h.Difficulty = header.Difficulty := by
    have e := congrArg Header.Difficulty h1
    exact e
  have hs : claimedShare (E.x11 payload) = ((beNat (E.x11 payload).reverse : Nat) : Int) := by
    unfold claimedShare
    rw [bigEndianValue_eq]
  have hle2 : claimedShare (E.x11 payload) ≤ maxUint256 / h.Difficulty := by
    rw [hD, hs]
    exact hle
  refine ⟨payload, hp, shareOf_claimed _, hle2, ?_⟩
  intro hd
  rw [floorQuotient_of_pos _ _ hd]
  exact hle2

set_option maxRecDepth 100000 in
/-- C2, witness: the worker publishes `sampleHeader`, of difficulty 1000, in its
first round, and the share is within the floor. -/
theorem mine_share_within_target_witness :
    mine sampleEnv sampleHeader 0 false 1 = some sampleHeader ∧
    0 < sampleHeader.Difficulty ∧
    ∃ payload, combinationData sampleEnv sampleHeader = some payload ∧
      shareOf (sampleEnv.x11 payload) = some (claimedShare (sampleEnv.x11 payload)) ∧
      claimedShare (sampleEnv.x11 payload) ≤ maxUint256 / sampleHeader.Difficulty ∧
      claimedShare (sampleEnv.x11 payload)
        ≤ floorQuotient maxUint256 sampleHeader.Difficulty :=
  ⟨by decide, by decide,
    match mine_share_within_target sampleEnv sampleHeader 0 1 sampleHeader (by decide) with
    | ⟨payload, hp, hs, hle, hfloor⟩ => ⟨payload, hp, hs, hle, hfloor (by decide)⟩⟩

set_option maxRecDepth 100000 in
/-- C3, counterexample. For the header hash `00 01 ... 1f` and the nonce
`00 00 00 00 00 00 00 aa` the payload starts with `1f 1e 1d 1c` and ends with
`00 00 00 aa`, where the layout of the specification starts with `03 02 01 00` and
ends with `aa 00 00 00`. -/
theorem payload_layout_counterexample :
    (combinationData sampleEnv sampleHeader).map (fun p => (p.take 4, p.drop 76))
      = some ([31, 30, 29, 28], [0, 0, 0, 170]) ∧
    ((claimedPayload (sampleEnv.HashNoNonce sampleHeader) sampleHeader.AIHash
        sampleHeader.Nonce).take 4,
      (claimedPayload (sampleEnv.HashNoNonce sampleHeader) sampleHeader.AIHash
        sampleHeader.Nonce).drop 76) = ([3, 2, 1, 0], [170, 0, 0, 0]) ∧
    combinationData sampleEnv sampleHeader ≠
      some (claimedPayload (sampleEnv.HashNoNonce sampleHeader) sampleHeader.AIHash
        sampleHeader.Nonce) := by
  refine ⟨by decide, by decide, by decide⟩

/-- C3, as amended. With the nonce text methods behaving as in `hexutil`,
`combinationData` returns exactly 80 bytes for every header: bytes 0..31 are the
hash without nonce in reverse byte order, bytes 32..63 are the AI hash in reverse
byte order, bytes 64..75 are zero, and bytes 76..79 are the low 32 bits of the
nonce in big-endian order, that is the last four bytes of the stored nonce. -/
theorem combinationData_layout (E : Env) (hE : E.nonceText.Hexutil) (header : Header) :
    ∃ payload, combinationData E header = some payload ∧ payload.length = 80 ∧
      payload.take 32 = (E.HashNoNonce header).bytes.reverse ∧
      (payload.drop 32).take 32 = header.AIHash.bytes.reverse ∧
      (payload.drop 64).take 12 = List.replicate 12 0 ∧
      payload.drop 76 = putBE 4 (header.Nonce.Uint64 % 2 ^ 32) ∧
      payload.drop 76 = header.Nonce.bytes.drop 4 := by
  refine ⟨_, combinationData_eq E header, ?_⟩
  rw [reversed_of_contract _ hE, low32_of_nonce]
  have h1 : (E.HashNoNonce header).bytes.reverse.length = 32 := by simp [Hash.size]
  have h2 : header.AIHash.bytes.reverse.length = 32 := by simp [Hash.size]
  have h3 : (header.Nonce.bytes.drop 4).length = 4 := by simp [BlockNonce.size]
  refine ⟨?_, ?_, ?_, ?_, ?_, ?_⟩
  · simp only [List.length_append, h1, h2, h3, List.length_replicate]
  · rw [List.append_assoc, List.append_assoc, List.take_left' h1]
  · rw [List.append_assoc, List.append_assoc, List.drop_left' h1, List.take_left' h2]
  · rw [List.append_assoc, List.drop_left' (by simp [h1, h2]), List.take_left' (by simp)]
  · rw [List.drop_left' (by simp [h1, h2])]
  · rw [List.drop_left' (by simp [h1, h2])]

set_option maxRecDepth 100000 in
/-- C3, witness: the amended layout at the example header, whose payload ends with
`00 00 00 aa`. -/
theorem combinationData_layout_witness :
    sampleEnv.nonceText.Hexutil ∧
    ∃ payload, combinationData sampleEnv sampleHeader = some payload ∧ payload.length = 80 ∧
      payload.take 32 = (sampleEnv.HashNoNonce sampleHeader).bytes.reverse ∧
      (payload.drop 32).take 32 = sampleHeader.AIHash.bytes.reverse ∧
      (payload.drop 64).take 12 = List.replicate 12 0 ∧
      payload.drop 76 = putBE 4 (sampleHeader.Nonce.Uint64 % 2 ^ 32) ∧
      payload.drop 76 = sampleHeader.Nonce.bytes.drop 4 :=
  ⟨hexutilText_contract, combinationData_layout sampleEnv hexutilText_contract sampleHeader⟩

set_option maxRecDepth 100000 in
/-- C4, counterexample. `upperText` is a string of 64 hexadecimal digits, and
applying `hashString2LittleEndian` to it twice gives `ab00...0`, which is not
`upperText`: the capital letters come back in lower case. -/
theorem hashString2LittleEndian_twice_counterexample :
    upperText.length = 64 ∧ (∀ c ∈ upperText, (fromHexChar c).isSome = true) ∧
    (hashString2LittleEndian upperText).bind hashString2LittleEndian
      = some ('a' :: 'b' :: List.replicate 62 '0') ∧
    (hashString2LittleEndian upperText).bind hashString2LittleEndian ≠ some upperText := by
  refine ⟨by decide, by decide, by decide, by decide⟩

/-- C4, as amended. For every string `s` of 64 hexadecimal digits, given as `h = s`
or as `h = 0x` followed by `s`, the digits decode to 32 bytes,
`hashString2LittleEndian h` is the lower-case hex text of those bytes split into
eight 4-byte groups with each group reversed and the groups kept in order, and
applying the function twice returns `s` with its digits in lower case (so `s`
itself when `s` is in lower case). -/
theorem hashString2LittleEndian_groups (s : List Char) (hlen : s.length = 64)
    (hs : IsHexText s) (h : List Char) (hh : h = s ∨ h = '0' :: 'x' :: s) :
    (Hex2Bytes s).length = 32 ∧
    hashString2LittleEndian h = some (Bytes2Hex (wordsByteReversed (Hex2Bytes s))) ∧
    (hashString2LittleEndian h).bind hashString2LittleEndian = some (s.map lowerHex) ∧
    ((∀ c ∈ s, lowerHex c = c) →
      (hashString2LittleEndian h).bind hashString2LittleEndian = some s) := by
  obtain ⟨hp1, hp2⟩ := hex_pairs s (by omega) hs
  have h32 : (Hex2Bytes s).length = 32 := by omega
  match s, hlen, hs, hp1, hp2, h32, hh with
  | c :: d :: r, hlen, hs, hp1, hp2, h32, hh =>
    obtain ⟨hx, hX⟩ := hexText_second_ne c d r hs
    have htrim : trimPrefix0x h = c :: d :: r := by
      rcases hh with rfl | rfl
      · exact trimPrefix0x_of_ne c d r hx
      · rfl
    have hfrom : FromHex (c :: d :: r) = Hex2Bytes (c :: d :: r) :=
      FromHex_of_ne c d r hx hX (by omega)
    have first : hashString2LittleEndian h
        = some (Bytes2Hex (wordsByteReversed (Hex2Bytes (c :: d :: r)))) := by
      unfold hashString2LittleEndian
      simp only [htrim, hfrom]
      exact wordSwap_of_length_32 _ h32
    have twice : (hashString2LittleEndian h).bind hashString2LittleEndian
        = some ((c :: d :: r).map lowerHex) := by
      rw [first, Option.some_bind,
        hashString2LittleEndian_Bytes2Hex _ (wordsByteReversed_twice _ h32).2,
        (wordsByteReversed_twice _ h32).1, hp1]
    refine ⟨h32, first, twice, ?_⟩
    intro hlow
    rw [twice]
    congr 1
    conv_rhs => rw [← List.map_id (c :: d :: r)]
    exact List.map_congr_left (fun a ha => by simpa using hlow a ha)



set_option maxRecDepth 100000 in
/-- C4, witness: the amended statement at the string of 64 zeros. -/
theorem hashString2LittleEndian_groups_witness :
    (List.replicate 64 '0').length = 64 ∧ IsHexText (List.replicate 64 '0') ∧
    (hashString2LittleEndian (List.replicate 64 '0')).bind hashString2LittleEndian
      = some ((List.replicate 64 '0').map lowerHex) :=
  ⟨by decide, by unfold IsHexText; decide,
    (hashString2LittleEndian_groups (List.replicate 64 '0') (by decide)
      (by unfold IsHexText; decide) (List.replicate 64 '0') (Or.inl rfl)).2.2.1⟩

/-- C5, counterexample. For a parent of difficulty 100 at height 3199999, without
uncles, and a block one second later, the code returns 102 where the formula of
the specification gives 101: the quotient `100 / 2048` is zero and the code
multiplies by 1 instead. -/
theorem byzantium_formula_counterexample :
    (calcDifficultyByzantium sampleEnv 1 [] 1 lowDifficultyParent 1).1 = 102 ∧
    claimedByzantium sampleEnv [] 1 lowDifficultyParent 1 = 101 := by
  refine ⟨by decide, by decide⟩

/-- C5, as amended. Called with the package constant `big1` at its initial value 1,
`calcDifficultyByzantium` returns
`max(parent.d + m * max(U - (time - parent.time) / L, -99), minDifficulty) + bomb`
where `m` is `parent.d / 2048`, or 1 when that quotient is zero, `U` is 2 when the
parent has uncles and 1 otherwise, `L` is the duration limit of the version, and
`bomb` is `2^(periodCount - 2)` when `periodCount >= 2` and 0 otherwise, with
`periodCount = max(0, parent.number - 2999999) / 100000`. -/
theorem byzantium_formula (E : Env) (curVersion : List Byte) (time : Nat) (parent : Header)
    (minimumDifficulty : Int) :
    (calcDifficultyByzantium E 1 curVersion time parent minimumDifficulty).1
      = max (parent.Difficulty + byzantiumFactor parent
          * max (uncleTerm E parent - ((time : Int) - parent.Time) / durationLimitOf E curVersion)
              (-99))
          minimumDifficulty
        + bombTerm (byzantiumPeriodCount parent) :=
  calcDifficultyByzantium_eq E curVersion time parent minimumDifficulty

set_option maxRecDepth 100000 in
/-- C6, the code at a failing input. A first call of `CalcDifficulty` for the parent
`lateParent` (difficulty 100, height 3299999, Byzantium branch) returns 102, the
maximum of the adjusted value 100 and the minimum difficulty 1 plus the ice-age
term 2, and leaves 2 in `big1`; the next call with the same arguments returns
104, not that sum. Called with `big1` at its initial value 1, `CalcDifficulty`
returns, in each of its three branches, the maximum of the adjusted value and the
minimum difficulty, plus the ice-age term, which is not negative; and whatever
the value of `big1`, the result is never below the minimum difficulty. -/
theorem CalcDifficulty_floor :
    (CalcDifficulty sampleEnv 1 sampleChain.Config [] 10 lateParent 1 = (102, 2) ∧
      CalcDifficulty sampleEnv 2 sampleChain.Config [] 10 lateParent 1 = (104, 2) ∧
      adjustedDifficulty sampleEnv sampleChain.Config [] 10 lateParent = 100 ∧
      iceAgeTerm sampleChain.Config lateParent = 2 ∧
      max (adjustedDifficulty sampleEnv sampleChain.Config [] 10 lateParent) 1
        + iceAgeTerm sampleChain.Config lateParent = 102) ∧
    (∀ (E : Env) (config : ChainConfig) (curVersion : List Byte) (time : Nat)
      (parent : Header) (minimumDifficulty : Int),
      (CalcDifficulty E 1 config curVersion time parent minimumDifficulty).1
        = max (adjustedDifficulty E config curVersion time parent) minimumDifficulty
          + iceAgeTerm config parent ∧
      0 ≤ iceAgeTerm config parent ∧
      ∀ big1 : Int,
        minimumDifficulty
          ≤ (CalcDifficulty E big1 config curVersion time parent minimumDifficulty).1) := by
  refine ⟨⟨by decide, by decide, by decide, by decide, by decide⟩, ?_⟩
  intro E config curVersion time parent minimumDifficulty
  refine ⟨CalcDifficulty_eq E config curVersion time parent minimumDifficulty, ?_, ?_⟩
  · unfold iceAgeTerm
    split_ifs <;> exact bombTerm_nonneg _
  · intro big1
    exact CalcDifficulty_ge E big1 config curVersion time parent minimumDifficulty

set_option maxRecDepth 100000 in
/-- C7, counterexample. `Prepare` succeeds on `zeroTimeHeader` and sets the
difficulty 1001; with any other difficulty written afterwards, here 5,
`verifyHeader` does not return an invalid-difficulty error but `errZeroBlockTime`,
because the timestamp test comes first. -/
theorem prepare_verify_counterexample :
    Prepare sampleEnv 1 sampleChain zeroTimeHeader
      = (.ok { zeroTimeHeader with Difficulty := 1001 }, 1) ∧
    (verifyHeader sampleEnv sampleAmhash 1 100 sampleChain
      { zeroTimeHeader with Difficulty := 5 } sampleParent false false 0).1
      = some (.error .errZeroBlockTime) := by
  refine ⟨by rfl, by rfl⟩

/-- C7, as amended. Let `Prepare` succeed on a header whose parent is `parent`,
giving `prepared` and leaving the package constant `big1` as it found it. Then,
against the same chain state: the difficulty test of `verifyHeader` passes for
`prepared` when it is not a super header; for every other value `d` written into
the difficulty (the header still not being a super header) the difficulty test
fails with the invalid-difficulty error, and `verifyHeader` returns that error once
its extra-data and timestamp tests pass; and for a super header the difficulty is
not checked at all. -/
theorem prepare_verify (E : Env) (amhash : Amhash) (big1 now : Int) (chain : ChainReader)
    (header parent prepared : Header)
    (hparent : chain.GetHeader header.ParentHash
      ((bigUint64 header.Number + 2 ^ 64 - 1) % 2 ^ 64) = some parent)
    (hprep : Prepare E big1 chain header = (.ok prepared, big1)) :
    (E.IsSuperHeader prepared = false →
      (checkDifficulty E big1 chain prepared parent).1 = .ok ()) ∧
    (∀ d : Int, d ≠ prepared.Difficulty →
      E.IsSuperHeader { prepared with Difficulty := d } = false →
      (checkDifficulty E big1 chain { prepared with Difficulty := d } parent).1
          = .error (.invalidDifficulty d prepared.Difficulty) ∧
        ∀ (uncle withSeal : Bool) (fuel : Nat),
          prepared.Extra.length ≤ MaximumExtraDataSize →
          (uncle = true → prepared.Time ≤ MaxBig256) →
          (uncle = false → prepared.Time ≤ now + 15) →
          parent.Time < prepared.Time →
          (verifyHeader E amhash big1 now chain { prepared with Difficulty := d } parent
            uncle withSeal fuel).1 = some (.error (.invalidDifficulty d prepared.Difficulty))) ∧
    (∀ h : Header, E.IsSuperHeader h = true →
      checkDifficulty E big1 chain h parent = (.ok (), big1)) := by
  obtain ⟨parent2, d0, hp2, hcd, hprepared⟩ := Prepare_ok E big1 chain header prepared big1 hprep
  rw [hparent] at hp2
  simp only [Option.some.injEq] at hp2
  subst hp2
  have hV : prepared.Version = header.Version := by rw [hprepared]
  have hT : prepared.Time = header.Time := by rw [hprepared]
  have hD : prepared.Difficulty = d0 := by rw [hprepared]
  rw [← hV, ← hT, ← hD] at hcd
  refine ⟨?_, ?_, ?_⟩
  · intro hs
    rw [checkDifficulty_of_calc E big1 chain prepared parent prepared.Difficulty big1 hs hcd]
    simp
  · intro d hd hs
    have key : (checkDifficulty E big1 chain { prepared with Difficulty := d } parent).1
        = .error (.invalidDifficulty d prepared.Difficulty) := by
      rw [checkDifficulty_of_calc E big1 chain { prepared with Difficulty := d } parent
        prepared.Difficulty big1 hs hcd]
      exact if_pos (fun h => hd h.symm)
    refine ⟨key, ?_⟩
    intro uncle withSeal fuel hextra hlarge hfuture htime
    rw [verifyHeader_stages E amhash big1 now chain { prepared with Difficulty := d } parent
      uncle withSeal fuel hextra hlarge hfuture htime, key]
  · intro h hs
    unfold checkDifficulty
    rw [if_neg (by simp [hs])]

set_option maxRecDepth 100000 in
/-- C7, witness: `Prepare` on the example header finds `sampleParent`, keeps the
difficulty 1000 and leaves `big1` at 1, and the difficulty test passes. -/
theorem prepare_verify_witness :
    sampleChain.GetHeader sampleHeader.ParentHash
      ((bigUint64 sampleHeader.Number + 2 ^ 64 - 1) % 2 ^ 64) = some sampleParent ∧
    Prepare sampleEnv 1 sampleChain sampleHeader = (.ok sampleHeader, 1) ∧
    (sampleEnv.IsSuperHeader sampleHeader = false →
      (checkDifficulty sampleEnv 1 sampleChain sampleHeader sampleParent).1 = .ok ()) :=
  ⟨rfl, by rfl,
    (prepare_verify sampleEnv sampleAmhash 1 100 sampleChain sampleHeader sampleParent
      sampleHeader rfl (by rfl)).1⟩

set_option maxRecDepth 100000 in
/-- A defect of the difficulty calculator that bears on C7. For a parent of
difficulty 100 at height 3299999 the statement `y = big1` of
`calcDifficultyByzantium` makes `y` point to the package constant, and `y.Sub`
and `y.Exp` then overwrite it: `Prepare` sets the difficulty 102 and leaves 2 in
`big1`, after which the difficulty test of `verifyHeader` computes 104 for the
very same header and rejects it. -/
theorem big1_overwritten_by_prepare :
    Prepare sampleEnv 1 lateChain lateHeader
      = (.ok { lateHeader with Difficulty := 102 }, 2) ∧
    (checkDifficulty sampleEnv 2 lateChain { lateHeader with Difficulty := 102 } lateParent).1
      = .error (.invalidDifficulty 102 104) := by
  refine ⟨by rfl, by rfl⟩

/-- C8. When the extra-data test and the future-time test (for an uncle, the
large-time test) pass, `verifyHeader` returns `errZeroBlockTime` for every header
whose time is equal to or below the time of its parent; and it never returns that
error for a header whose time is the time of its parent plus one. -/
theorem verifyHeader_zero_time (E : Env) (amhash : Amhash) (big1 now : Int) (chain : ChainReader)
    (header parent : Header) (uncle withSeal : Bool) (fuel : Nat) :
    (header.Extra.length ≤ MaximumExtraDataSize →
      (uncle = true → header.Time ≤ MaxBig256) →
      (uncle = false → header.Time ≤ now + 15) →
      header.Time ≤ parent.Time →
      (verifyHeader E amhash big1 now chain header parent uncle withSeal fuel).1
        = some (.error .errZeroBlockTime)) ∧
    (header.Time = parent.Time + 1 →
      (verifyHeader E amhash big1 now chain header parent uncle withSeal fuel).1
        ≠ some (.error .errZeroBlockTime)) := by
  constructor
  · intro hextra hlarge hfuture htime
    unfold verifyHeader
    rw [if_neg (by omega), if_neg (by intro h; have := hlarge h.1; omega),
      if_neg (by intro h; have := hfuture h.1; omega), if_pos htime]
  · intro htime
    unfold verifyHeader
    split_ifs with h1 h2 h3 h4
    · simp
    · simp
    · simp
    · omega
    · rcases hcd : checkDifficulty E big1 chain header parent with ⟨r, b2⟩
      have hne := checkDifficulty_ne E big1 chain header parent
      rw [hcd] at hne
      cases r with
      | error e =>
        simp only [ne_eq, Option.some.injEq, Except.error.injEq]
        intro he
        subst he
        exact hne rfl
      | ok u =>
        simp only
        cases hg : checkGas header parent with
        | error e =>
          have hne2 := checkGas_ne header parent
          rw [hg] at hne2
          simp only [ne_eq, Option.some.injEq, Except.error.injEq]
          intro he
          subst he
          exact hne2 rfl
        | ok u2 => exact checkNumberSealForks_ne _ _ _ _ _ _ _ _


set_option maxRecDepth 100000 in
/-- C8, witness: `zeroTimeHeader` has the time of `sampleParent` and is rejected
with `errZeroBlockTime`; the example header, ten seconds later, is accepted. -/
theorem verifyHeader_zero_time_witness :
    zeroTimeHeader.Extra.length ≤ MaximumExtraDataSize ∧ zeroTimeHeader.Time ≤ 100 + 15 ∧
    zeroTimeHeader.Time ≤ sampleParent.Time ∧
    (verifyHeader sampleEnv sampleAmhash 1 100 sampleChain zeroTimeHeader sampleParent
      false true 16).1 = some (.error .errZeroBlockTime) ∧
    (verifyHeader sampleEnv sampleAmhash 1 100 sampleChain sampleHeader sampleParent
      false true 16).1 = some (.ok ()) :=
  ⟨by decide, by decide, by decide,
    (verifyHeader_zero_time sampleEnv sampleAmhash 1 100 sampleChain zeroTimeHeader sampleParent
      false true 16).1 (by decide) (by decide) (by decide) (by decide), by rfl⟩

set_option maxRecDepth 100000 in
/-- C9, counterexample. The parent has the gas limit 5000, so the bound is
`5000 / 1024 = 4`; the header `lowGasHeader` has the gas limit 4997, at distance
`3 = 4 - 1`, and all its other fields are those of the example header, which is
accepted. Yet `verifyHeader` rejects it: its gas limit is below the minimum 5000. -/
theorem gas_limit_boundary_counterexample :
    |((lowGasHeader.GasLimit : Nat) : Int) - ((sampleParent.GasLimit : Nat) : Int)| + 1
      = ((sampleParent.GasLimit / 1024 : Nat) : Int) ∧
    (verifyHeader sampleEnv sampleAmhash 1 100 sampleChain lowGasHeader sampleParent
      false true 16).1 = some (.error (.invalidGasLimit 4997 5000 4)) ∧
    (verifyHeader sampleEnv sampleAmhash 1 100 sampleChain sampleHeader sampleParent
      false true 16).1 = some (.ok ()) := by
  refine ⟨by decide, by rfl, by rfl⟩

/-- C9, as amended. `verifyHeader` returns an error for every header whose gas limit
differs from the one of its parent by exactly `parent.GasLimit / 1024`. When the difference
is one less than that, in either direction, and the gas limit of the header is at
least 5000 and at most `2^63 - 1` and covers the gas used, the gas tests pass, so
that `verifyHeader` accepts the header whenever its other tests pass: after the
extra-data, timestamp and difficulty tests it returns what the number, seal and
hard-fork tests return. -/
theorem gas_limit_boundary (E : Env) (amhash : Amhash) (big1 now : Int) (chain : ChainReader)
    (header parent : Header) (uncle withSeal : Bool) (fuel : Nat) :
    (|((header.GasLimit : Nat) : Int) - ((parent.GasLimit : Nat) : Int)|
        = ((parent.GasLimit / 1024 : Nat) : Int) →
      ∃ e, (verifyHeader E amhash big1 now chain header parent uncle withSeal fuel).1
        = some (.error e)) ∧
    (|((header.GasLimit : Nat) : Int) - ((parent.GasLimit : Nat) : Int)| + 1
        = ((parent.GasLimit / 1024 : Nat) : Int) →
      5000 ≤ header.GasLimit → header.GasLimit ≤ 2 ^ 63 - 1 →
      header.GasUsed ≤ header.GasLimit →
      checkGas header parent = .ok () ∧
      (header.Extra.length ≤ MaximumExtraDataSize →
        (uncle = true → header.Time ≤ MaxBig256) →
        (uncle = false → header.Time ≤ now + 15) →
        parent.Time < header.Time →
        (checkDifficulty E big1 chain header parent).1 = .ok () →
        (verifyHeader E amhash big1 now chain header parent uncle withSeal fuel).1
          = checkNumberSealForks E amhash chain header parent uncle withSeal fuel)) := by
  constructor
  · intro hdist
    apply verifyHeader_error_of_gas
    intro hgas
    obtain ⟨hcap, -, hlt, -⟩ := (checkGas_ok header parent).mp hgas
    simp only [Nat.reducePow, Nat.reduceSub] at hcap
    have hp : parent.GasLimit < 2 ^ 64 := by
      simp only [Nat.reducePow]
      rcases abs_cases (((header.GasLimit : Nat) : Int) - ((parent.GasLimit : Nat) : Int))
        with ⟨h1, h2⟩ | ⟨h1, h2⟩ <;> omega
    have hd : |((parent.GasLimit : Nat) : Int) - ((header.GasLimit : Nat) : Int)| < 2 ^ 63 := by
      rw [abs_sub_comm, hdist]
      simp only [Nat.reducePow] at hp ⊢
      omega
    have key := gasLimitDiff_eq parent.GasLimit header.GasLimit hp
      (by simp only [Nat.reducePow]; omega) hd
    rw [abs_sub_comm, hdist] at key
    omega
  · intro hdist hmin hcap hused
    simp only [Nat.reducePow, Nat.reduceSub] at hcap
    have hp : parent.GasLimit < 2 ^ 64 := by
      simp only [Nat.reducePow]
      rcases abs_cases (((header.GasLimit : Nat) : Int) - ((parent.GasLimit : Nat) : Int))
        with ⟨h1, h2⟩ | ⟨h1, h2⟩ <;> omega
    have hd : |((parent.GasLimit : Nat) : Int) - ((header.GasLimit : Nat) : Int)| < 2 ^ 63 := by
      rw [abs_sub_comm]
      simp only [Nat.reducePow] at hp ⊢
      omega
    have key := gasLimitDiff_eq parent.GasLimit header.GasLimit hp
      (by simp only [Nat.reducePow]; omega) hd
    rw [abs_sub_comm] at key
    have hgas : checkGas header parent = .ok () := by
      rw [checkGas_ok]
      simp only [Nat.reducePow, Nat.reduceSub]
      refine ⟨hcap, hused, ?_, hmin⟩
      omega
    refine ⟨hgas, ?_⟩
    intro hextra hlarge hfuture htime hdiff
    rw [verifyHeader_stages E amhash big1 now chain header parent uncle withSeal fuel hextra
      hlarge hfuture htime, hdiff, hgas]

set_option maxRecDepth 100000 in
/-- C9, witness: a parent with the gas limit 8192 (bound 8); the header at
distance 8 is rejected, the header at distance 7 passes the gas tests. -/
theorem gas_limit_boundary_witness :
    (∃ e, (verifyHeader sampleEnv sampleAmhash 1 100 sampleChain
        { sampleHeader with GasLimit := 8200 } { sampleParent with GasLimit := 8192 }
        false true 16).1 = some (.error e)) ∧
    checkGas { sampleHeader with GasLimit := 8199 } { sampleParent with GasLimit := 8192 }
      = .ok () :=
  ⟨(gas_limit_boundary sampleEnv sampleAmhash 1 100 sampleChain
      { sampleHeader with GasLimit := 8200 } { sampleParent with GasLimit := 8192 }
      false true 16).1 (by decide),
    ((gas_limit_boundary sampleEnv sampleAmhash 1 100 sampleChain
      { sampleHeader with GasLimit := 8199 } { sampleParent with GasLimit := 8192 }
      false true 16).2 (by decide) (by decide) (by decide) (by decide)).1⟩

set_option maxRecDepth 100000 in
/-- C10, counterexample. With a parent whose gas limit is `2^64 - 1` the header of
gas limit 5000 is accepted: the difference is computed in `int64`, where the
parent gas limit reads as `-1`, so the distance found is 5001, below the bound
`(2^64 - 1) / 1024`; the true distance is far above it. -/
theorem verifyHeader_sound_counterexample :
    (verifyHeader sampleEnv sampleAmhash 1 100 sampleChain sampleHeader hugeGasParent
      false true 16).1 = some (.ok ()) ∧
    ¬ (|((sampleHeader.GasLimit : Nat) : Int) - ((hugeGasParent.GasLimit : Nat) : Int)|
      < ((hugeGasParent.GasLimit / 1024 : Nat) : Int)) := by
  refine ⟨by rfl, by decide⟩

/-- C10, as amended. Whenever `verifyHeader` returns no error for a non-uncle header
and its parent at wall-clock time `now`: the extra data has at most 32 bytes, the
time is above the time of the parent and at most `now + 15`, the gas limit is at
least 5000 and at most `2^63 - 1`, the gas used is at most the gas limit, the
number is the number of the parent plus one, the distance of the two gas limits
as computed in `int64` is below `parent.GasLimit / 1024`, and that distance is the
true one, `|gasLimit - parent.gasLimit|`, when the gas limit of the parent is at
most `2^63 - 1`. -/
theorem verifyHeader_sound (E : Env) (amhash : Amhash) (big1 now : Int) (chain : ChainReader)
    (header parent : Header) (withSeal : Bool) (fuel : Nat)
    (hok : (verifyHeader E amhash big1 now chain header parent false withSeal fuel).1
      = some (.ok ())) :
    header.Extra.length ≤ 32 ∧ parent.Time < header.Time ∧ header.Time ≤ now + 15 ∧
    5000 ≤ header.GasLimit ∧ header.GasLimit ≤ 2 ^ 63 - 1 ∧
    header.GasUsed ≤ header.GasLimit ∧ header.Number = parent.Number + 1 ∧
    gasLimitDiff parent.GasLimit header.GasLimit < parent.GasLimit / 1024 ∧
    (parent.GasLimit ≤ 2 ^ 63 - 1 →
      |((header.GasLimit : Nat) : Int) - ((parent.GasLimit : Nat) : Int)|
        < ((parent.GasLimit / 1024 : Nat) : Int)) := by
  obtain ⟨hextra, -, hfuture, htime, -, hgas, hrest⟩ :=
    verifyHeader_ok E amhash big1 now chain header parent false withSeal fuel hok
  obtain ⟨hcap, hused, hlt, hmin⟩ := (checkGas_ok header parent).mp hgas
  have hnum := checkNumberSealForks_ok E amhash chain header parent false withSeal fuel hrest
  refine ⟨hextra, htime, hfuture rfl, hmin, hcap, hused, hnum, hlt, ?_⟩
  intro hp
  simp only [Nat.reducePow, Nat.reduceSub] at hcap hp
  have hd : |((parent.GasLimit : Nat) : Int) - ((header.GasLimit : Nat) : Int)| < 2 ^ 63 := by
    rw [show (2 : Int) ^ 63 = 9223372036854775808 by norm_num]
    rcases abs_cases (((parent.GasLimit : Nat) : Int) - ((header.GasLimit : Nat) : Int))
      with ⟨h1, h2⟩ | ⟨h1, h2⟩ <;> omega
  have key := gasLimitDiff_eq parent.GasLimit header.GasLimit
    (by simp only [Nat.reducePow]; omega) (by simp only [Nat.reducePow]; omega) hd
  rw [abs_sub_comm, ← key]
  exact_mod_cast hlt

set_option maxRecDepth 100000 in
/-- C10, witness: the example header is accepted after its parent and has the
listed properties. -/
theorem verifyHeader_sound_witness :
    (verifyHeader sampleEnv sampleAmhash 1 100 sampleChain sampleHeader sampleParent
      false true 16).1 = some (.ok ()) ∧
    sampleHeader.Extra.length ≤ 32 ∧ sampleParent.Time < sampleHeader.Time ∧
    sampleHeader.Time ≤ 100 + 15 ∧ 5000 ≤ sampleHeader.GasLimit :=
  ⟨by rfl,
    (verifyHeader_sound sampleEnv sampleAmhash 1 100 sampleChain sampleHeader sampleParent
      true 16 (by rfl)).1,
    (verifyHeader_sound sampleEnv sampleAmhash 1 100 sampleChain sampleHeader sampleParent
      true 16 (by rfl)).2.1,
    (verifyHeader_sound sampleEnv sampleAmhash 1 100 sampleChain sampleHeader sampleParent
      true 16 (by rfl)).2.2.1,
    (verifyHeader_sound sampleEnv sampleAmhash 1 100 sampleChain sampleHeader sampleParent
      true 16 (by rfl)).2.2.2.1⟩

set_option maxRecDepth 100000 in
/-- C11, counterexample. Outside full-fake mode `VerifyUncles` accepts the block
`childUncleBlock`, for which no ancestor is collected from the chain and whose
uncle has the hash of the block itself as its parent hash: the block is entered in
the map `ancestors` before the uncles are checked. The hash, the parent hash and
the number of the block are those of its header. -/
theorem uncle_parent_counterexample :
    fakeAmhash.config.PowMode ≠ .ModeFullFake ∧
    VerifyUncles digestEnv fakeAmhash 1 0 sampleChain childUncleBlock 0 = (some (.ok ()), 1) ∧
    (collectedAncestors digestEnv sampleChain childUncleBlock).2 = [] ∧
    childUncleBlock.Uncles.map (fun u => u.ParentHash) = [childUncleBlock.Hash] ∧
    childUncleBlock.Hash = digestEnv.HeaderHash childUncleBlock.Header ∧
    childUncleBlock.ParentHash = childUncleBlock.Header.ParentHash ∧
    childUncleBlock.NumberU64 = bigUint64 childUncleBlock.Header.Number := by
  refine ⟨by decide, by rfl, by rfl, by rfl, by rfl, by rfl, by rfl⟩

/-- C11, as amended. Outside full-fake mode `VerifyUncles` rejects every block with
3 or more uncles with `errTooManyUncles`, it collects at most 7 ancestors, and
whenever it returns no error the block has at most 2 uncles, their hashes are
pairwise distinct and differ from every uncle hash of the collected ancestors and
from the hash of the block, no uncle is one of the collected ancestors, and the
parent of every uncle is one of the collected ancestors or the block itself and is
not the parent of the block. -/
theorem VerifyUncles_rules (E : Env) (amhash : Amhash) (big1 : Int) (now : Int)
    (chain : ChainReader) (block : Block) (fuel : Nat)
    (hmode : amhash.config.PowMode ≠ .ModeFullFake) :
    (3 ≤ block.Uncles.length →
      VerifyUncles E amhash big1 now chain block fuel
        = (some (.error .errTooManyUncles), big1)) ∧
    (collectedAncestors E chain block).2.length ≤ 7 ∧
    (∀ b, VerifyUncles E amhash big1 now chain block fuel = (some (.ok ()), b) →
      block.Uncles.length ≤ 2 ∧ (block.Uncles.map E.HeaderHash).Nodup ∧
      ∀ u ∈ block.Uncles,
        E.HeaderHash u ∉ (collectedAncestors E chain block).1 ∧
        mapGet (collectedAncestors E chain block).2 (E.HeaderHash u) = none ∧
        E.HeaderHash u ≠ block.Hash ∧
        ((∃ p, mapGet (collectedAncestors E chain block).2 u.ParentHash = some p) ∨
          u.ParentHash = block.Hash) ∧
        u.ParentHash ≠ block.ParentHash) := by
  refine ⟨VerifyUncles_too_many E amhash big1 now chain block fuel hmode, ?_, ?_⟩
  · have := gatherAncestors_length E chain 7
      ((block.NumberU64 + 2 ^ 64 - 1) % 2 ^ 64) block.ParentHash [] []
    simpa [collectedAncestors] using this
  · intro b h
    exact VerifyUncles_ok E amhash big1 b now chain block fuel hmode h

set_option maxRecDepth 100000 in
/-- C11, witness: on `familyChain` the block `nephewBlock`, whose one uncle is a
second child of its grandparent, is accepted, two ancestors are collected, and the
block has at most 2 uncles. -/
theorem VerifyUncles_rules_witness :
    fakeAmhash.config.PowMode ≠ .ModeFullFake ∧
    VerifyUncles digestEnv fakeAmhash 1 0 familyChain nephewBlock 0 = (some (.ok ()), 1) ∧
    (collectedAncestors digestEnv familyChain nephewBlock).2.length = 2 ∧
    nephewBlock.Uncles.length ≤ 2 :=
  ⟨by decide, by rfl, by rfl,
    ((VerifyUncles_rules digestEnv fakeAmhash 1 0 familyChain nephewBlock 0 (by decide)).2.2 1
      (by rfl)).1⟩

/-- C12. For every non-empty list of headers with one seal flag each, and every
order `arrivals` in which the indices of the completed workers reach the
coordinator (a permutation of the indices), provided the seal verification of each
header answers: every call of `verifyHeaderWorker` returns, the coordinator sends
exactly as many errors as there are headers and then returns, the error sent at
position `i` is the value the call of `verifyHeaderWorker` for index `i` returned,
and outside full-fake mode this list is what `VerifyHeaders` delivers. -/
theorem VerifyHeaders_in_order (E : Env) (amhash : Amhash) (big1 : Int) (now : Nat → Int)
    (chain : ChainReader) (headers : List Header) (seals : List Bool) (arrivals : List Nat)
    (fuel : Nat)
    (hne : headers ≠ []) (hperm : arrivals.Perm (List.range headers.length))
    (hlen : seals.length = headers.length)
    (hseal : ∀ h ∈ headers, (VerifySeal E amhash chain h fuel).isSome = true) :
    ∃ trace b s,
      runWorkers E amhash now chain headers seals fuel arrivals big1 = some (trace, b) ∧
      Coordinator.run headers.length trace (Coordinator.start headers.length) = some s ∧
      s.returned = true ∧ s.errorsOut.length = headers.length ∧
      (∀ p ∈ trace, s.errorsOut[p.1]? = some p.2) ∧
      (∀ i, i < headers.length → ∃ r b1, s.errorsOut[i]? = some r ∧
        (verifyHeaderWorker E amhash b1 (now i) chain headers seals i fuel).1 = some r) ∧
      (amhash.config.PowMode ≠ .ModeFullFake →
        VerifyHeaders E amhash big1 now chain headers seals arrivals fuel
          = some (s.errorsOut, b)) := by
  obtain ⟨trace, b, hrun⟩ := runWorkers_returns E amhash now chain headers seals fuel hlen hseal
    arrivals big1 (fun i hi => List.mem_range.mp (hperm.mem_iff.mp hi))
  obtain ⟨htr, hval⟩ := runWorkers_trace E amhash now chain headers seals fuel arrivals big1
    trace b hrun
  have hpos : 0 < headers.length := List.length_pos.mpr hne
  obtain ⟨s, hs, hret, hlen2, hall⟩ := Coordinator.run_complete headers.length hpos trace
    (by rw [htr]; exact hperm)
  refine ⟨trace, b, s, hrun, hs, hret, hlen2, hall, ?_, ?_⟩
  · intro i hi
    have hmem : i ∈ trace.map Prod.fst := by
      rw [htr]
      exact hperm.mem_iff.mpr (List.mem_range.mpr hi)
    obtain ⟨p, hp, hpi⟩ := List.mem_map.mp hmem
    obtain ⟨b1, hb1⟩ := hval p hp
    refine ⟨p.2, b1, ?_, ?_⟩
    · rw [← hpi]
      exact hall p hp
    · rw [← hpi]
      exact hb1
  · intro hmode
    exact VerifyHeaders_of_trace E amhash big1 now chain headers seals arrivals fuel trace b s
      hmode hne hrun hs

set_option maxRecDepth 100000 in
/-- C12, witness: for the two headers of `sampleBatch`, both with their seal
checked by the fake engine, the worker of the second header completing first, the
errors are delivered in the order of the headers, `errZeroBlockTime` for the first
and none for the second. -/
theorem VerifyHeaders_in_order_witness :
    sampleBatch ≠ [] ∧ [1, 0].Perm (List.range sampleBatch.length) ∧
    runWorkers sampleEnv fakeAmhash (fun _ => 100) batchChain sampleBatch [true, true] 0
      [1, 0] 1 = some ([(1, .ok ()), (0, .error .errZeroBlockTime)], 1) ∧
    VerifyHeaders sampleEnv fakeAmhash 1 (fun _ => 100) batchChain sampleBatch [true, true]
      [1, 0] 0 = some ([.error .errZeroBlockTime, .ok ()], 1) ∧
    ∃ out b, VerifyHeaders sampleEnv fakeAmhash 1 (fun _ => 100) batchChain sampleBatch
      [true, true] [1, 0] 0 = some (out, b) ∧ out.length = 2 :=
  ⟨by decide, List.Perm.swap 0 1 [], by rfl, by rfl,
    match VerifyHeaders_in_order sampleEnv fakeAmhash 1 (fun _ => 100) batchChain sampleBatch
      [true, true] [1, 0] 0 (by decide) (List.Perm.swap 0 1 []) (by rfl) (by decide) with
    | ⟨_, b, s, _, _, _, hlen, _, _, hv⟩ => ⟨s.errorsOut, b, hv (by decide), hlen⟩⟩

set_option maxRecDepth 100000 in
/-- C13, the code at a failing input. `GetWork` puts into the third string the hex
text of the bytes of the difficulty, right-aligned in 32 bytes, for every pending
header, and these bytes are the big-endian digits of the difficulty itself.
For the pending header `sampleHeader` of difficulty 1000 the third string is `0x`,
60 zeros and `03e8`, where the 32-byte encoding of `2^256 / 1000` is
`0x004189374bc6a7ef9db22d0e5604189374bc6a7ef9db22d0e5604189374bc6a7`. -/
theorem GetWork_third_string :
    (∀ (E : Env) (a : RemoteAgent) (w : Work), a.currentWork = some w →
      (PublicMinerAPI.GetWork E true a).1
        = .ok ((E.HashNoNonce w.header).Hex, ToHex (E.GetVrfInfoFromHeader w.header.VrfValue),
            (BytesToHash (bigBytes w.header.Difficulty)).Hex)) ∧
    (∀ d : Int, beNat (bigBytes d) = d.natAbs) ∧
    pendingAgent.currentWork = some { header := sampleHeader } ∧
    sampleHeader.Difficulty = 1000 ∧
    (PublicMinerAPI.GetWork sampleEnv true pendingAgent).1
      = .ok (sampleHash.Hex, "0x0".toList,
          "0x00000000000000000000000000000000000000000000000000000000000003e8".toList) ∧
    claimedTarget 1000
      = "0x004189374bc6a7ef9db22d0e5604189374bc6a7ef9db22d0e5604189374bc6a7".toList := by
  refine ⟨?_, beNat_bigBytes, by rfl, by rfl, by rfl, by decide⟩
  intro E a w h
  unfold PublicMinerAPI.GetWork RemoteAgent.GetWork
  rw [h]
  rfl

/-- C14. Whenever `SubmitWork` returns true, the entry of the submitted header hash
was present and is removed from the pending-work map, no other entry is changed,
and the same call on the agent left behind returns false; and whenever `SubmitWork`
returns false, the agent, and with it the pending-work map, is unchanged. -/
theorem SubmitWork_clears_work (decode : List Char → Option Address) (a a2 : RemoteAgent)
    (strnonce strAIHah strhash strminerAddr : List Char) :
    (a.SubmitWork decode strnonce strAIHah strhash strminerAddr = some (true, a2) →
      a.work (HexToHash strhash) ≠ none ∧
      a2.work (HexToHash strhash) = none ∧
      (∀ h, h ≠ HexToHash strhash → a2.work h = a.work h) ∧
      a2.SubmitWork decode strnonce strAIHah strhash strminerAddr = some (false, a2)) ∧
    (a.SubmitWork decode strnonce strAIHah strhash strminerAddr = some (false, a2) →
      a2.work = a.work) := by
  constructor
  · intro h
    obtain ⟨-, -, -, nonce, work, addr, engine, verified, sent, hnonce, hwork, -, -, -, -, ha2⟩ :=
      SubmitWork_true decode a a2 strnonce strAIHah strhash strminerAddr h
    have hnone : a2.work (HexToHash strhash) = none := by
      rw [ha2]
      simp
    refine ⟨by rw [hwork]; simp, hnone, ?_, ?_⟩
    · intro k hk
      rw [ha2]
      simp [hk]
    · exact SubmitWork_no_work decode a2 strnonce strAIHah strhash strminerAddr nonce hnonce hnone
  · intro h
    rw [SubmitWork_false decode a a2 strnonce strAIHah strhash strminerAddr h]

set_option maxRecDepth 100000 in
/-- C14, witness: the agent that handed out `sampleHeader` accepts the solution
with nonce 1, the entry of `sampleHash` is gone afterwards, and the same submission
is then refused. -/
theorem SubmitWork_clears_work_witness :
    servedAgent.SubmitWork sampleDecode "0x1".toList sampleHash.Hex sampleHash.Hex
      "addr".toList = some (true, acceptedAgent) ∧
    acceptedAgent.work (HexToHash sampleHash.Hex) = none ∧
    acceptedAgent.SubmitWork sampleDecode "0x1".toList sampleHash.Hex sampleHash.Hex
      "addr".toList = some (false, acceptedAgent) :=
  ⟨by rfl,
    ((SubmitWork_clears_work sampleDecode servedAgent acceptedAgent "0x1".toList sampleHash.Hex
      sampleHash.Hex "addr".toList).1 (by rfl)).2.1,
    ((SubmitWork_clears_work sampleDecode servedAgent acceptedAgent "0x1".toList sampleHash.Hex
      sampleHash.Hex "addr".toList).1 (by rfl)).2.2.2⟩

set_option maxRecDepth 100000 in
/-- C15, counterexample. The agent `stoppedAgent` has the running flag 0, its
pending-work map holds `sampleHeader` under `sampleHash`, and the submission of the
nonce 1 is answered with true and forwards `solvedHeader` on the return channel. -/
theorem stopped_agent_counterexample :
    stoppedAgent.running = 0 ∧
    stoppedAgent.work sampleHash = some { header := sampleHeader } ∧
    stoppedAgent.returnCh = some [] ∧
    stoppedAgent.SubmitWork sampleDecode "0x1".toList sampleHash.Hex sampleHash.Hex
      "addr".toList = some (true, stoppedAcceptedAgent) ∧
    stoppedAcceptedAgent.returnCh = some [solvedHeader] := by
  refine ⟨by rfl, by rfl, by rfl, by rfl, by rfl⟩

/-- C15, as amended. `SubmitWork` does not read the running flag: for every agent
and every argument tuple the call answers as it does with any other value of the
flag and leaves the same agent behind, the flag apart. In particular, for an agent
whose running flag is 0, when the two hash texts have 66 characters, the nonce text
has at most 10 and parses, the pending-work map holds an entry for the header
hash, the address decodes, an engine is registered for the version of the header,
the seal is valid and the return channel is set, `SubmitWork` returns true, forwards
the verified header on the return channel and removes the entry. -/
theorem SubmitWork_when_stopped (decode : List Char → Option Address) (a : RemoteAgent)
    (strnonce strAIHah strhash strminerAddr : List Char) :
    (∀ r : Int,
      RemoteAgent.SubmitWork decode { a with running := r } strnonce strAIHah strhash strminerAddr
        = (a.SubmitWork decode strnonce strAIHah strhash strminerAddr).map
            (fun p => (p.1, { p.2 with running := r }))) ∧
    (a.running = 0 →
      ∀ (nonce : BlockNonce) (work : Work) (addr : Address) (engine : Engine)
        (verified : Header) (sent : List Header),
        strhash.length = 66 → strAIHah.length = 66 → strnonce.length ≤ 10 →
        conversType strnonce = some nonce →
        a.work (HexToHash strhash) = some work →
        decode strminerAddr = some addr →
        a.engine work.header.Version = some engine →
        engine.VerifySeal a.chain
          { work.header with Nonce := nonce, AIHash := HexToHash strAIHah, Coinbase := addr }
          = some (.ok (), verified) →
        a.returnCh = some sent →
        a.SubmitWork decode strnonce strAIHah strhash strminerAddr
          = some (true, { a with
              returnCh := some (sent ++ [verified])
              work := fun h => if h = HexToHash strhash then none else a.work h })) := by
  constructor
  · intro r
    exact SubmitWork_running decode a r strnonce strAIHah strhash strminerAddr
  · intro _ nonce work addr engine verified sent hlen hai hn hnonce hwork haddr hengine hseal hch
    exact SubmitWork_accept decode a strnonce strAIHah strhash strminerAddr nonce work addr engine
      verified sent hlen hai hn hnonce hwork haddr hengine hseal hch

set_option maxRecDepth 100000 in
/-- C15, witness: the amended statement at `stoppedAgent` and the submission of the
nonce 1 for `sampleHash`. -/
theorem SubmitWork_when_stopped_witness :
    stoppedAgent.running = 0 ∧
    stoppedAgent.SubmitWork sampleDecode "0x1".toList sampleHash.Hex sampleHash.Hex
      "addr".toList
      = some (true, { stoppedAgent with
          returnCh := some ([] ++ [solvedHeader])
          work := fun h => if h = HexToHash sampleHash.Hex then none else stoppedAgent.work h }) :=
  ⟨by rfl,
    (SubmitWork_when_stopped sampleDecode stoppedAgent "0x1".toList sampleHash.Hex sampleHash.Hex
      "addr".toList).2 (by rfl) (EncodeNonce 1) { header := sampleHeader } sampleAddress
      (Amhash.engine sampleEnv fakeAmhash 0) solvedHeader [] (by rfl) (by rfl) (by decide)
      (by rfl) (by rfl) (by rfl) (by rfl) (by rfl) (by rfl)⟩

set_option maxRecDepth 100000 in
/-- C16, counterexample. After the one report of the rate `2^63`, `GetHashRate`
returns `-2^63`, not the sum `2^63` of the rates present. -/
theorem GetHashRate_counterexample :
    busyAgent.hashrate = [(sampleHash, { ping := 0, rate := 2 ^ 63 })] ∧
    rateSum busyAgent.hashrate = 9223372036854775808 ∧
    busyAgent.GetHashRate = -9223372036854775808 := by
  refine ⟨by rfl, by rfl, by rfl⟩

/-- C16, as amended. `SubmitHashrate(id, rate)` at time `t` sets the entry of `id`
to `ping = t` and `rate` and leaves the entries of the other identifiers as they
are; a sweep at time `t2` keeps exactly the entries with `t2 - ping <= 10s`,
unchanged, so an identifier reported once is absent after any sweep more than ten
seconds later, for instance 11 seconds later; and `GetHashRate` returns the sum of
the rates of the entries present reduced to a signed 64-bit integer, which is the
sum itself when that is below `2^63`. -/
theorem hashrate_bookkeeping (a : RemoteAgent) (t : Int) (id : Hash) (rate : Nat) :
    mapGet (a.SubmitHashrate t id rate).hashrate id = some { ping := t, rate := rate } ∧
    (∀ id2, id2 ≠ id → mapGet (a.SubmitHashrate t id rate).hashrate id2 = mapGet a.hashrate id2) ∧
    (∀ t2 e, e ∈ (a.sweep t2).hashrate ↔ e ∈ a.hashrate ∧ ¬ (t2 - e.2.ping > 10 * Second)) ∧
    (∀ t2, t2 - t > 10 * Second →
      mapGet ((a.SubmitHashrate t id rate).sweep t2).hashrate id = none) ∧
    mapGet ((a.SubmitHashrate t id rate).sweep (t + 11 * Second)).hashrate id = none ∧
    a.GetHashRate = wrapInt64 (rateSum a.hashrate : Int) ∧
    (rateSum a.hashrate < 2 ^ 63 → a.GetHashRate = (rateSum a.hashrate : Int)) := by
  have hsweep : ∀ t2, t2 - t > 10 * Second →
      mapGet ((a.SubmitHashrate t id rate).sweep t2).hashrate id = none := by
    intro t2 ht
    unfold RemoteAgent.sweep RemoteAgent.SubmitHashrate
    apply mapGet_filter_eq
    intro e he hid
    rcases List.mem_cons.mp he with h1 | h1
    · rw [h1]
      have : timeSince t2 t > 10 * Second := by
        rw [timeSince_gt]
        unfold Second at ht
        omega
      simpa using this
    · have := (List.mem_filter.mp h1).2
      simp [hid] at this
  refine ⟨?_, ?_, ?_, hsweep, ?_, GetHashRate_eq a, ?_⟩
  · exact mapGet_cons_same _ id _
  · intro id2 h2
    unfold RemoteAgent.SubmitHashrate
    rw [mapGet_cons_other _ id id2 _ (fun h => h2 h.symm), mapGet_filter_ne _ id id2 h2]
  · intro t2 e
    unfold RemoteAgent.sweep
    simp only [List.mem_filter, decide_eq_true_eq]
    rw [timeSince_gt]
    unfold Second
    constructor
    · rintro ⟨h1, h2⟩
      exact ⟨h1, by omega⟩
    · rintro ⟨h1, h2⟩
      exact ⟨h1, by omega⟩
  · apply hsweep
    unfold Second
    omega
  · intro h
    rw [GetHashRate_eq]
    exact wrapInt64_of_range _ (Int.natCast_nonneg _) (by exact_mod_cast h)

set_option maxRecDepth 100000 in
/-- C16, witness: the rate 100 reported under `sampleHash` at time 0 is the one
entry, it is gone after the sweep 11 seconds later, and the hash rate of the agent
with this one report is 100. -/
theorem hashrate_bookkeeping_witness :
    rateSum ((NewRemoteAgent sampleChain (fun _ => none)).SubmitHashrate 0 sampleHash 100).hashrate
      < 2 ^ 63 ∧
    ((NewRemoteAgent sampleChain (fun _ => none)).SubmitHashrate 0 sampleHash 100).GetHashRate
      = 100 ∧
    mapGet (((NewRemoteAgent sampleChain (fun _ => none)).SubmitHashrate 0 sampleHash 100).sweep
      (0 + 11 * Second)).hashrate sampleHash = none :=
  ⟨by decide,
    (hashrate_bookkeeping ((NewRemoteAgent sampleChain (fun _ => none)).SubmitHashrate 0
      sampleHash 100) 0 sampleHash 100).2.2.2.2.2.2 (by decide),
    (hashrate_bookkeeping (NewRemoteAgent sampleChain (fun _ => none)) 0 sampleHash
      100).2.2.2.2.1⟩

set_option maxRecDepth 100000 in
/-- C17, counterexample. For the VRF value `80 00 00 00 00 00 00 00` and the zero
coinbase the sum is `2^63`; the seed of the code is `-2^63`, where the
specification gives `2^63 mod 2^63 = 0`. -/
theorem aiSeed_counterexample :
    aiSeed sampleEnv highVrfHeader = -9223372036854775808 ∧
    claimedSeed (sampleEnv.GetVrfInfoFromHeader highVrfHeader.VrfValue)
      highVrfHeader.Coinbase = 0 := by
  refine ⟨by decide, by decide⟩

/-- C17, as amended. For a VRF value of at most 32 bytes and the coinbase of the
header, the seed is the low 64 bits of the sum `S` of the two big-endian numbers,
read in two's complement: it is `((S + 2^63) mod 2^64) - 2^63`, lies between
`-2^63` and `2^63 - 1`, and equals `S mod 2^64` when that is below `2^63`; and
`startAIMining` passes this one seed to `getRandNums` and to `AIDigging`. -/
theorem aiSeed_low64 (E : Env) (amhash : Amhash) (header : Header) (fuel : Nat)
    (hv : (E.GetVrfInfoFromHeader header.VrfValue).length ≤ 32) :
    aiSeed E header
      = (((beNat (E.GetVrfInfoFromHeader header.VrfValue) + beNat header.Coinbase.bytes
          + 2 ^ 63) % 2 ^ 64 : Nat) : Int) - 2 ^ 63 ∧
    -(2 : Int) ^ 63 ≤ aiSeed E header ∧ aiSeed E header < 2 ^ 63 ∧
    ((beNat (E.GetVrfInfoFromHeader header.VrfValue) + beNat header.Coinbase.bytes) % 2 ^ 64
        < 2 ^ 63 →
      aiSeed E header
        = (((beNat (E.GetVrfInfoFromHeader header.VrfValue) + beNat header.Coinbase.bytes)
            % 2 ^ 64 : Nat) : Int)) ∧
    startAIMining E amhash header fuel
      = (match getRandNums E (aiSeed E header) aiPictureMaxCount aiPictureSize fuel with
        | none => none
        | some indexList =>
          E.AIDigging (aiSeed E header) (packPictureListByIndex E amhash indexList)) := by
  rw [aiSeed_eq E header hv]
  obtain ⟨h1, h2, -, h4, h5⟩ := toInt64_range
    (beNat (E.GetVrfInfoFromHeader header.VrfValue) + beNat header.Coinbase.bytes)
  refine ⟨h5, h1, h2, h4, ?_⟩
  rw [← aiSeed_eq E header hv]
  rfl

set_option maxRecDepth 100000 in
/-- C17, witness: the amended statement at `highVrfHeader`, whose seed is
`-2^63`. -/
theorem aiSeed_low64_witness :
    (sampleEnv.GetVrfInfoFromHeader highVrfHeader.VrfValue).length ≤ 32 ∧
    -(2 : Int) ^ 63 ≤ aiSeed sampleEnv highVrfHeader ∧
    aiSeed sampleEnv highVrfHeader < 2 ^ 63 :=
  ⟨by decide, (aiSeed_low64 sampleEnv sampleAmhash highVrfHeader 16 (by decide)).2.1,
    (aiSeed_low64 sampleEnv sampleAmhash highVrfHeader 16 (by decide)).2.2.1⟩

/-- C18. When `count > max`, `getRandNums` returns the empty list. When
`0 <= count <= max` and the stream of `Intn` values lies in `[0, max)`, every list
`getRandNums` returns has exactly `count` elements, pairwise distinct, each in
`[0, max)`, and it is the list of the values of some initial part of the stream in
the order of their first occurrence. -/
theorem getRandNums_draw (E : Env) (seed max count : Int) (fuel : Nat) :
    (count > max → getRandNums E seed max count fuel = some []) ∧
    (0 ≤ count → count ≤ max →
      (∀ k, 0 ≤ E.Intn seed max k ∧ E.Intn seed max k < max) →
      ∀ result, getRandNums E seed max count fuel = some result →
        (result.length : Int) = count ∧ result.Nodup ∧ (∀ x ∈ result, 0 ≤ x ∧ x < max) ∧
        ∃ k, k ≤ fuel ∧
          result = firstOccurrences ((List.range k).map (E.Intn seed max))) := by
  constructor
  · intro h
    unfold getRandNums
    rw [if_pos h]
  · intro hcount hmax hstream result hret
    exact getRandNums_spec E seed max count fuel result hcount hmax hstream hret

set_option maxRecDepth 100000 in
/-- C18, witness: with the stream 0, 0, 1, 1, 2, 2, ... the draw of 16 out of 64000
returns after 31 draws the list 0, 1, ..., 15, which has 16 elements. -/
theorem getRandNums_draw_witness :
    (0 : Int) ≤ 16 ∧ (16 : Int) ≤ 64000 ∧
    getRandNums pairedEnv 0 64000 16 40
      = some [0, 1, 2, 3, 4, 5, 6, 7, 8, 9, 10, 11, 12, 13, 14, 15] ∧
    (([0, 1, 2, 3, 4, 5, 6, 7, 8, 9, 10, 11, 12, 13, 14, 15] : List Int).length : Int) = 16 :=
  ⟨by decide, by decide, by decide,
    ((getRandNums_draw pairedEnv 0 64000 16 40).2 (by decide) (by decide)
      (fun k => ⟨Int.emod_nonneg _ (by decide), Int.emod_lt_of_pos _ (by decide)⟩)
      [0, 1, 2, 3, 4, 5, 6, 7, 8, 9, 10, 11, 12, 13, 14, 15] (by decide)).1⟩

set_option maxRecDepth 100000 in
/-- C19, the code at a failing input. For the index list 100, 101, ..., 115 the
first path returned names picture 0, where the mapping of the specification names
picture 100: the loop variable, not the index list, is printed. -/
theorem packPictureListByIndex_ignores_indices :
    (packPictureListByIndex sampleEnv sampleAmhash sampleDraw).head?
      = some "pictures/test_0.jpg" ∧
    (claimedPictureList sampleEnv sampleAmhash sampleDraw).head?
      = some "pictures/test_100.jpg" ∧
    packPictureListByIndex sampleEnv sampleAmhash sampleDraw
      = packPictureListByIndex sampleEnv sampleAmhash [] := by
  refine ⟨by rfl, by rfl, by rfl⟩

set_option maxRecDepth 100000 in
/-- C20, counterexample. In fake mode with the fake-fail number 7, on a chain where
the coinbase is no miner, `VerifySeal` answers `errCoinbase` both for the header at
height 7 and for the header at height 1: the coinbase role is checked before the
mode. And with a miner coinbase the header at height `2^64 + 7`, which is not 7,
gets `errInvalidPoW`: the number is compared as a `uint64`. -/
theorem fake_fail_counterexample :
    VerifySeal sampleEnv fakeAmhash noMinerChain heightSevenHeader 0
      = some (.error .errCoinbase) ∧
    VerifySeal sampleEnv fakeAmhash noMinerChain sampleHeader 0
      = some (.error .errCoinbase) ∧
    wrappedHeightHeader.Number ≠ 7 ∧
    VerifySeal sampleEnv fakeAmhash sampleChain wrappedHeightHeader 0
      = some (.error .errInvalidPoW) := by
  refine ⟨by rfl, by rfl, by decide, by rfl⟩

/-- C20, as amended. Let the engine be in fake or full-fake mode with the fake-fail
number `N`. When the coinbase-role check fails, `VerifySeal` returns `errCoinbase`.
When it passes, `VerifySeal` returns `errInvalidPoW` for every header whose number,
read as a `uint64`, is `N` (so for every header whose number is `N`), and success
for every other header. -/
theorem fake_fail (E : Env) (amhash : Amhash) (chain : ChainReader) (header : Header)
    (fuel : Nat)
    (hmode : amhash.config.PowMode = .ModeFake ∨ amhash.config.PowMode = .ModeFullFake) :
    (verifyCoinbaseRole chain header ≠ .ok () →
      VerifySeal E amhash chain header fuel = some (.error .errCoinbase)) ∧
    (verifyCoinbaseRole chain header = .ok () →
      (bigUint64 header.Number = amhash.fakeFail →
        VerifySeal E amhash chain header fuel = some (.error .errInvalidPoW)) ∧
      (header.Number = (amhash.fakeFail : Int) → amhash.fakeFail < 2 ^ 64 →
        VerifySeal E amhash chain header fuel = some (.error .errInvalidPoW)) ∧
      (bigUint64 header.Number ≠ amhash.fakeFail →
        VerifySeal E amhash chain header fuel = some (.ok ()))) := by
  constructor
  · intro hrole
    unfold VerifySeal verifySealHead
    cases h : verifyCoinbaseRole chain header with
    | error e =>
      rw [verifyCoinbaseRole_err chain header e h]
    | ok u => exact absurd h hrole
  · intro hrole
    have key : VerifySeal E amhash chain header fuel
        = if amhash.fakeFail = bigUint64 header.Number then some (.error .errInvalidPoW)
          else some (.ok ()) := by
      unfold VerifySeal verifySealHead
      rw [hrole]
      simp only
      rw [if_pos hmode]
      split_ifs <;> rfl
    refine ⟨?_, ?_, ?_⟩
    · intro h
      rw [key, if_pos h.symm]
    · intro h hlt
      rw [key, if_pos]
      unfold bigUint64
      rw [h, Int.natAbs_ofNat, Nat.mod_eq_of_lt hlt]
    · intro h
      rw [key, if_neg (fun e => h e.symm)]

set_option maxRecDepth 100000 in
/-- C20, witness: in fake mode with the fake-fail number 7 and a miner coinbase,
the header at height 7 gets `errInvalidPoW` and the header at height 1 is
accepted. -/
theorem fake_fail_witness :
    (fakeAmhash.config.PowMode = .ModeFake ∨ fakeAmhash.config.PowMode = .ModeFullFake) ∧
    verifyCoinbaseRole sampleChain heightSevenHeader = .ok () ∧
    VerifySeal sampleEnv fakeAmhash sampleChain heightSevenHeader 0
      = some (.error .errInvalidPoW) ∧
    VerifySeal sampleEnv fakeAmhash sampleChain sampleHeader 0 = some (.ok ()) :=
  ⟨Or.inl rfl, rfl,
    ((fake_fail sampleEnv fakeAmhash sampleChain heightSevenHeader 0 (Or.inl rfl)).2 rfl).1
      (by decide),
    ((fake_fail sampleEnv fakeAmhash sampleChain sampleHeader 0 (Or.inl rfl)).2 rfl).2.2
      (by decide)⟩

/-- C21. For every header, `verifyCoinbaseRole` returns success if and only if the
topology graph of the parent can be read and either the coinbase has the miner role
in it, or the inner-miner account list of the parent can be read and contains the
coinbase; and it returns either success or `errCoinbase`. -/
theorem verifyCoinbaseRole_spec (chain : ChainReader) (header : Header) :
    (verifyCoinbaseRole chain header = .ok () ↔
      ∃ g, chain.GetGraphByHash header.ParentHash = .ok g ∧
        (g.CheckAccountRole header.Coinbase .RoleMiner = true ∨
          ∃ l, chain.GetInnerMinerAccounts header.ParentHash = .ok l ∧
            header.Coinbase ∈ l)) ∧
    (verifyCoinbaseRole chain header = .ok () ∨
      verifyCoinbaseRole chain header = .error .errCoinbase) :=
  ⟨verifyCoinbaseRole_ok_iff chain header, verifyCoinbaseRole_cases chain header⟩

/-- C22. At a block number one less than the AIMine activation height, and not one
less than the Gamma or the Delta height, when the three state calls report no
error, `ProcessStateVersionSwitch` returns success and the state is the one left by
`SetMinDifficulty` with `params.MinimumDifficulty` followed by `SetLeaderConfig`
with (50, 40, 40) and the `ReelectHandleInterval` read in between; with setters
that write one key each, the minimum difficulty then reads
`params.MinimumDifficulty`, the leader configuration reads (50, 40, 40) with the
`ReelectHandleInterval` the state had before, and every other key reads as before.
At a number that is not one less than any of the three heights the method returns
success and the state is unchanged. -/
theorem AIMine_switch {σ : Type} (M : MatrixState σ) (P : SwitchParams) (num t : Nat) (st : σ) :
    (num = heightBefore P.VersionNumAIMine → num ≠ heightBefore P.VersionNumGamma →
      num ≠ heightBefore P.VersionNumDelta →
      ∀ (st1 st2 : σ) (cfg : LeaderConfig),
        M.SetMinDifficulty st P.MinimumDifficulty = (.ok (), st1) →
        M.GetLeaderConfig st1 = .ok cfg →
        M.SetLeaderConfig st1
          { ParentMiningTime := 50, PosOutTime := 40, ReelectOutTime := 40,
            ReelectHandleInterval := cfg.ReelectHandleInterval } = (.ok (), st2) →
        ProcessStateVersionSwitch M P num t st = (.ok (), st2) ∧
        (M.KeyValue →
          M.GetMinDifficulty st2 = .ok P.MinimumDifficulty ∧
          M.GetLeaderConfig st2
            = .ok { ParentMiningTime := 50, PosOutTime := 40, ReelectOutTime := 40,
                    ReelectHandleInterval := cfg.ReelectHandleInterval } ∧
          M.GetLeaderConfig st = .ok cfg ∧
          M.GetElectConfigInfo st2 = M.GetElectConfigInfo st ∧
          M.GetBlockProduceSlashCfg st2 = M.GetBlockProduceSlashCfg st ∧
          M.GetBlkRewardCfg st2 = M.GetBlkRewardCfg st ∧
          M.GetInterestCfg st2 = M.GetInterestCfg st)) ∧
    (num ≠ heightBefore P.VersionNumGamma → num ≠ heightBefore P.VersionNumDelta →
      num ≠ heightBefore P.VersionNumAIMine →
      ProcessStateVersionSwitch M P num t st = (.ok (), st)) := by
  constructor
  · intro ha hg hd st1 st2 cfg h1 h2 h3
    constructor
    · rw [ProcessStateVersionSwitch_AIMine M P num t st hg hd ha]
      exact processStateSwitchAIMine_ok M P t st st1 st2 cfg h1 h2 h3
    · intro hkv
      obtain ⟨f1, f2, f3, f4, f5⟩ := hkv.minDifficulty_frame st _ st1 h1
      obtain ⟨g1, g2, g3, g4, g5⟩ := hkv.leaderConfig_frame st1 _ st2 h3
      refine ⟨?_, hkv.leaderConfig_read st1 _ st2 h3, ?_, ?_, ?_, ?_, ?_⟩
      · rw [g1]
        exact hkv.minDifficulty_read st _ st1 h1
      · rw [← f1]
        exact h2
      · rw [g2, f2]
      · rw [g3, f3]
      · rw [g4, f4]
      · rw [g5, f5]
  · intro hg hd ha
    exact ProcessStateVersionSwitch_default M P num t st hg hd ha

set_option maxRecDepth 100000 in
/-- C22, witness: with the activation heights 100, 200 and 300, the switch at
block 299 sets the minimum difficulty 1000 and the leader configuration
(50, 40, 40, 7) in `sampleGovState` and leaves the other entries; at block 298
the state is unchanged. -/
theorem AIMine_switch_witness :
    (299 : Nat) = heightBefore sampleSwitchParams.VersionNumAIMine ∧
    ProcessStateVersionSwitch govStateOps sampleSwitchParams 299 0 sampleGovState
      = (.ok (), { sampleGovState with
          minDifficulty := some 1000
          leaderConfig := some { ParentMiningTime := 50, PosOutTime := 40, ReelectOutTime := 40,
                                 ReelectHandleInterval := 7 } }) ∧
    ProcessStateVersionSwitch govStateOps sampleSwitchParams 298 0 sampleGovState
      = (.ok (), sampleGovState) :=
  ⟨by decide,
    ((AIMine_switch govStateOps sampleSwitchParams 299 0 sampleGovState).1 (by decide)
      (by decide) (by decide) { sampleGovState with minDifficulty := some 1000 }
      { sampleGovState with
          minDifficulty := some 1000
          leaderConfig := some { ParentMiningTime := 50, PosOutTime := 40, ReelectOutTime := 40,
                                 ReelectHandleInterval := 7 } }
      { ParentMiningTime := 20, PosOutTime := 40, ReelectOutTime := 40,
        ReelectHandleInterval := 7 } (by rfl) (by rfl) (by rfl)).1,
    (AIMine_switch govStateOps sampleSwitchParams 298 0 sampleGovState).2 (by decide)
      (by decide) (by decide)⟩

/-- C23. For every `OldHeader`, `TransferHeader` gives a header whose AI hash is the
zero hash and whose other twenty fields are those of the old header; and
`TransferBlock` converts the header and every uncle in this way, the uncles keeping
their number and their order. -/
theorem TransferHeader_fields {T : CommonTypes} (oh : OldHeader T) (ob : OldBlock T) :
    oh.TransferHeader.AIHash = Hash.zero ∧
    oh.TransferHeader.ParentHash = oh.ParentHash ∧
    oh.TransferHeader.UncleHash = oh.UncleHash ∧
    oh.TransferHeader.Leader = oh.Leader ∧
    oh.TransferHeader.Coinbase = oh.Coinbase ∧
    oh.TransferHeader.Roots = oh.Roots ∧
    oh.TransferHeader.Sharding = oh.Sharding ∧
    oh.TransferHeader.Difficulty = oh.Difficulty ∧
    oh.TransferHeader.Number = oh.Number ∧
    oh.TransferHeader.GasLimit = oh.GasLimit ∧
    oh.TransferHeader.GasUsed = oh.GasUsed ∧
    oh.TransferHeader.Time = oh.Time ∧
    oh.TransferHeader.Elect = oh.Elect ∧
    oh.TransferHeader.NetTopology = oh.NetTopology ∧
    oh.TransferHeader.Signatures = oh.Signatures ∧
    oh.TransferHeader.Extra = oh.Extra ∧
    oh.TransferHeader.MixDigest = oh.MixDigest ∧
    oh.TransferHeader.Nonce = oh.Nonce ∧
    oh.TransferHeader.Version = oh.Version ∧
    oh.TransferHeader.VersionSignatures = oh.VersionSignatures ∧
    oh.TransferHeader.VrfValue = oh.VrfValue ∧
    ob.TransferBlock.header = ob.header.TransferHeader ∧
    ob.TransferBlock.uncles.length = ob.uncles.length ∧
    (∀ i : Nat, ob.TransferBlock.uncles[i]? = (ob.uncles[i]?).map OldHeader.TransferHeader) := by
  refine ⟨rfl, rfl, rfl, rfl, rfl, rfl, rfl, rfl, rfl, rfl, rfl, rfl, rfl, rfl, rfl, rfl, rfl,
    rfl, rfl, rfl, rfl, rfl, ?_, ?_⟩
  · unfold OldBlock.TransferBlock
    exact List.length_map _ _
  · intro i
    unfold OldBlock.TransferBlock
    exact List.getElem?_map _ _ _

set_option maxRecDepth 100000 in
/-- C24, the code at a failing input. The first payload a worker hashes is built
from the copy of the header as it came in, whatever the seed: the candidate nonce
is placed into the copy only at the end of a round. For `sampleHeader`, whose nonce
is `aa`, and the seed 5, with an `x11` that never meets the target, the three
rounds hash the nonces `aa`, 6 and 7 while the variable `nonce` runs through 5, 6
and 7; the first payload ends in `00 00 00 aa` where the payload of the candidate 5
ends in `00 00 00 05`; and when the first share meets the target, the header sent
on the found channel carries the nonce `aa`. -/
theorem mine_first_payload :
    (∀ (E : Env) (target : Int) (fuel : Nat) (header : Header) (seed : Nat),
      (mineSearch E target (fuel + 1) header seed).1.head? = some (seed, header) ∧
      (mineSearch E target fuel header seed).2 = mineLoop E target fuel header seed) ∧
    sampleHeader.Nonce = EncodeNonce 170 ∧
    (mineSearch hardEnv (maxUint256 / 1000) 3 sampleHeader 5).1.map
      (fun p => (p.1, p.2.Nonce)) = [(5, EncodeNonce 170), (6, EncodeNonce 6), (7, EncodeNonce 7)] ∧
    (combinationData hardEnv sampleHeader).map (List.drop 76) = some [0, 0, 0, 170] ∧
    (combinationData hardEnv { sampleHeader with Nonce := EncodeNonce 5 }).map (List.drop 76)
      = some [0, 0, 0, 5] ∧
    mine sampleEnv sampleHeader 5 false 1 = some sampleHeader := by
  refine ⟨fun E target fuel header seed =>
    ⟨mineSearch_head E target fuel header seed, mineSearch_result E target fuel header seed⟩,
    by decide, by decide, by decide, by decide, by decide⟩

set_option maxRecDepth 100000 in
/-- C25, counterexample. For a parent of difficulty -4096 at time 0, the block time
0 and the minimum difficulty -10000 the code returns -4098, the factor being the
quotient -2, where the closed form with the factor `max(1, -2) = 1` gives -4095. -/
theorem closed_form_counterexample :
    (calcDifficultyByzantium sampleEnv 1 [] 0 negativeParent (-10000)).1 = -4098 ∧
    closedFormByzantium sampleEnv [] 0 negativeParent (-10000) = -4095 := by
  refine ⟨by decide, by decide⟩

/-- C25, as amended. Called with the package constant `big1` at its initial value 1,
for every version, time, minimum difficulty and every parent of non-negative
difficulty, `calcDifficultyByzantium` returns
`max(p.d + max(1, p.d / 2048) * max(U - (t - p.time) / L, -99), m) + B` with `U`,
`L`, the period count and `B` as in the claim. -/
theorem closed_form (E : Env) (curVersion : List Byte) (time : Nat) (parent : Header)
    (minimumDifficulty : Int) (hd : 0 ≤ parent.Difficulty) :
    (calcDifficultyByzantium E 1 curVersion time parent minimumDifficulty).1
      = closedFormByzantium E curVersion time parent minimumDifficulty := by
  rw [calcDifficultyByzantium_eq]
  unfold amendedByzantium closedFormByzantium
  rw [(byzantiumFactor_of_nonneg parent hd).1]

set_option maxRecDepth 100000 in
/-- C25, witness: for the parent of difficulty 100 at height 3199999 and a block one
second later the closed form gives 102, the value the code returns. -/
theorem closed_form_witness :
    0 ≤ lowDifficultyParent.Difficulty ∧
    closedFormByzantium sampleEnv [] 1 lowDifficultyParent 1 = 102 ∧
    (calcDifficultyByzantium sampleEnv 1 [] 1 lowDifficultyParent 1).1
      = closedFormByzantium sampleEnv [] 1 lowDifficultyParent 1 :=
  ⟨by decide, by decide, closed_form sampleEnv [] 1 lowDifficultyParent 1 (by decide)⟩

set_option maxRecDepth 100000 in
/-- C26, the code at a failing input. For the parent `lateParent`, of difficulty 100
(below 2048) at height 3299999 (period count 3), a call of
`calcDifficultyByzantium` made while `big1` is 1 returns 102 and leaves 2 in
`big1`; the next call of `CalcDifficulty` with the same arguments returns 104. In
general `big1` holds `2^(periodCount - 2)` after a call in which the quotient
`parent.d / 2048` is zero and the period count exceeds `big1`, and is unchanged
after every other call. -/
theorem big1_not_constant :
    lateParent.Difficulty = 100 ∧ byzantiumPeriodCount lateParent = 3 ∧
    calcDifficultyByzantium sampleEnv 1 [] 10 lateParent 1 = (102, 2) ∧
    CalcDifficulty sampleEnv 1 sampleChain.Config [] 10 lateParent 1 = (102, 2) ∧
    CalcDifficulty sampleEnv 2 sampleChain.Config [] 10 lateParent 1 = (104, 2) ∧
    (∀ (E : Env) (big1 : Int) (curVersion : List Byte) (time : Nat) (parent : Header)
      (minimumDifficulty : Int),
      (calcDifficultyByzantium E big1 curVersion time parent minimumDifficulty).2
        = if parent.Difficulty / 2048 = 0 ∧ byzantiumPeriodCount parent > big1 then
            bigExp2 (byzantiumPeriodCount parent - 2)
          else big1) := by
  refine ⟨by decide, by decide, by decide, by decide, by decide, ?_⟩
  intro E big1 curVersion time parent minimumDifficulty
  unfold calcDifficultyByzantium byzantiumPeriodCount
  simp only [fakeBlockNumber_eq, DifficultyBoundDivisor, expDiffPeriod]
  by_cases h1 : max 0 (parent.Number - 2999999) / 100000 > big1
  · simp only [h1, if_true, and_true]
  · simp only [h1, if_false, and_false]

set_option maxRecDepth 100000 in
/-- C27, counterexample. For the parent of difficulty 4096 at time 90 and the block
time 0, before the time of the parent, the value before the clamp is 4118, more
than `4096 + 2 * 2`. And for the parent of difficulty -4096 at time 0 and the
minimum difficulty -10000 the result is -4098 at time 0 and -4096 at time 9: it
grows with the time. -/
theorem byzantium_monotone_counterexample :
    byzantiumAdjust sampleEnv 1 [] 0 laterParent = 4118 ∧
    laterParent.Difficulty + 2 * max 1 (laterParent.Difficulty / 2048) = 4100 ∧
    (calcDifficultyByzantium sampleEnv 1 [] 0 negativeParent (-10000)).1 = -4098 ∧
    (calcDifficultyByzantium sampleEnv 1 [] 9 negativeParent (-10000)).1 = -4096 := by
  refine ⟨by decide, by decide, by decide, by decide⟩

/-- C27, as amended. Called with `big1` at its initial value 1, for every version,
minimum difficulty and every parent of non-negative difficulty: the result of
`calcDifficultyByzantium` does not grow with the block time; the result is the
value before the clamp, raised to the minimum difficulty, plus the ice-age term;
the value before the clamp is at most `99 * max(1, p.d / 2048)` below the parent
difficulty for every time, and at most `2 * max(1, p.d / 2048)` above it for every
time that is not before the time of the parent. -/
theorem byzantium_monotone (E : Env) (curVersion : List Byte) (parent : Header)
    (minimumDifficulty : Int) (hd : 0 ≤ parent.Difficulty) :
    (∀ t1 t2 : Nat, t1 ≤ t2 →
      (calcDifficultyByzantium E 1 curVersion t2 parent minimumDifficulty).1
        ≤ (calcDifficultyByzantium E 1 curVersion t1 parent minimumDifficulty).1) ∧
    (∀ time : Nat,
      (calcDifficultyByzantium E 1 curVersion time parent minimumDifficulty).1
        = max (byzantiumAdjust E 1 curVersion time parent) minimumDifficulty
          + bombTerm (byzantiumPeriodCount parent) ∧
      parent.Difficulty - 99 * max 1 (parent.Difficulty / 2048)
        ≤ byzantiumAdjust E 1 curVersion time parent ∧
      (parent.Time ≤ (time : Int) →
        byzantiumAdjust E 1 curVersion time parent
          ≤ parent.Difficulty + 2 * max 1 (parent.Difficulty / 2048))) := by
  constructor
  · intro t1 t2 ht
    rw [calcDifficultyByzantium_adjust, calcDifficultyByzantium_adjust]
    have := byzantiumAdjust_mono E curVersion t1 t2 parent hd ht
    have hm := max_le_max this (le_refl minimumDifficulty)
    omega
  · intro time
    exact ⟨calcDifficultyByzantium_adjust E curVersion time parent minimumDifficulty,
      byzantiumAdjust_bounds E curVersion time parent hd⟩

set_option maxRecDepth 100000 in
/-- C27, witness: for the parent of difficulty 4096 at time 90 the result at time 99
is not above the result at time 90. -/
theorem byzantium_monotone_witness :
    0 ≤ laterParent.Difficulty ∧
    (calcDifficultyByzantium sampleEnv 1 [] 99 laterParent 1).1
      ≤ (calcDifficultyByzantium sampleEnv 1 [] 90 laterParent 1).1 :=
  ⟨by decide, (byzantium_monotone sampleEnv [] laterParent 1 (by decide)).1 90 99 (by decide)⟩

/-- C28. For every 32-byte hash `H`, `hashString2LittleEndian` applied to
`reverseHashString` of the hex text of `H` is the hex text of the bytes of `H` in
reverse order, the byte at position `i` of the result being byte `31 - i` of `H`;
and in the payload of every header the bytes 0..31 are the reversed bytes of the
header hash and the bytes 32..63 the reversed bytes of the AI hash. -/
theorem hash_full_reversal (H : Hash) (E : Env) (header : Header) :
    (reverseHashString H.Hex).bind hashString2LittleEndian = some (Bytes2Hex H.bytes.reverse) ∧
    (∀ i, i < 32 → H.bytes.reverse[i]? = H.bytes[31 - i]?) ∧
    ∃ payload, combinationData E header = some payload ∧
      payload.take 32 = (E.HashNoNonce header).bytes.reverse ∧
      (payload.drop 32).take 32 = header.AIHash.bytes.reverse := by
  refine ⟨reverseHashString_Hex H, ?_, _, combinationData_eq E header, ?_, ?_⟩
  · intro i hi
    rw [List.getElem?_reverse (by rw [H.size]; exact hi), H.size]
  · simp [List.take_append_of_le_length, Hash.size]
  · simp [List.drop_append_of_le_length, List.take_append_of_le_length, Hash.size]

set_option maxRecDepth 100000 in
/-- C29, the code at a failing input. For the empty string, for a bare `0x` and for
`zz` the call `SetString` fails and `conversType` dereferences the nil result: it
faults, and so does `SubmitWork` called with the nonce text `zz` for pending work,
instead of returning false. For a text of at most 10 characters that is a
non-empty string of hexadecimal digits after an optional `0x`, the nonce
returned is the 8-byte big-endian encoding of its value. -/
theorem conversType_faults :
    conversType [] = none ∧ conversType "0x".toList = none ∧ conversType "zz".toList = none ∧
    servedAgent.SubmitWork sampleDecode "zz".toList sampleHash.Hex sampleHash.Hex "addr".toList
      = none ∧
    (∀ (s : List Char) (v : Nat), s.length ≤ 10 → parseHexDigits (trimPrefix0x s) = some v →
      conversType s = some (EncodeNonce v) ∧ (EncodeNonce v).bytes = putBE 8 v) := by
  refine ⟨by decide, by decide, by decide, by rfl, ?_⟩
  intro s v hlen hv
  exact conversType_of_digits s v hlen hv

/-- C30. When the text methods of the nonce follow the contract of `hexutil`,
`VerifySeal` leaves the header it is given as it is, every field included, whether
it succeeds or fails, and so does the engine as `SubmitWork` calls it. Whatever the
text methods, the nonce is the only field `VerifySeal` can change. -/
theorem VerifySeal_keeps_header (E : Env) (amhash : Amhash) (chain : ChainReader)
    (header : Header) (fuel : Nat) (ht : E.nonceText.Hexutil) :
    VerifySealHeader E amhash chain header fuel = header ∧
    (Amhash.engine E amhash fuel).VerifySeal chain header
      = (VerifySeal E amhash chain header fuel).map (fun r => (r, header)) ∧
    (∀ (E2 : Env),
      VerifySealHeader E2 amhash chain header fuel = header ∨
        VerifySealHeader E2 amhash chain header fuel
          = { header with Nonce := E2.nonceText.reversed header.Nonce }) := by
  refine ⟨VerifySealHeader_of_contract E amhash chain header fuel ht, ?_, ?_⟩
  · unfold Amhash.engine
    simp only
    rw [VerifySealHeader_of_contract E amhash chain header fuel ht]
  · intro E2
    exact VerifySealHeader_fields E2 amhash chain header fuel

set_option maxRecDepth 100000 in
/-- C30, witness: with the text methods of `hexutil`, the header `sampleHeader` is
unchanged by a seal verification that runs through the nonce rewrite. -/
theorem VerifySeal_keeps_header_witness :
    sampleEnv.nonceText.Hexutil ∧
    VerifySealHeader sampleEnv sampleAmhash sampleChain sampleHeader 16 = sampleHeader :=
  ⟨hexutilText_contract,
    (VerifySeal_keeps_header sampleEnv sampleAmhash sampleChain sampleHeader 16
      hexutilText_contract).1⟩

end Matrix
